import Mathlib

/-!
Verification of the text-normalization core of `wiktextract`
(`src/wiktextract/clean.py`): the script converters `to_superscript`,
`to_subscript`, `to_chem`, the LaTeX-subset math expander `to_math`, and the
value cleaner `clean_value`.

The embedding works over `Str := List Char`.  Each Python function is
translated into an executable Lean function of the same name.  Python regular
expressions are hand-compiled into deterministic scanners that reproduce the
alternation order, greediness and backtracking behaviour of the patterns in
the source.  Python exceptions (IndexError from the placeholder vector,
AttributeError from the tuple slip in the radical-index branch) are modelled
by an explicit result type `MathRes`; exhaustion of the recursion fuel is a
separate constructor so that "the Python code raises" and "the embedding ran
out of fuel" are never conflated.
-/

/-- Strings are modelled as lists of characters (Python `str` is a sequence
of code points, as is `List Char`). -/
abbrev Str := List Char

/-- The set of characters matched by Python's `\s` (for `str` patterns) and
stripped by `str.strip()`.  This is the exact set of code points accepted by
CPython's `re` module for `\s` (checked against CPython 3): ASCII whitespace,
the four information-separator controls, NEL, NBSP and the Unicode
space-separator block. -/
def pySpace (c : Char) : Bool :=
  c.toNat ∈ [0x9, 0xA, 0xB, 0xC, 0xD, 0x1C, 0x1D, 0x1E, 0x1F, 0x20,
    0x85, 0xA0, 0x1680, 0x2000, 0x2001, 0x2002, 0x2003, 0x2004, 0x2005,
    0x2006, 0x2007, 0x2008, 0x2009, 0x200A, 0x2028, 0x2029, 0x202F,
    0x205F, 0x3000]

/-- Python `str.strip()`: remove leading and trailing whitespace
(the same character set as `\s`). -/
def pyStrip (s : Str) : Str :=
  ((s.dropWhile pySpace).reverse.dropWhile pySpace).reverse

/-- Python `str.isspace()`: nonempty and all characters whitespace. -/
def pyIsSpaceStr (s : Str) : Bool :=
  !s.isEmpty && s.all pySpace

/-- ASCII letter (`[a-zA-Z]` in the source's regular expressions). -/
def asciiLetter (c : Char) : Bool :=
  ('a' ≤ c && c ≤ 'z') || ('A' ≤ c && c ≤ 'Z')

/-- ASCII digit (`[0-9]` in the source's regular expressions). -/
def asciiDigit (c : Char) : Bool :=
  '0' ≤ c && c ≤ '9'

/-- Python's `\d` (decimal digit).  The source only ever applies it inside
`\[\d+\]`; we model the ASCII decimal digits (non-ASCII decimal digits are
matched by CPython as well, but never interact with any property proved
here; the restriction is recorded for honesty). -/
def pyDigitRe (c : Char) : Bool := asciiDigit c

/-- Python's `str.isdigit()` on a single character, restricted to the digit
characters this module can encounter: ASCII digits plus the Unicode
superscript and subscript digits produced by the glyph tables. -/
def pyIsDigitChar (c : Char) : Bool :=
  asciiDigit c ||
  c.toNat ∈ [0xB2, 0xB3, 0xB9, 0x2070, 0x2074, 0x2075, 0x2076, 0x2077,
    0x2078, 0x2079, 0x2080, 0x2081, 0x2082, 0x2083, 0x2084, 0x2085,
    0x2086, 0x2087, 0x2088, 0x2089]

/-- Python's `str.isalpha()` on a single character, restricted to the
letter repertoire this module manipulates: ASCII letters, Latin-1 letters,
Greek, and the letter-category glyphs appearing in the conversion tables
(modifier-letter superscripts, script/fraktur/double-struck letters and the
mathematical italic alphabet). -/
def pyIsAlphaChar (c : Char) : Bool :=
  asciiLetter c ||
  (0xC0 ≤ c.toNat && c.toNat ≤ 0xFF && c.toNat ≠ 0xD7 && c.toNat ≠ 0xF7) ||
  (0x370 ≤ c.toNat && c.toNat ≤ 0x3FF) ||
  (0x1D00 ≤ c.toNat && c.toNat ≤ 0x1DBF) ||
  (0x2070 ≤ c.toNat && c.toNat ≤ 0x209C &&
    !(pyIsDigitChar c) && c.toNat ∉ [0x207A, 0x207B, 0x207C, 0x207D, 0x207E,
      0x208A, 0x208B, 0x208C, 0x208D, 0x208E]) ||
  (0x2100 ≤ c.toNat && c.toNat ≤ 0x214F) ||
  (0x1D400 ≤ c.toNat && c.toNat ≤ 0x1D7CB)

/-- Python's `\w` (word character), restricted to the same repertoire:
alphanumerics plus underscore.  Crucially, the private-use placeholder
characters are not word characters (category Co), which this definition
reproduces. -/
def pyWord (c : Char) : Bool :=
  pyIsAlphaChar c || pyIsDigitChar c || c = '_'

/-- Python's `str.isalnum()` over a string: nonempty and every character
alphanumeric. -/
def pyIsAlnumStr (s : Str) : Bool :=
  !s.isEmpty && s.all (fun c => pyIsAlphaChar c || pyIsDigitChar c)

/-- Python dictionary lookup, `d.get(k)`.  The source's dictionary literals
occasionally repeat a key, in which case the last binding wins; looking up
the last matching pair reproduces that. -/
def dictGet (d : List (Str × Str)) (k : Str) : Option Str :=
  (d.reverse.find? (fun p => p.1 = k)).map (·.2)

/-- Character-keyed dictionary lookup (for the glyph tables). -/
def dictGetC (d : List (Char × Str)) (k : Char) : Option Str :=
  (d.reverse.find? (fun p => p.1 = k)).map (·.2)

/-- `superscript_ht` from the source: character → Unicode superscript. -/
def superscript_ht : List (Char × Str) := [
  ('1', "¹".data), ('2', "²".data), ('3', "³".data), ('4', "⁴".data),
  ('5', "⁵".data), ('6', "⁶".data), ('7', "⁷".data), ('8', "⁸".data),
  ('9', "⁹".data), ('+', "⁺".data), ('-', "⁻".data), ('=', "⁼".data),
  ('(', "⁽".data), (')', "⁾".data),
  ('A', "ᴬ".data), ('B', "ᴮ".data), ('D', "ᴰ".data), ('E', "ᴱ".data),
  ('G', "ᴳ".data), ('H', "ᴴ".data), ('I', "ᴵ".data), ('J', "ᴶ".data),
  ('K', "ᴷ".data), ('L', "ᴸ".data), ('M', "ᴹ".data), ('N', "ᴺ".data),
  ('O', "ᴼ".data), ('P', "ᴾ".data), ('R', "ᴿ".data), ('T', "ᵀ".data),
  ('U', "ᵁ".data), ('V', "ⱽ".data), ('W', "ᵂ".data),
  ('a', "ᵃ".data), ('b', "ᵇ".data), ('c', "ᶜ".data), ('d', "ᵈ".data),
  ('e', "ᵉ".data), ('f', "ᶠ".data), ('g', "ᵍ".data), ('h', "ʰ".data),
  ('i', "ⁱ".data), ('j', "ʲ".data), ('k', "ᵏ".data), ('l', "ˡ".data),
  ('m', "ᵐ".data), ('n', "ⁿ".data), ('o', "ᵒ".data), ('p', "ᵖ".data),
  ('r', "ʳ".data), ('s', "ˢ".data), ('t', "ᵗ".data), ('u', "ᵘ".data),
  ('v', "ᵛ".data), ('w', "ʷ".data), ('x', "ˣ".data), ('y', "ʸ".data),
  ('z', "ᶻ".data),
  ('β', "ᵝ".data), ('γ', "ᵞ".data), ('δ', "ᵟ".data), ('θ', "ᶿ".data),
  ('ι', "ᶥ".data), ('φ', "ᵠ".data), ('χ', "ᵡ".data), ('∞', " ᪲".data)]

/-- `subscript_ht` from the source: character → Unicode subscript. -/
def subscript_ht : List (Char × Str) := [
  ('0', "₀".data), ('1', "₁".data), ('2', "₂".data), ('3', "₃".data),
  ('4', "₄".data), ('5', "₅".data), ('6', "₆".data), ('7', "₇".data),
  ('8', "₈".data), ('9', "₉".data), ('+', "₊".data), ('-', "₋".data),
  ('=', "₌".data), ('(', "₍".data), (')', "₎".data),
  ('a', "ₐ".data), ('e', "ₑ".data), ('h', "ₕ".data), ('i', "ᵢ".data),
  ('j', "ⱼ".data), ('k', "ₖ".data), ('l', "ₗ".data), ('m', "ₘ".data),
  ('n', "ₙ".data), ('o', "ₒ".data), ('p', "ₚ".data), ('r', "ᵣ".data),
  ('s', "ₛ".data), ('t', "ₜ".data), ('u', "ᵤ".data), ('v', "ᵥ".data),
  ('x', "ₓ".data), ('ə', "ₔ".data), ('ρ', "ᵨ".data), ('φ', "ᵩ".data),
  ('χ', "ᵪ".data)]

/-- `to_superscript` from the source. -/
def to_superscript (text : Str) : Str :=
  if text.isEmpty then []
  else if text.all (fun x => (dictGetC superscript_ht x).isSome) then
    (text.map (fun x => (dictGetC superscript_ht x).getD [])).flatten
  else if text.length = 1 then '^' :: text
  else '^' :: '(' :: (text ++ [')'])

/-- `to_subscript` from the source. -/
def to_subscript (text : Str) : Str :=
  if text.isEmpty then []
  else if text.all (fun x => (dictGetC subscript_ht x).isSome) then
    (text.map (fun x => (dictGetC subscript_ht x).getD [])).flatten
  else if text.length = 1 then '_' :: text
  else '_' :: '(' :: (text ++ [')'])

/-- `to_chem` from the source: digits through `to_subscript`, the rest
unchanged, character by character. -/
def to_chem (text : Str) : Str :=
  (text.map (fun x => if pyIsDigitChar x then to_subscript [x] else [x])).flatten

/-- Entry builder for the string-keyed tables below. -/
def mmE (k v : String) : Str × Str := (k.data, v.data)

/-- `math_map` from the source: bare LaTeX command name → replacement.
Transcribed in source order; duplicate keys are kept so that `dictGet`
(last binding wins) reproduces the Python dictionary literal. -/
def math_map : List (Str × Str) := [
  mmE "ldots" "…", mmE "textbar" "|", mmE "textbullet" "•",
  mmE "textbackslash" "\\", mmE "S" "§", mmE "textless" "<",
  mmE "textgreater" ">", mmE "sim" "∼", mmE "backsim" "∽",
  mmE "tiny" "", mmE "scriptsize" "", mmE "footnotesize" "",
  mmE "small" "", mmE "normalsize" "", mmE "large" "",
  mmE "ge" ">", mmE "geq" ">", mmE "le" "<", mmE "leq" "<",
  mmE "leq" "≤", mmE "geq" "≥", mmE "neq" "≠", mmE "doteq" "≐",
  mmE "approx" "≈", mmE "times" "⨯", mmE "div" "÷", mmE "pm" "±",
  mmE "mp" "∓", mmE "cdot" "·", mmE "circ" "∘", mmE "ast" "∗",
  mmE "smallsetminus" "∖", mmE "slash" "∕", mmE "prime" "′",
  mmE "textprime" "′", mmE "second" "′′", mmE "third" "′′′",
  mmE "fourth" "′′′′", mmE "backprime" "‵", mmE "dagger" "†",
  mmE "ddagger" "‡", mmE "bullet" "•", mmE "ldots" "...",
  mmE "dots" "…", mmE "cat" "⁀", mmE "cdots" "⋯", mmE "infty" "∞",
  mmE "neg" "¬", mmE "wedge" "∧", mmE "vee" "∨", mmE "forall" "∀",
  mmE "in" "∈", mmE "ni" "∋", mmE "nni" "∌", mmE "rightarrow" "→",
  mmE "leftarrow" "←", mmE "leftrightarrow" "↔", mmE "uparrow" "↑",
  mmE "downarrow" "↓", mmE "updownarrow" "↕", mmE "nwarrow" "↖",
  mmE "nearrow" "↗", mmE "searrow" "↘", mmE "swarrow" "↙",
  mmE "nleftarrow" "↚", mmE "nrightarrow" "↛",
  mmE "twoheadleftarrow" "↞", mmE "twoheadrightarrow" "↠",
  mmE "leftarrowtail" "↢", mmE "rightarrowtail" "↣",
  mmE "mapsfrom" "↤", mmE "MapsUp" "↥", mmE "mapsto" "↦",
  mmE "MapsDown" "↧", mmE "hookleftarrow" "↩", mmE "hookrightarrow" "↪",
  mmE "looparrowleft" "↫", mmE "looparrowright" "↬",
  mmE "leftrightsquigarrow" "↭", mmE "nleftrightarrow" "↮",
  mmE "lightning" "↯", mmE "Lsh" "↰", mmE "Rsh" "↱", mmE "dlsh" "↲",
  mmE "drsh" "↳", mmE "curvearrowleft" "↶", mmE "curvearrowright" "↷",
  mmE "circlearrowleft" "↺", mmE "circlearrowright" "↻",
  mmE "leftharpoonup" "↼", mmE "leftharpoondown" "↽",
  mmE "upharpoonright" "↾", mmE "upharpoonleft" "↿",
  mmE "rightharpoonup" "⇀", mmE "rightharpoondown" "⇁",
  mmE "downharpoonright" "⇂", mmE "downharpoonleft" "⇃",
  mmE "rightleftarrows" "⇄", mmE "updownarrows" "⇅",
  mmE "leftrightarrows" "⇆", mmE "leftleftarrows" "⇇",
  mmE "upuparrows" "⇈", mmE "rightrightarrows" "⇉",
  mmE "downdownarrows" "⇊", mmE "leftrightharpoons" "⇋",
  mmE "rightleftharpoons" "⇌", mmE "nLeftarrow" "⇍",
  mmE "nLeftrightarrow" "⇎", mmE "nRightarrow" "⇏",
  mmE "Leftarrow" "⇐", mmE "Uparrow" "⇑", mmE "Rightarrow" "⇒",
  mmE "Downarrow" "⇓", mmE "Leftrightarrow" "⇔", mmE "Updownarrow" "⇕",
  mmE "Nwarrow" "⇖", mmE "Nearrow" "⇗", mmE "Searrow" "⇘",
  mmE "Swarrow" "⇙", mmE "Lleftarrow" "⇚", mmE "Rrightarrow" "⇛",
  mmE "leftsquigarrow" "⇜", mmE "rightsquigarrow" "⇝",
  mmE "dashleftarrow" "⇠", mmE "dashrightarrow" "⇢",
  mmE "LeftArrowBar" "⇤", mmE "RightArrowBar" "⇥",
  mmE "downuparrows" "⇵", mmE "pfun" "⇸", mmE "ffun" "⇻",
  mmE "leftarrowtriangle" "⇽", mmE "rightarrowtriangle" "⇾",
  mmE "leftrightarrowtriangle" "⇿", mmE "subset" "⊂",
  mmE "subseteq" "⊆", mmE "supset" "⊃", mmE "supseteq" "⊇",
  mmE "prec" "≺", mmE "succ" "≻", mmE "exists" "∃", mmE "nexists" "∄",
  mmE "notin" "∉", mmE "Rightarrow" "⇒", mmE "Leftarrow" "⇐",
  mmE "cup" "∪", mmE "cap" "∩", mmE "mid" "∣", mmE "nmid" "∤",
  mmE "parallel" "∥", mmE "nparallel" "∦", mmE "rightangle" "∟",
  mmE "angle" "∠", mmE "measuredangle" "∡", mmE "sphericalangle" "∢",
  mmE "propto" "∝", mmE "vdots" "⋮", mmE "diameter" "∅",
  mmE "lceil" "⌈", mmE "rceil" "⌉", mmE "lfloor" "⌊", mmE "rfloor" "⌋",
  mmE "varnothing" "∅", mmE "sptilde" "~", mmE "cent" "¢",
  mmE "pounds" "£", mmE "yen" "¥", mmE "backslash" "\\",
  mmE "spddot" "̈", mmE "sphat" "^", mmE "Micro" "μ", mmE "eth" "ð",
  mmE "imath" "ı", mmE "jmath" "ȷ", mmE "circledR" "®",
  mmE "therefore" "∴", mmE "because" "∵", mmE "Proportion" "∷",
  mmE "eqcolon" "∹",
  mmE "alpha" "𝛼", mmE "beta" "𝛽", mmE "varbeta" "β", mmE "gamma" "𝛾",
  mmE "delta" "𝛿", mmE "epsilon" "𝜀", mmE "varepsilon" "ε",
  mmE "backepsilon" "϶", mmE "zeta" "𝜁", mmE "eta" "𝜂",
  mmE "theta" "𝜃", mmE "vartheta" "θ", mmE "iota" "𝜄",
  mmE "kappa" "𝜅", mmE "varkappa" "𝜘", mmE "lambda" "𝜆", mmE "mu" "𝜇",
  mmE "nu" "𝜈", mmE "xi" "𝜉", mmE "pi" "𝜋", mmE "varpi" "𝜛",
  mmE "rho" "𝜌", mmE "varrho" "𝜚", mmE "sigma" "𝜎",
  mmE "varsigma" "ς", mmE "tau" "𝜏", mmE "upsilon" "𝜐",
  mmE "phi" "𝜙", mmE "varphi" "𝜑", mmE "chi" "𝜒", mmE "psi" "𝜓",
  mmE "omega" "𝜔", mmE "Gamma" "𝛤", mmE "Delta" "𝛥", mmE "Theta" "𝛩",
  mmE "Lambda" "𝛬", mmE "Xi" "𝛯", mmE "Pi" "𝛱", mmE "Sigma" "𝛴",
  mmE "Upsilon" "𝛶", mmE "Phi" "𝛷", mmE "Psi" "𝛹", mmE "Omega" "𝛺",
  mmE "nabla" "∇", mmE "partial" "∂", mmE "int" "∫", mmE "iint" "∫∫",
  mmE "iint" "∫∫∫", mmE "oint" "∮", mmE "oiint" "∮∮",
  mmE "Euler" "Ɛ", mmE "Im" "ℑ", mmE "ell" "ℓ", mmE "wp" "℘",
  mmE "Re" "ℜ", mmE "tcohm" "Ω", mmE "mho" "℧", mmE "Angstroem" "Å",
  mmE "Finv" "Ⅎ", mmE "aleph" "א", mmE "beth" "ב", mmE "gimel" "ג",
  mmE "daleth" "ד", mmE "Yup" "⅄", mmE "complement" "∁",
  mmE "dotplus" "∔", mmE "hslash" "ℏ", mmE "invamp" "⅋",
  mmE "grave" "̀", mmE "acute" "́", mmE "hat" "̂", mmE "tilde" "̃",
  mmE "bar" "̄", mmE "breve" "̆", mmE "dot" "̇", mmE "ddot" "̈",
  mmE "dddot" "⃛", mmE "dddot" "⃜", mmE "mathring" "̊",
  mmE "check" "̌", mmE "not" "̸",
  mmE "textstyle" "", mmE "sqrt" "√", mmE "frac" " / ",
  mmE "sum" "∑", mmE "prod" "∏", mmE "coprod" "∐", mmE "lvec" "⃐",
  mmE "vec" "⃑", mmE "left" "", mmE "right" "", mmE "bigl" "",
  mmE "bigr" "", mmE "lbrace" "\x7b", mmE "rbrace" "\x7d",
  mmE "lbrack" "[", mmE "rbrack" "]", mmE "langle" "⟨",
  mmE "rangle" "⟩", mmE "vert" "|", mmE "Vert" "‖",
  mmE "CapitalDifferentialD" "ⅅ", mmE "DifferentialD" "ⅆ",
  mmE "ExponentialE" "ⅇ", mmE "ComplexI" "ⅈ", mmE "ComplexJ" "ⅉ",
  mmE "over" "/",
  mmE "style" ""]

/-- `mathcal_map` from the source (single-letter keys → script glyphs). -/
def mathcal_map : List (Str × Str) := [
  mmE "A" "𝒜", mmE "B" "ℬ", mmE "C" "𝒞", mmE "D" "𝒟", mmE "E" "ℰ",
  mmE "F" "ℱ", mmE "G" "𝒢", mmE "H" "ℋ", mmE "I" "ℐ", mmE "J" "𝒥",
  mmE "K" "𝒦", mmE "L" "ℒ", mmE "M" "ℳ", mmE "N" "𝒩", mmE "O" "𝒪",
  mmE "P" "𝒫", mmE "Q" "𝒬", mmE "R" "ℛ", mmE "S" "𝒮", mmE "T" "𝒯",
  mmE "U" "𝒰", mmE "V" "𝒱", mmE "W" "𝒲", mmE "X" "𝒳", mmE "Y" "𝒴",
  mmE "Z" "𝒵",
  mmE "a" "𝒶", mmE "b" "𝒷", mmE "c" "𝒸", mmE "d" "𝒹", mmE "e" "ℯ",
  mmE "f" "𝒻", mmE "g" "ℊ", mmE "h" "𝒽", mmE "i" "𝒾", mmE "j" "𝒿",
  mmE "k" "𝓀", mmE "l" "𝓁", mmE "m" "𝓂", mmE "n" "𝓃", mmE "o" "ℴ",
  mmE "p" "𝓅", mmE "q" "𝓆", mmE "r" "𝓇", mmE "s" "𝓈", mmE "t" "𝓉",
  mmE "u" "𝓊", mmE "v" "𝓋", mmE "w" "𝓌", mmE "x" "𝓍", mmE "y" "𝓎",
  mmE "z" "𝓏"]

/-- `mathfrak_map` from the source. -/
def mathfrak_map : List (Str × Str) := [
  mmE "A" "𝔄", mmE "B" "𝔅", mmE "C" "ℭ", mmE "D" "𝔇", mmE "E" "𝔈",
  mmE "F" "𝔉", mmE "G" "𝔊", mmE "H" "ℌ", mmE "J" "𝔍", mmE "K" "𝔎",
  mmE "L" "𝔏", mmE "M" "𝔐", mmE "N" "𝔑", mmE "O" "𝔒", mmE "P" "𝔓",
  mmE "Q" "𝔔", mmE "S" "𝔖", mmE "T" "𝔗", mmE "U" "𝔘", mmE "V" "𝔙",
  mmE "W" "𝔚", mmE "X" "𝔛", mmE "Y" "𝔜", mmE "Z" "ℨ"]

/-- `mathbb_map` from the source.  The final multi-character keys can never
match a single-character lookup, exactly as in the Python original where
`mathbb_fn` queries the dictionary one character at a time. -/
def mathbb_map : List (Str × Str) := [
  mmE "A" "𝔸", mmE "B" "𝔹", mmE "C" "ℂ", mmE "D" "𝔻", mmE "E" "𝔼",
  mmE "F" "𝔽", mmE "G" "𝔾", mmE "H" "ℍ", mmE "I" "𝕀", mmE "J" "𝕁",
  mmE "K" "𝕂", mmE "L" "𝕃", mmE "M" "𝕄", mmE "N" "ℕ", mmE "O" "𝕆",
  mmE "P" "ℙ", mmE "Q" "ℚ", mmE "R" "ℝ", mmE "S" "𝕊", mmE "T" "𝕋",
  mmE "U" "𝕌", mmE "V" "𝕍", mmE "W" "𝕎", mmE "X" "𝕏", mmE "Y" "𝕐",
  mmE "Z" "ℤ",
  mmE "a" "𝕒", mmE "b" "𝕓", mmE "c" "𝕔", mmE "d" "𝕕", mmE "e" "𝕖",
  mmE "f" "𝕗", mmE "g" "𝕘", mmE "h" "𝕙", mmE "i" "𝕚", mmE "j" "𝕛",
  mmE "k" "𝕜", mmE "l" "𝕝", mmE "m" "𝕞", mmE "n" "𝕟", mmE "o" "𝕠",
  mmE "p" "𝕡", mmE "q" "𝕢", mmE "r" "𝕣", mmE "s" "𝕤", mmE "t" "𝕥",
  mmE "u" "𝕦", mmE "v" "𝕧", mmE "w" "𝕨", mmE "x" "𝕩", mmE "y" "𝕪",
  mmE "z" "𝕫",
  mmE "pi" "ℼ", mmE "gamma" "ℽ", mmE "Gamma" "ℾ", mmE "Pi" "ℿ",
  mmE "Sigma" "⅀"]

/-- `mathcal_fn` from the source: per-character table lookup with identity
fallback. -/
def mathcal_fn (text : Str) : Str :=
  (text.map (fun x => (dictGet mathcal_map [x]).getD [x])).flatten

/-- `mathfrak_fn` from the source. -/
def mathfrak_fn (text : Str) : Str :=
  (text.map (fun x => (dictGet mathfrak_map [x]).getD [x])).flatten

/-- `mathbb_fn` from the source. -/
def mathbb_fn (text : Str) : Str :=
  (text.map (fun x => (dictGet mathbb_map [x]).getD [x])).flatten

/-- Modelled from the spec: `wikitextprocessor.common.MAGIC_FIRST`, the first
code point of the reserved private-use placeholder range supplied by the
upstream markup-parsing collaborator (the module itself is not under `src/`;
the spec specifies a contiguous private-use block guaranteed not to occur in
legitimate input). -/
def MAGIC_FIRST : Nat := 0x100000

/-- Modelled from the spec: `wikitextprocessor.common.MAGIC_LAST`, the last
code point of the reserved placeholder range. -/
def MAGIC_LAST : Nat := 0x10FFFD

/-- Character lies in the reserved placeholder range. -/
def isMagicChar (c : Char) : Bool :=
  MAGIC_FIRST ≤ c.toNat && c.toNat ≤ MAGIC_LAST

/-- No character of the string lies in the reserved placeholder range. -/
def NoMagic (s : Str) : Prop := ∀ c ∈ s, isMagicChar c = false

instance (s : Str) : Decidable (NoMagic s) := by
  unfold NoMagic; infer_instance

/-- Result of running a piece of the Python code: a value, a raised
exception (`crash` models IndexError / AttributeError / ValueError), or
exhaustion of the embedding's recursion fuel (which has no Python
counterpart and is kept distinct from `crash`). -/
inductive MathRes (α : Type) where
  | ok (val : α)
  | crash
  | fuelOut
deriving DecidableEq, Repr

/-- Sequencing of modelled Python computations. -/
def MathRes.bind {α β : Type} : MathRes α → (α → MathRes β) → MathRes β
  | .ok a, f => f a
  | .crash, _ => .crash
  | .fuelOut, _ => .fuelOut

instance : Monad MathRes where
  pure := MathRes.ok
  bind := MathRes.bind

/-- One pass of the substitution in `expand` (the inner helper of
`to_math`): every character in the reserved range is replaced by the
corresponding entry of the placeholder vector; an out-of-range index raises
IndexError in Python, modelled by `crash`. -/
def expandPass (magic_vec : List Str) : Str → MathRes Str
  | [] => .ok []
  | c :: cs =>
    if isMagicChar c then
      match magic_vec.get? (c.toNat - MAGIC_FIRST) with
      | some e => (expandPass magic_vec cs).bind (fun t => .ok (e ++ t))
      | none => .crash
    else
      (expandPass magic_vec cs).bind (fun t => .ok (c :: t))

/-- `expand` from the source: substitute placeholders repeatedly until the
text no longer changes, then strip surrounding whitespace. -/
def expand (magic_vec : List Str) : Nat → Str → MathRes Str
  | 0, _ => .fuelOut
  | fuel + 1, text =>
    (expandPass magic_vec text).bind fun t =>
      if t = text then .ok (pyStrip text) else expand magic_vec fuel t

/-- `p` is a literal prefix of `s` (regex-literal matching). -/
def litPref (p : String) (s : Str) : Bool := p.data.isPrefixOf s

/-- Word-boundary test used after a literal word: the following character is
absent or not a word character (`\b` after a word character). -/
def bdry (s : Str) : Bool :=
  match s with
  | [] => true
  | c :: _ => !pyWord c

/-- `re.match(r"\\WORD\b", v)` for a literal word `WORD`. -/
def reWordB (w : String) (v : Str) : Bool :=
  litPref ("\\" ++ w) v && bdry (v.drop (w.length + 1))

/-- `re.match(r"\\sqrt($|[0-9]|\b)", v)` and the analogous `\frac` guard. -/
def reCmdTail (w : String) (v : Str) : Bool :=
  litPref ("\\" ++ w) v &&
    (match v.drop (w.length + 1) with
     | [] => true
     | c :: _ => asciiDigit c || !pyWord c)

/-- All ways of splitting a greedy `\s*` at the start of `s`, longest first
(the order in which the backtracking engine offers them). -/
def wsSplits (s : Str) : List (Str × Str) :=
  let w := s.takeWhile pySpace
  let r := s.dropWhile pySpace
  (List.range (w.length + 1)).reverse.map
    (fun k => (w.take k, w.drop k ++ r))

/-- Candidates for the `\frac` argument pattern `(\\[a-zA-Z]+|\\.|.)` at
`s`, in backtracking order: the backslash-letters branch longest first, then
the escaped-character branch, then the any-character branch (`.` does not
match a newline). -/
def argCands (s : Str) : List (Str × Str) :=
  match s with
  | [] => []
  | c :: r =>
    if c = '\\' then
      let l := r.takeWhile asciiLetter
      let rr := r.dropWhile asciiLetter
      ((List.range l.length).reverse.map
        (fun i => ('\\' :: l.take (i + 1), l.drop (i + 1) ++ rr))) ++
      (match r with
       | d :: r2 => if d ≠ '\n' then [(['\\', d], r2)] else []
       | [] => []) ++
      [(['\\'], r)]
    else if c = '\n' then [] else [([c], r)]

/-- Backtracking search for `\s*(\\[a-zA-Z]+|\\.|.)\s*(\\[a-zA-Z]+|\\.|.)`
after a literal `\frac`, optionally anchored at the end (`$`, used by the
re-match inside `expand_group`; the tokenizer's variant is unanchored).
Returns the consumed text together with the two captured groups and the
remainder. -/
def fracSearch (reqEnd : Bool) (s : Str) : Option (Str × Str × Str × Str) :=
  (wsSplits s).findSome? fun p1 =>
    (argCands p1.2).findSome? fun pa =>
      (wsSplits pa.2).findSome? fun p2 =>
        (argCands p2.2).findSome? fun pb =>
          if reqEnd && !pb.2.isEmpty then none
          else some (p1.1 ++ pa.1 ++ p2.1 ++ pb.1, pa.1, pb.1, pb.2)

/-- Candidates for the optional command prefix
`(\\(mathcal|mathfrak|mathbb|text|begin|end)\b\s*|\\sqrt\b(\[\d+\])?)?`
of the tokenizer, in backtracking order, always ending with the empty
option. -/
def prefCands (s : Str) : List (Str × Str) :=
  (["mathcal", "mathfrak", "mathbb", "text", "begin", "end"].findSome?
    (fun w =>
      if litPref ("\\" ++ w) s && bdry (s.drop (w.length + 1)) then
        some ((wsSplits (s.drop (w.length + 1))).map
          (fun p => (("\\" ++ w).data ++ p.1, p.2)))
      else none)).getD [] ++
  (if litPref "\\sqrt" s && bdry (s.drop 5) then
    (match s.drop 5 with
     | '[' :: r6 =>
       let d := r6.takeWhile pyDigitRe
       let r7 := r6.dropWhile pyDigitRe
       if !d.isEmpty then
         match r7 with
         | ']' :: r8 => [("\\sqrt[".data ++ d ++ [']'], r8)]
         | _ => []
       else []
     | _ => []) ++ [("\\sqrt".data, s.drop 5)]
  else []) ++
  [([], s)]

/-- Candidates for `[_^]?`: consume the marker first, then the empty
option. -/
def hatCands (s : Str) : List (Str × Str) :=
  match s with
  | c :: r => if c = '_' || c = '^' then [([c], r), ([], s)] else [([], s)]
  | [] => [([], s)]

/-- The generic token `(\\[a-zA-Z]+\s*|\\.|\w+|.)`: first alternative wins;
`.` does not match a newline. -/
def tokMatch (s : Str) : Option (Str × Str) :=
  match s with
  | [] => none
  | c :: r =>
    if c = '\\' then
      let l := r.takeWhile asciiLetter
      if !l.isEmpty then
        let r2 := r.dropWhile asciiLetter
        some ('\\' :: (l ++ r2.takeWhile pySpace), r2.dropWhile pySpace)
      else
        match r with
        | d :: r2 => if d ≠ '\n' then some (['\\', d], r2) else some (['\\'], r)
        | [] => some (['\\'], r)
    else if pyWord c then
      some (s.takeWhile pyWord, s.dropWhile pyWord)
    else if c ≠ '\n' then some ([c], r)
    else none

/-- One match of the tokenizer pattern of `to_math`'s `recurse` at the
current position: in priority order, a whitespace run, a two-argument
`\frac` invocation, or an optional command prefix followed by an optional
`_`/`^` marker and a generic token. -/
def nextToken (s : Str) : Option (Str × Str) :=
  match s with
  | [] => none
  | c :: _ =>
    if pySpace c then
      some (s.takeWhile pySpace, s.dropWhile pySpace)
    else
      (if litPref "\\frac" s then
        (fracSearch false (s.drop 5)).map
          (fun r => ("\\frac".data ++ r.1, r.2.2.2))
      else none).orElse fun _ =>
        (prefCands s).findSome? fun pp =>
          (hatCands pp.2).findSome? fun ph =>
            (tokMatch ph.2).map fun pt => (pp.1 ++ ph.1 ++ pt.1, pt.2)

/-- Iterated tokenization (the `re.finditer` loop); the fuel is the length
of the string, which suffices because every token is nonempty. -/
def tokenizeGo : Nat → Str → List Str
  | 0, _ => []
  | fuel + 1, s =>
    match nextToken s with
    | some (t, r) => t :: tokenizeGo fuel r
    | none => []

/-- All tokens of the tokenizer pattern over `s`. -/
def tokenize (s : Str) : List Str := tokenizeGo s.length s

/-- The spacing heuristic at the end of `expand_group`: prepend a space when
the previous part and the new value are both multi-character and touch with
two alphabetic or two numeric characters.  Evaluating `parts[-1][-1]` on an
empty last part raises IndexError (modelled by `crash`; it cannot happen for
parts produced by the tokenization loop, which drops empty values). -/
def spacingCheck (parts : List Str) (v : Str) : MathRes Str :=
  match parts.getLast? with
  | none => .ok v
  | some lp =>
    match lp.getLast? with
    | none => .crash
    | some lc =>
      let headIs (p : Char → Bool) : Bool :=
        match v.head? with
        | some h => p h
        | none => false
      if ((pyIsAlphaChar lc && headIs pyIsAlphaChar) ||
          (pyIsDigitChar lc && headIs pyIsDigitChar)) &&
         lp.length > 1 && v.length > 1 then
        .ok (' ' :: v)
      else .ok v

/-- The tail of `expand_group` shared by all branches: command lookup for a
leading backslash, dropping of pure whitespace and `&`, application of the
pending conversion function (after placeholder expansion), the spacing
heuristic, and the final placeholder expansion. -/
def egPost (fuel : Nat) (magic_vec parts : List Str)
    (fn : Option (Str → Str)) (v : Str) : MathRes Str :=
  let v :=
    if v.head? = some '\\' then
      match dictGet math_map (pyStrip (v.drop 1)) with
      | none =>
        if pyIsAlnumStr (pyStrip (v.drop 1)) then
          ' ' :: (pyStrip (v.drop 1) ++ [' '])
        else pyStrip (v.drop 1)
      | some m => m
    else if pyIsSpaceStr v || v = ['&'] then [] else v
  match fn with
  | some f =>
    (expand magic_vec fuel v).bind fun v1 =>
      (spacingCheck parts (f v1)).bind (expand magic_vec fuel)
  | none =>
    (spacingCheck parts v).bind (expand magic_vec fuel)

/-- `expand_group` from the source: resolve one matched token.  The branch
for radical index literally `3` assigns a tuple (`v = "∛",` in the source, a
trailing-comma slip), after which `v.startswith` raises AttributeError —
modelled by `crash`.  An unmatchable `\frac` argument shape returns the
token unchanged, skipping the shared tail. -/
def expand_group : Nat → List Str → List Str → Str → MathRes Str
  | 0, _, _, _ => .fuelOut
  | fuel + 1, magic_vec, parts, v =>
    if reWordB "mathcal" v then
      egPost fuel magic_vec parts (some mathcal_fn) (pyStrip (v.drop 8))
    else if reWordB "mathfrak" v then
      egPost fuel magic_vec parts (some mathfrak_fn) (pyStrip (v.drop 9))
    else if reWordB "mathbb" v then
      egPost fuel magic_vec parts (some mathbb_fn) (v.drop 7)
    else if reWordB "begin" v || reWordB "end" v then
      egPost fuel magic_vec parts none []
    else if reWordB "text" v then
      egPost fuel magic_vec parts none (v.drop 5)
    else if litPref "\\sqrt[" v then
      let a := pyStrip ((v.drop 6).dropLast)
      if a = "2".data then egPost fuel magic_vec parts none "√".data
      else if a = "3".data then .crash
      else if a = "4".data then egPost fuel magic_vec parts none "∜".data
      else egPost fuel magic_vec parts none (to_superscript a ++ "√".data)
    else if reCmdTail "sqrt" v then
      egPost fuel magic_vec parts none "√".data
    else if reCmdTail "frac" v then
      match fracSearch true (v.drop 5) with
      | none => .ok v
      | some (_, a, b, _) =>
        (expand_group fuel magic_vec parts (pyStrip a)).bind fun ra =>
          (expand_group fuel magic_vec parts (pyStrip b)).bind fun rb =>
            let ra := if ra.length > 1 then '(' :: (ra ++ [')']) else ra
            let rb := if rb.length > 1 then '(' :: (rb ++ [')']) else rb
            egPost fuel magic_vec parts none (ra ++ '/' :: rb)
    else if v.head? = some '_' then
      egPost fuel magic_vec parts (some to_subscript) (v.drop 1)
    else if v.head? = some '^' then
      egPost fuel magic_vec parts (some to_superscript) (v.drop 1)
    else
      egPost fuel magic_vec parts none v

/-- The token loop of `recurse`: resolve each token against the current
parts, appending nonempty results. -/
def tokensFold (fuel : Nat) (magic_vec : List Str) :
    List Str → List Str → MathRes (List Str)
  | parts, [] => .ok parts
  | parts, t :: ts =>
    (expand_group fuel magic_vec parts t).bind fun v =>
      tokensFold fuel magic_vec (if v.isEmpty then parts else parts ++ [v]) ts

mutual

/-- `recurse` from `to_math`: protect innermost brace groups behind
placeholders, then tokenize and resolve each token.  The placeholder vector
is threaded explicitly (in the source it is a mutable list shared through a
closure). -/
def recurse : Nat → List Str → Str → MathRes (Str × List Str)
  | 0, _, _ => .fuelOut
  | fuel + 1, magic_vec, text =>
    (recLoop fuel magic_vec text).bind fun r =>
      (tokensFold fuel r.2 [] (tokenize r.1)).bind fun parts =>
        .ok (parts.flatten, r.2)

/-- The `while True` loop of `recurse` around `math_magic`. -/
def recLoop : Nat → List Str → Str → MathRes (Str × List Str)
  | 0, _, _ => .fuelOut
  | fuel + 1, magic_vec, text =>
    (mmLoop fuel magic_vec text).bind fun r =>
      if r.1 = text then .ok (text, r.2) else recLoop fuel r.2 r.1

/-- The `while True` loop inside `math_magic`: repeat the substitution pass
until the text stops changing. -/
def mmLoop : Nat → List Str → Str → MathRes (Str × List Str)
  | 0, _, _ => .fuelOut
  | fuel + 1, magic_vec, text =>
    (bracesPass fuel magic_vec text).bind fun r =>
      if r.1 = text then .ok (text, r.2) else mmLoop fuel r.2 r.1

/-- One `re.sub` pass of `math_magic` for `\{([^{}]+)\}`: left-to-right,
non-overlapping; each matched group is resolved by `recurse` and replaced by
a freshly allocated placeholder character (`chr` raises ValueError beyond
U+10FFFF, modelled by `crash`; the allocation index is read before the
recursive call, as in the source). -/
def bracesPass : Nat → List Str → Str → MathRes (Str × List Str)
  | 0, _, _ => .fuelOut
  | _ + 1, magic_vec, [] => .ok ([], magic_vec)
  | fuel + 1, magic_vec, c :: rest =>
    if c = '\x7b' then
      let content := rest.takeWhile (fun x => x ≠ '\x7b' && x ≠ '\x7d')
      let after := rest.drop content.length
      if !content.isEmpty && after.head? = some '\x7d' then
        let n := MAGIC_FIRST + magic_vec.length
        if n ≤ 0x10FFFF then
          (recurse fuel magic_vec content).bind fun r =>
            (bracesPass fuel (r.2 ++ [r.1]) (after.drop 1)).bind fun r2 =>
              .ok (Char.ofNat n :: r2.1, r2.2)
        else .crash
      else
        (bracesPass fuel magic_vec rest).bind fun r =>
          .ok (c :: r.1, r.2)
    else
      (bracesPass fuel magic_vec rest).bind fun r =>
        .ok (c :: r.1, r.2)

end

/-- `to_math` from the source: run `recurse` with a fresh placeholder vector
and return the resulting text.  The fuel is quadratic in the input length,
which is ample for the embedding's uniform fuel discipline (each nested call
consumes one unit). -/
def to_math (text : Str) : MathRes Str :=
  (recurse ((text.length + 8) * (text.length + 8)) [] text).bind fun r =>
    .ok r.1

/-! ## The value cleaner `clean_value` -/

/-- Modelled from the spec: the configuration object
(`wiktextract.config.WiktionaryConfig`, not under `src/`).  It carries
dump-language and extraction settings relevant to nothing in the cleaner's
logic and is passed for interface uniformity only. -/
structure WiktionaryConfig where
  dump_file_lang_code : String := ""

/-- One `re.sub` pass with a replacement computed from match data, pure
version.  The matcher reports the consumed length (always positive for the
patterns in this development) and the match data; unmatched positions
advance by one character.  The fuel is the length of the string. -/
def reSubRGo {α : Type} (mf : Str → Option (Nat × α)) (repl : α → Str) :
    Nat → Str → Str
  | 0, s => s
  | _ + 1, [] => []
  | fuel + 1, s@(c :: rest) =>
    match mf s with
    | some (n, a) => repl a ++ reSubRGo mf repl fuel (s.drop n)
    | none => c :: reSubRGo mf repl fuel rest

/-- One `re.sub` pass, pure version. -/
def reSubR {α : Type} (mf : Str → Option (Nat × α)) (repl : α → Str)
    (s : Str) : Str :=
  reSubRGo mf repl s.length s

/-- One `re.sub` pass with a constant replacement. -/
def reSubC (mf : Str → Option Nat) (r : Str) (s : Str) : Str :=
  reSubR (fun t => (mf t).map (·, ())) (fun _ => r) s

/-- One `re.sub` pass whose replacement function is a modelled Python
computation (used for the replacement callbacks that recursively invoke the
cleaner or the math expander). -/
def reSubMGo {α : Type} (mf : Str → Option (Nat × α)) (repl : α → MathRes Str) :
    Nat → Str → MathRes Str
  | 0, s => .ok s
  | _ + 1, [] => .ok []
  | fuel + 1, s@(c :: rest) =>
    match mf s with
    | some (n, a) =>
      (repl a).bind fun r =>
        (reSubMGo mf repl fuel (s.drop n)).bind fun t => .ok (r ++ t)
    | none =>
      (reSubMGo mf repl fuel rest).bind fun t => .ok (c :: t)

/-- Monadic `re.sub` pass. -/
def reSubM {α : Type} (mf : Str → Option (Nat × α)) (repl : α → MathRes Str)
    (s : Str) : MathRes Str :=
  reSubMGo mf repl s.length s

/-- ASCII lowercasing (sufficient for the case-insensitive tag and
namespace comparisons of the source, which only involve ASCII letters). -/
def asciiLower (c : Char) : Char :=
  if 'A' ≤ c && c ≤ 'Z' then Char.ofNat (c.toNat + 32) else c

/-- Case-insensitive literal prefix (`p` given in lowercase). -/
def litPrefCI (p : String) (s : Str) : Bool :=
  (s.take p.data.length).map asciiLower = p.data

/-- Drop a case-insensitive literal prefix. -/
def dropCI (p : String) (s : Str) : Option Str :=
  if litPrefCI p s then some (s.drop p.data.length) else none

/-- Index of the first character satisfying `p`. -/
def firstIdx (p : Char → Bool) : Str → Option Nat
  | [] => none
  | c :: r => if p c then some 0 else (firstIdx p r).map (· + 1)

/-- `<\s*WORD\b[^>]*>` (case-insensitive): returns the remainder after the
closing `>`. -/
def openTag (w : String) (s : Str) : Option Str :=
  match s with
  | '<' :: r =>
    (dropCI w (r.dropWhile pySpace)).bind fun r2 =>
      if bdry r2 then
        (firstIdx (· = '>') r2).map fun j => r2.drop (j + 1)
      else none
  | _ => none

/-- `<\s*/\s*WORD\s*>` (case-insensitive): remainder after `>`. -/
def closeTag (w : String) (s : Str) : Option Str :=
  match s with
  | '<' :: r =>
    match r.dropWhile pySpace with
    | '/' :: r2 =>
      (dropCI w (r2.dropWhile pySpace)).bind fun r4 =>
        match r4.dropWhile pySpace with
        | '>' :: r6 => some r6
        | _ => none
    | _ => none
  | _ => none

/-- Scan for the earliest position where `closeTag w` matches (the
determinization of a lazy `(.*?)` followed by the closing-tag pattern):
returns the offset and the remainder after the closing tag. -/
def findClose (w : String) : Str → Option (Nat × Str)
  | [] => none
  | s@(_ :: r) =>
    match closeTag w s with
    | some rest => some (0, rest)
    | none => (findClose w r).map fun p => (p.1 + 1, p.2)

/-- `(?si)<\s*W\b[^>]*>(.*?)<\s*/\s*W\s*>`: consumed length and the lazily
captured inner group. -/
def mSpan (w : String) (s : Str) : Option (Nat × Str) :=
  (openTag w s).bind fun r2 =>
    (findClose w r2).map fun p =>
      (s.length - p.2.length, r2.take p.1)

/-- `(?si)<\s*WO\b[^>]*>\s*<\s*/\s*WC\s*>` — the empty-pair patterns (the
source's `<sub>` variant closes with `sup`, a quirk preserved by passing the
closing word separately). -/
def mPairEmpty (wo wc : String) (s : Str) : Option Nat :=
  (openTag wo s).bind fun r2 =>
    (closeTag wc (r2.dropWhile pySpace)).map fun rest =>
      s.length - rest.length

/-- `(?is)<\s*ref\s*[^>]*?>\s*.*?<\s*/\s*ref\s*>\n*`. -/
def mRef (s : Str) : Option Nat :=
  match s with
  | '<' :: r =>
    (dropCI "ref" (r.dropWhile pySpace)).bind fun r2 =>
      (firstIdx (· = '>') r2).bind fun j =>
        (findClose "ref" (r2.drop (j + 1))).map fun p =>
          s.length - (p.2.dropWhile (· = '\n')).length
  | _ => none

/-- `(?si)<\s*br\s*/?>\n*`. -/
def mBr (s : Str) : Option Nat :=
  match s with
  | '<' :: r =>
    (dropCI "br" (r.dropWhile pySpace)).bind fun r2 =>
      ((match r2.dropWhile pySpace with
        | '/' :: '>' :: rest => some rest
        | '>' :: rest => some rest
        | _ => none) : Option Str).map fun rest =>
        s.length - (rest.dropWhile (· = '\n')).length
  | _ => none

/-- `(?si)<\s*/?\s*(W1|W2|...)\b[^>]*>` — block and cell tags. -/
def mBlock (words : List String) (s : Str) : Option Nat :=
  match s with
  | '<' :: r =>
    let r1 := r.dropWhile pySpace
    let r2 := match r1 with
              | '/' :: t => t
              | _ => r1
    let r3 := r2.dropWhile pySpace
    words.findSome? fun w =>
      (dropCI w r3).bind fun r4 =>
        if bdry r4 then
          (firstIdx (· = '>') r4).map fun j =>
            s.length - (r4.drop (j + 1)).length
        else none
  | _ => none

/-- `(?s)<\s*[^/>][^>]*>` — any remaining opening tag. -/
def mOpenAny (s : Str) : Option Nat :=
  match s with
  | '<' :: r =>
    match r.dropWhile pySpace with
    | c :: r2 =>
      if c ≠ '/' && c ≠ '>' then
        (firstIdx (· = '>') r2).map fun j =>
          s.length - (r2.drop (j + 1)).length
      else none
    | [] => none
  | _ => none

/-- `(?s)<\s*/\s*[^>]+>` — any remaining closing tag (at least one
character between `/` and `>`). -/
def mCloseAny (s : Str) : Option Nat :=
  match s with
  | '<' :: r =>
    match r.dropWhile pySpace with
    | '/' :: r2 =>
      (firstIdx (· = '>') r2).bind fun j =>
        if j ≥ 1 then some (s.length - (r2.drop (j + 1)).length) else none
    | _ => none
  | _ => none

/-- `\{\{[^}]+\}\}` — leftover template invocations. -/
def mTemplate (s : Str) : Option Nat :=
  match s with
  | '\x7b' :: '\x7b' :: r =>
    let t := r.takeWhile (· ≠ '\x7d')
    if t.isEmpty then none
    else
      match r.drop t.length with
      | '\x7d' :: '\x7d' :: _ => some (t.length + 4)
      | _ => none
  | _ => none

/-- Earliest suffix position where `p` holds. -/
def firstSuffIdx (p : Str → Bool) : Str → Option Nat
  | [] => if p [] then some 0 else none
  | s@(_ :: r) => if p s then some 0 else (firstSuffIdx p r).map (· + 1)

/-- `(?s)\{\|.*?\|\}` — wiki tables. -/
def mTable (s : Str) : Option Nat :=
  match s with
  | '\x7b' :: '|' :: r =>
    (firstSuffIdx (litPref "|\x7d") r).map fun k => k + 4
  | _ => none

/-- `(?si)\[\[\s*Category\s*:\s*([^]]+?)\s*\]\]`. -/
def mCategory (s : Str) : Option Nat :=
  match s with
  | '[' :: '[' :: r =>
    (dropCI "category" (r.dropWhile pySpace)).bind fun r2 =>
      match r2.dropWhile pySpace with
      | ':' :: r4 =>
        (firstIdx (· = ']') r4).bind fun j =>
          if j ≥ 1 && litPref "]]" (r4.drop j) then
            some (s.length - (r4.drop (j + 2)).length)
          else none
      | _ => none
  | _ => none

/-- Candidates for a lazy group `[^…]+?`: lengths 1, 2, … over the run of
permitted characters, shortest first. -/
def lazyCands (keep : Char → Bool) (s : Str) : List (Str × Str) :=
  (List.range (s.takeWhile keep).length).map
    fun k => (s.take (k + 1), s.drop (k + 1))

/-- Permitted characters of the `[^]|]+?` link groups. -/
def linkChar (c : Char) : Bool := c ≠ ']' && c ≠ '|'

/-- Candidates for the optional extra-caption group
`(\s*\|\s*([^]|]+?))?` of the piped-link pattern: the present alternative's
choices first (whitespace longest first, lazy group shortest first), then
the absent alternative. -/
def optExtra (s : Str) : List (Option Str × Str) :=
  ((wsSplits s).flatMap fun p1 =>
    match p1.2 with
    | '|' :: r =>
      (wsSplits r).flatMap fun p2 =>
        (lazyCands linkChar p2.2).map fun g => (some g.1, g.2)
    | _ => []) ++ [(none, s)]

/-- `(?s)\[\[\s*([^]|]+?)\s*\|\s*([^]|]+?)(\s*\|\s*([^]|]+?))?\s*\]\]` —
piped wiki-links.  Returns consumed length, target, display, and the
optional extra caption. -/
def mLinkBars (s : Str) : Option (Nat × Str × Str × Option Str) :=
  match s with
  | '[' :: '[' :: r =>
    (wsSplits r).findSome? fun p1 =>
      (lazyCands linkChar p1.2).findSome? fun g1 =>
        (wsSplits g1.2).findSome? fun p2 =>
          match p2.2 with
          | '|' :: r3 =>
            (wsSplits r3).findSome? fun p3 =>
              (lazyCands linkChar p3.2).findSome? fun g2 =>
                (optExtra g2.2).findSome? fun ge =>
                  (wsSplits ge.2).findSome? fun p4 =>
                    match p4.2 with
                    | ']' :: ']' :: r6 =>
                      some (s.length - r6.length, g1.1, g2.1, ge.1)
                    | _ => none
          | _ => none
  | _ => none

/-- The quirky character class `[a-zA-z0-9]` of the namespaced-link pattern
(the `A-z` range also covers `[ \ ] ^ _` and the backquote). -/
def azQuirk (c : Char) : Bool :=
  ('A' ≤ c && c ≤ 'z') || asciiDigit c

/-- Candidates for the optional namespace group `(([a-zA-z0-9]+)\s*:)?`:
only the maximal word can succeed (shorter splits leave a word character
where `\s*:` expects whitespace or a colon). -/
def optNs (s : Str) : List (Option Str × Str) :=
  (let w := s.takeWhile azQuirk
   if w.isEmpty then []
   else
     match (s.drop w.length).dropWhile pySpace with
     | ':' :: r3 => [(some w, r3)]
     | _ => []) ++ [(none, s)]

/-- `(?s)\[\[\s*(([a-zA-z0-9]+)\s*:)?\s*([^][]+?)\]\]` — namespaced or
plain links.  Returns consumed length, the optional namespace and the
body group. -/
def mLink (s : Str) : Option (Nat × Option Str × Str) :=
  match s with
  | '[' :: '[' :: r =>
    (wsSplits r).findSome? fun p1 =>
      (optNs p1.2).findSome? fun gn =>
        (wsSplits gn.2).findSome? fun p2 =>
          (lazyCands (fun c => c ≠ ']' && c ≠ '[') p2.2).findSome? fun g3 =>
            match g3.2 with
            | ']' :: ']' :: r4 =>
              some (s.length - r4.length, gn.1, g3.1)
            | _ => none
  | _ => none

/-- `(?s)\[\[\s*:?([^]|]+?)\s*\]\]` — the remaining simple links. -/
def mLink2 (s : Str) : Option (Nat × Str) :=
  match s with
  | '[' :: '[' :: r =>
    (wsSplits r).findSome? fun p1 =>
      (((match p1.2 with
         | ':' :: r2 => [r2]
         | _ => []) ++ [p1.2]) : List Str).findSome? fun rr =>
        (lazyCands linkChar rr).findSome? fun g =>
          (wsSplits g.2).findSome? fun p2 =>
            match p2.2 with
            | ']' :: ']' :: r4 => some (s.length - r4.length, g.1)
            | _ => none
  | _ => none

/-- `\[(https?:)//[^]\s]+\s+([^]]+?)\s*\]` — external links; returns
consumed length and the label group. -/
def mUrl (s : Str) : Option (Nat × Str) :=
  match s with
  | '[' :: r =>
    (((if litPref "https:" r then [r.drop 6] else []) ++
      (if litPref "http:" r then [r.drop 5] else [])) : List Str).findSome?
      fun r1 =>
        if litPref "//" r1 then
          let u := (r1.drop 2).takeWhile (fun c => !pySpace c && c ≠ ']')
          if u.isEmpty then none
          else
            let r3 := (r1.drop 2).drop u.length
            (wsSplits r3).findSome? fun pW =>
              if pW.1.isEmpty then none
              else
                (lazyCands (· ≠ ']') pW.2).findSome? fun g =>
                  (wsSplits g.2).findSome? fun pE =>
                    match pE.2 with
                    | ']' :: r5 => some (s.length - r5.length, g.1)
                    | _ => none
        else none
  | _ => none

/-- `\[//[^]\s]+\s+edit\s*\]` — local edit links. -/
def mEdit (s : Str) : Option Nat :=
  match s with
  | '[' :: r =>
    if litPref "//" r then
      let u := (r.drop 2).takeWhile (fun c => !pySpace c && c ≠ ']')
      if u.isEmpty then none
      else
        let r3 := (r.drop 2).drop u.length
        let w := r3.takeWhile pySpace
        if w.isEmpty then none
        else
          (dropCI "edit" (r3.drop w.length)).bind fun r4 =>
            match r4.dropWhile pySpace with
            | ']' :: r5 => some (s.length - r5.length)
            | _ => none
    else none
  | _ => none

/-- The apostrophe character (0x27). -/
def aposChar : Char := Char.ofNat 0x27

/-- `''+` — italic/bold markup: a run of two or more apostrophes. -/
def mQuotes (s : Str) : Option Nat :=
  match s with
  | c1 :: c2 :: _ =>
    if c1 = aposChar && c2 = aposChar then
      some (s.takeWhile (· = aposChar)).length
    else none
  | _ => none

/-- Hexadecimal digit value (`0`-`9`, `a`-`f`, `A`-`F`; 48, 87 and 55 are
the respective code-point offsets). -/
def hexVal (c : Char) : Option Nat :=
  let n := c.toNat
  if asciiDigit c then some (n - 48)
  else if 97 ≤ n && n ≤ 102 then some (n - 87)
  else if 65 ≤ n && n ≤ 70 then some (n - 55)
  else none

/-- Digits to a number. -/
def decNum (l : Str) : Nat := l.foldl (fun a c => a * 10 + (c.toNat - '0'.toNat)) 0

/-- Hex digits to a number. -/
def hexNum (l : Str) : Nat := l.foldl (fun a c => a * 16 + ((hexVal c).getD 0)) 0

/-- Modelled from the spec: `html.unescape` (Python standard library,
external to this repository; the spec only says "Decode HTML entities
(e.g. `&amp;` → `&`)").  The model decodes numeric character references and
the basic named entities, with Python's tolerance for a missing trailing
semicolon on the legacy names; any other ampersand is left alone.  The only
property the development relies on is that text without an ampersand passes
through unchanged. -/
def mEntity (s : Str) : Option (Nat × Str) :=
  match s with
  | '&' :: '#' :: r =>
    (match r with
     | x :: r2 =>
       if x = 'x' || x = 'X' then
         let d := r2.takeWhile (fun c => (hexVal c).isSome)
         if d.isEmpty then none
         else
           let n := hexNum d
           let r3 := r2.drop d.length
           let extra := if r3.head? = some ';' then 1 else 0
           if n ≤ 0x10FFFF && !(0xD800 ≤ n && n ≤ 0xDFFF) then
             some (2 + 1 + d.length + extra, [Char.ofNat n])
           else none
       else
         let d := r.takeWhile asciiDigit
         if d.isEmpty then none
         else
           let n := decNum d
           let r3 := r.drop d.length
           let extra := if r3.head? = some ';' then 1 else 0
           if n ≤ 0x10FFFF && !(0xD800 ≤ n && n ≤ 0xDFFF) then
             some (2 + d.length + extra, [Char.ofNat n])
           else none
     | [] => none)
  | '&' :: r =>
    ([("amp;", "&"), ("amp", "&"), ("lt;", "<"), ("lt", "<"),
      ("gt;", ">"), ("gt", ">"), ("quot;", "\""), ("quot", "\""),
      ("apos;", "\x27"), ("nbsp;", "\xa0")].findSome? fun p =>
      if litPref p.1 r then some (1 + p.1.data.length, p.2.data) else none)
  | _ => none

/-- `html.unescape`, modelled (see `mEntity`). -/
def htmlUnescape (s : Str) : Str := reSubR mEntity id s

/-- `[ \t\r]+` — horizontal whitespace runs. -/
def mHWs (s : Str) : Option Nat :=
  let p : Char → Bool := fun c => c = ' ' || c = '\t' || c = '\r'
  match s with
  | c :: _ => if p c then some (s.takeWhile p).length else none
  | _ => none

/-- ` *\n+` — newline runs with preceding spaces. -/
def mNlRun (s : Str) : Option Nat :=
  let w := s.takeWhile (· = ' ')
  let n := (s.drop w.length).takeWhile (· = '\n')
  if n.isEmpty then none else some (w.length + n.length)

/-! ### Unicode NFC, modelled

Modelled from the spec: `unicodedata.normalize("NFC", ·)` (Python standard
library, external to this repository; the spec says "Apply Unicode
canonical composition normalization (NFC) to the final string").  The model
implements the canonical composition algorithm — canonical decomposition,
canonical reordering by combining class, then composition — over data
tables restricted to the Latin-1 precomposed repertoire and the combining
marks this module's symbol table can emit.  Characters absent from every
table are normalization-inert, which is the property the development's
theorems rely on (all glyphs produced by the conversion tables are
NFC-stable). -/

/-- Canonical composition pairs (base, combining mark, composite), as code
points: the Latin-1 precomposed letters. -/
def nfcPairs : List (Nat × Nat × Nat) := [
  (0x41, 0x300, 0xC0), (0x41, 0x301, 0xC1), (0x41, 0x302, 0xC2),
  (0x41, 0x303, 0xC3), (0x41, 0x308, 0xC4), (0x41, 0x30A, 0xC5),
  (0x43, 0x327, 0xC7), (0x45, 0x300, 0xC8), (0x45, 0x301, 0xC9),
  (0x45, 0x302, 0xCA), (0x45, 0x308, 0xCB), (0x49, 0x300, 0xCC),
  (0x49, 0x301, 0xCD), (0x49, 0x302, 0xCE), (0x49, 0x308, 0xCF),
  (0x4E, 0x303, 0xD1), (0x4F, 0x300, 0xD2), (0x4F, 0x301, 0xD3),
  (0x4F, 0x302, 0xD4), (0x4F, 0x303, 0xD5), (0x4F, 0x308, 0xD6),
  (0x55, 0x300, 0xD9), (0x55, 0x301, 0xDA), (0x55, 0x302, 0xDB),
  (0x55, 0x308, 0xDC), (0x59, 0x301, 0xDD),
  (0x61, 0x300, 0xE0), (0x61, 0x301, 0xE1), (0x61, 0x302, 0xE2),
  (0x61, 0x303, 0xE3), (0x61, 0x308, 0xE4), (0x61, 0x30A, 0xE5),
  (0x63, 0x327, 0xE7), (0x65, 0x300, 0xE8), (0x65, 0x301, 0xE9),
  (0x65, 0x302, 0xEA), (0x65, 0x308, 0xEB), (0x69, 0x300, 0xEC),
  (0x69, 0x301, 0xED), (0x69, 0x302, 0xEE), (0x69, 0x308, 0xEF),
  (0x6E, 0x303, 0xF1), (0x6F, 0x300, 0xF2), (0x6F, 0x301, 0xF3),
  (0x6F, 0x302, 0xF4), (0x6F, 0x303, 0xF5), (0x6F, 0x308, 0xF6),
  (0x75, 0x300, 0xF9), (0x75, 0x301, 0xFA), (0x75, 0x302, 0xFB),
  (0x75, 0x308, 0xFC), (0x79, 0x301, 0xFD), (0x79, 0x308, 0xFF)]

/-- Canonical combining class, for the combining marks the module can
emit (everything else is class 0). -/
def cccOf (c : Char) : Nat :=
  if 0x300 ≤ c.toNat && c.toNat ≤ 0x30C then 230
  else if c.toNat = 0x323 then 220
  else if c.toNat = 0x327 || c.toNat = 0x328 then 202
  else if c.toNat = 0x338 then 1
  else if 0x20D0 ≤ c.toNat && c.toNat ≤ 0x20DC then 230
  else if c.toNat = 0x1AB2 then 230
  else 0

/-- Primary composite for a pair, if any. -/
def composePair (a b : Char) : Option Char :=
  (nfcPairs.find? (fun t => t.1 = a.toNat && t.2.1 = b.toNat)).map
    (fun t => Char.ofNat t.2.2)

/-- Canonical decomposition (one level; the bases in the table have no
further decomposition). -/
def canonDecomp (c : Char) : Option (Char × Char) :=
  (nfcPairs.find? (fun t => t.2.2 = c.toNat)).map
    (fun t => (Char.ofNat t.1, Char.ofNat t.2.1))

/-- One pass of the canonical-reordering bubble, carrying the current
character (structural recursion on the tail). -/
def reorderGo (x : Char) : Str → Str
  | [] => [x]
  | b :: rest =>
    if cccOf x > cccOf b && cccOf b > 0 then b :: reorderGo x rest
    else x :: reorderGo b rest

/-- One pass of the canonical-reordering bubble. -/
def reorderPass : Str → Str
  | [] => []
  | c :: rest => reorderGo c rest

/-- Canonical reordering: iterate the pass to a fixpoint. -/
def reorderN : Nat → Str → Str
  | 0, s => s
  | n + 1, s =>
    let t := reorderPass s
    if t = s then s else reorderN n t

/-- The composition walk: `st` is the last starter, `pending` the combining
marks that failed to compose with it. -/
def compGo (st : Char) (pending : Str) : Str → Str
  | [] => st :: pending
  | c :: rs =>
    if cccOf c = 0 then
      match (if pending.isEmpty then composePair st c else none) with
      | some d => compGo d pending rs
      | none => (st :: pending) ++ compGo c [] rs
    else
      if ((pending.getLast?.map cccOf).getD 0) < cccOf c then
        match composePair st c with
        | some d => compGo d pending rs
        | none => compGo st (pending ++ [c]) rs
      else compGo st (pending ++ [c]) rs

/-- Canonical composition over a reordered string. -/
def canonCompose : Str → Str
  | [] => []
  | c :: rest =>
    if cccOf c = 0 then compGo c [] rest else c :: canonCompose rest

/-- The modelled `unicodedata.normalize("NFC", ·)`. -/
def unicodeNFC (s : Str) : Str :=
  canonCompose (reorderN s.length
    ((s.map (fun c =>
      match canonDecomp c with
      | some p => [p.1, p.2]
      | none => [c])).flatten))

/-- `re.match(r"(?si)(File|Image)\s*:", lnk)` from `repl_link_bars`. -/
def fileImagePref (g : Str) : Bool :=
  (match dropCI "file" g with
   | some r => (r.dropWhile pySpace).head? = some ':'
   | none => false) ||
  (match dropCI "image" g with
   | some r => (r.dropWhile pySpace).head? = some ':'
   | none => false)

/-- Python's `x or y` on strings: the first operand unless it is empty. -/
def pyOr (a b : Str) : Str := if a.isEmpty then b else a

/-- `clean_value` from the source, fuel-indexed (the fuel bounds the depth
of the recursive cleaning of sub-matches; it is not consumed by the
substitution passes themselves). -/
def clean_value : Nat → WiktionaryConfig → Str → Bool → MathRes Str
  | 0, _, _, _ => .fuelOut
  | fuel + 1, config, title0, no_strip => do
    let title := reSubC mTemplate [] title0
    let title := reSubC mTable "\n".data title
    let title := reSubC mRef [] title
    let title := reSubC mBr ", ".data title
    let title := reSubC (mBlock ["div", "tr", "li", "table"]) "\n".data title
    let title := reSubC (mBlock ["td", "th"]) " ".data title
    let title := reSubC (mPairEmpty "sup" "sup") [] title
    let title ← reSubM (mSpan "sup")
      (fun g => (clean_value fuel config g false).bind fun r =>
        .ok (to_superscript r)) title
    let title := reSubC (mPairEmpty "sub" "sup") [] title
    let title ← reSubM (mSpan "sub")
      (fun g => (clean_value fuel config g false).bind fun r =>
        .ok (to_subscript r)) title
    let title ← reSubM (mSpan "chem")
      (fun g => (clean_value fuel config g false).bind fun r =>
        .ok (to_chem r)) title
    let title ← reSubM (mSpan "math") (fun g => to_math g) title
    let title := reSubC mOpenAny [] title
    let title := reSubC mCloseAny [] title
    let title := reSubC mCategory [] title
    let title ← reSubM mLinkBars
      (fun d =>
        if fileImagePref d.1 then .ok []
        else clean_value fuel config
          (pyOr ((d.2.2).getD []) (pyOr d.2.1 [])) true) title
    let title ← reSubM mLink
      (fun d =>
        if (match d.1 with
            | some g => g.map asciiLower = "file".data ||
                        g.map asciiLower = "image".data
            | none => false) then .ok []
        else clean_value fuel config (d.2.takeWhile (· ≠ '|')) true) title
    let title ← reSubM mLink2
      (fun g => clean_value fuel config g true) title
    let title ← reSubM mUrl
      (fun g => clean_value fuel config g true) title
    let title := reSubC mEdit [] title
    let title := reSubC mQuotes [] title
    let title := htmlUnescape title
    let title := title.map (fun c => if c = Char.ofNat 0xA0 then ' ' else c)
    let title := reSubC mHWs " ".data title
    let title := reSubC mNlRun "\n".data title
    let title := if no_strip then title else pyStrip title
    .ok (unicodeNFC title)

/-- `clean_value` with its default fuel (ample: the recursion depth is
bounded by the number of nested sub-matches, each strictly shorter than its
enclosing text). -/
def cleanValue (config : WiktionaryConfig) (title : Str)
    (no_strip : Bool := false) : MathRes Str :=
  clean_value (title.length + 64) config title no_strip

/-! ### Predicates used by the theorem statements -/

/-- A conservative class of plain characters: ASCII letters, digits and
common punctuation that no cleaning pass can match on.  Used to quantify
the link/span contents of the general theorems. -/
def plainChar (c : Char) : Bool :=
  asciiLetter c || asciiDigit c ||
  c ∈ ['.', ':', ',', ';', '!', '?', '(', ')', '+', '-', '*', '/',
       '=', '@', '%', '~', '"', '_']

/-- Normalization-inert character: no canonical decomposition, combining
class zero, and not the second element of any composition pair.  The
modelled NFC is the identity on strings of such characters. -/
def nfcInert (c : Char) : Bool :=
  (canonDecomp c).isNone && cccOf c = 0 &&
  nfcPairs.all (fun t => t.2.1 ≠ c.toNat)

/-- A character that no substitution pass of `clean_value` can match on:
not a tag/template/link/entity/italics/non-breaking-space trigger and
normalization-inert. -/
def cleanChar (c : Char) : Bool :=
  c ≠ '<' && c ≠ '\x7b' && c ≠ '[' && c ≠ '&' && c ≠ Char.ofNat 0xA0 &&
  c ≠ aposChar && nfcInert c

/-- Markup-free input: every character is clean (whitespace is allowed). -/
def MarkupFree (s : Str) : Bool := s.all cleanChar

/-- Head of the list satisfies `q`. -/
def headSat (q : Char → Bool) : Str → Bool
  | c :: _ => q c
  | [] => false

/-- No adjacent pair `c d` with `p c` and `q d`. -/
def noPair (p q : Char → Bool) : Str → Bool
  | [] => true
  | c :: r => !(p c && headSat q r) && noPair p q r

/-- Horizontal-whitespace characters of the collapse pass `[ \t\r]+`. -/
def hwsChar (c : Char) : Bool := c = ' ' || c = '\t' || c = '\r'

/-- Is a space. -/
def isSp (c : Char) : Bool := c = ' '

/-- Is a newline. -/
def isNl (c : Char) : Bool := c = '\n'

/-- No newline separated from a following newline by nonempty horizontal
whitespace (the pattern on which the whitespace collapse of `clean_value`
is not idempotent). -/
def noNlGapNl : Str → Bool
  | [] => true
  | c :: r =>
    (if c = '\n' then
      let w := r.takeWhile hwsChar
      w.isEmpty || (r.drop w.length).head? ≠ some '\n'
    else true) && noNlGapNl r

/-- No tab or carriage-return characters. -/
def noTabCr (s : Str) : Bool := s.all (fun c => c != '\t' && c != '\r')

/-- Whitespace already in the collapsed form the cleaner produces: no
tabs/CRs, no consecutive spaces, no space directly before a newline, no
consecutive newlines. -/
def wsCollapsed (s : Str) : Bool :=
  noTabCr s && noPair isSp isSp s && noPair isSp isNl s && noPair isNl isNl s

/-- The piped-link matcher's innermost continuation (close of the link),
named for the correctness lemmas below; definitionally the corresponding
lambda of `mLinkBars`. -/
def lbStep4 (L : Str) (a b : Str) (ge : Option Str × Str) :
    Option (Nat × Str × Str × Option Str) :=
  (wsSplits ge.2).findSome? fun p4 =>
    match p4.2 with
    | ']' :: ']' :: r6 => some (L.length - r6.length, a, b, ge.1)
    | _ => none

/-- Continuation after the display group of `mLinkBars`. -/
def lbStep3 (L : Str) (a : Str) (g2 : Str × Str) :
    Option (Nat × Str × Str × Option Str) :=
  (optExtra g2.2).findSome? (lbStep4 L a g2.1)

/-- Continuation after the whitespace preceding the display group. -/
def lbStep3w (L : Str) (a : Str) (p3 : Str × Str) :
    Option (Nat × Str × Str × Option Str) :=
  (lazyCands linkChar p3.2).findSome? (lbStep3 L a)

/-- Continuation after the target group of `mLinkBars`. -/
def lbStep2 (L : Str) (g1 : Str × Str) :
    Option (Nat × Str × Str × Option Str) :=
  (wsSplits g1.2).findSome? fun p2 =>
    match p2.2 with
    | '|' :: r3 => (wsSplits r3).findSome? (lbStep3w L g1.1)
    | _ => none

/-- Continuation after the leading whitespace of `mLinkBars`. -/
def lbStep1 (L : Str) (p1 : Str × Str) :
    Option (Nat × Str × Str × Option Str) :=
  (lazyCands linkChar p1.2).findSome? (lbStep2 L)

/-- Every placeholder-vector entry is free of reserved placeholder
characters: the invariant maintained by `to_math`'s recursion. -/
def VecOK (vec : List Str) : Prop := ∀ e ∈ vec, NoMagic e

instance (vec : List Str) : Decidable (VecOK vec) := by
  unfold VecOK
  infer_instance

/-- The shapes the `\frac` argument pattern `(\\[a-zA-Z]+|\\.|.)` can
capture. -/
def ArgShape (x : Str) : Prop :=
  (∃ c, x = [c] ∧ c ≠ '\\' ∧ c ≠ '\n') ∨ x = ['\\'] ∨
  (∃ d, x = ['\\', d] ∧ d ≠ '\n') ∨
  (∃ l, x = '\\' :: l ∧ l ≠ [] ∧ ∀ c ∈ l, asciiLetter c = true)

/-! ## Claim theorems -/

/-- Helper: the character-list form of the `\frac` command prefix. -/
theorem frac_data_eq : "\\frac".data = ['\\', 'f', 'r', 'a', 'c'] := rfl

/-- Claim C1: the spec states that `to_math("\sqrt{2}")` renders `"√2"` and
`to_math("\sqrt[3]{8}")` renders `"∛8"`, with root glyphs for bracketed
indices 2, 3, 4.  The code disagrees: the tokenizer glues the radicand
placeholder into the `\sqrt` token, whose branch then discards it
(`\sqrt{2}` renders `"√"`), and the index slice `v[6:-1]` keeps the closing
bracket, so an index of `3` is read as `"3]"` and rendered through the
superscript fallback (`\sqrt[3]{8}` renders `"^(3])√"`); the literal-`3`
comparison can never succeed, and its branch assigns a tuple
(`v = "∛",`) that would raise AttributeError if it were reached.  This
theorem evaluates the embedded code at the spec's own examples. -/
theorem C1_sqrt_examples :
    to_math "\\sqrt\x7b2\x7d".data = .ok "√".data ∧
    to_math "\\sqrt[3]\x7b8\x7d".data = .ok "^(3])√".data := by
  constructor <;> decide

/-- Claim C3: `to_superscript` returns `""` on empty input, the
concatenation of mapped glyphs when every character is in the superscript
table, `"^" + text` when some character is unmapped and the text is a
single character, and `"^(" + text + ")"` when some character is unmapped
and the text is longer. -/
theorem C3_to_superscript_cases (text : Str) :
    (text = [] → to_superscript text = []) ∧
    ((∀ c ∈ text, (dictGetC superscript_ht c).isSome = true) →
      to_superscript text =
        (text.map (fun c => (dictGetC superscript_ht c).getD [])).flatten) ∧
    ((∃ c ∈ text, dictGetC superscript_ht c = none) → text.length = 1 →
      to_superscript text = '^' :: text) ∧
    ((∃ c ∈ text, dictGetC superscript_ht c = none) → 1 < text.length →
      to_superscript text = '^' :: '(' :: (text ++ [')'])) := by
  refine ⟨?_, ?_, ?_, ?_⟩
  · rintro rfl; rfl
  · intro h
    cases text with
    | nil => simp [to_superscript]
    | cons a l =>
      have hall : (a :: l).all (fun x => (dictGetC superscript_ht x).isSome) = true := by
        rw [List.all_eq_true]; exact fun c hc => h c hc
      simp [to_superscript, hall]
  · rintro ⟨c, hc, hnone⟩ hlen
    have hne : text.isEmpty = false := by
      cases text with
      | nil => cases hc
      | cons a l => rfl
    have hall : text.all (fun x => (dictGetC superscript_ht x).isSome) = false := by
      rw [List.all_eq_false]
      exact ⟨c, hc, by simp [hnone]⟩
    simp [to_superscript, hne, hall, hlen]
  · rintro ⟨c, hc, hnone⟩ hlen
    have hne : text.isEmpty = false := by
      cases text with
      | nil => cases hc
      | cons a l => rfl
    have hall : text.all (fun x => (dictGetC superscript_ht x).isSome) = false := by
      rw [List.all_eq_false]
      exact ⟨c, hc, by simp [hnone]⟩
    have : text.length ≠ 1 := by omega
    simp [to_superscript, hne, hall, this]

/-- Witness for C3 at concrete inputs: all four cases. -/
theorem C3_witness :
    to_superscript [] = [] ∧
    to_superscript "ab".data = "ᵃᵇ".data ∧
    to_superscript "]".data = "^]".data ∧
    to_superscript "3]".data = "^(3])".data := by
  refine ⟨(C3_to_superscript_cases []).1 rfl, ?_, ?_, ?_⟩
  · have h := (C3_to_superscript_cases "ab".data).2.1 (by decide)
    rw [h]; decide
  · exact (C3_to_superscript_cases "]".data).2.2.1
      ⟨']', by decide, by decide⟩ (by decide)
  · exact (C3_to_superscript_cases "3]".data).2.2.2
      ⟨']', by decide, by decide⟩ (by decide)

/-- Claim C4: when the `\frac` guard matches but the two-argument pattern
(with its end anchor) does not, `expand_group` returns the token text
unchanged, skipping every transformation of the shared tail — the malformed
fragment is preserved verbatim.  (The accompanying diagnostic is a `print`
call, an I/O side effect outside the embedding.) -/
theorem C4_frac_malformed (fuel : Nat) (vec parts : List Str) (v : Str)
    (hg : reCmdTail "frac" v = true)
    (hm : fracSearch true (v.drop 5) = none) :
    expand_group (fuel + 1) vec parts v = .ok v := by
  have hpref : litPref "\\frac" v = true := by
    unfold reCmdTail at hg
    exact (Bool.and_eq_true _ _ |>.mp hg).1
  obtain ⟨t, rfl⟩ : ∃ t, v = ['\\', 'f', 'r', 'a', 'c'] ++ t := by
    unfold litPref at hpref
    rw [frac_data_eq] at hpref
    obtain ⟨t, ht⟩ := List.isPrefixOf_iff_prefix.mp hpref
    exact ⟨t, ht.symm⟩
  have h1 : reWordB "mathcal" (['\\', 'f', 'r', 'a', 'c'] ++ t) = false := by
    simp [reWordB, litPref, List.isPrefixOf]
  have h2 : reWordB "mathfrak" (['\\', 'f', 'r', 'a', 'c'] ++ t) = false := by
    simp [reWordB, litPref, List.isPrefixOf]
  have h3 : reWordB "mathbb" (['\\', 'f', 'r', 'a', 'c'] ++ t) = false := by
    simp [reWordB, litPref, List.isPrefixOf]
  have h4 : reWordB "begin" (['\\', 'f', 'r', 'a', 'c'] ++ t) = false := by
    simp [reWordB, litPref, List.isPrefixOf]
  have h5 : reWordB "end" (['\\', 'f', 'r', 'a', 'c'] ++ t) = false := by
    simp [reWordB, litPref, List.isPrefixOf]
  have h6 : reWordB "text" (['\\', 'f', 'r', 'a', 'c'] ++ t) = false := by
    simp [reWordB, litPref, List.isPrefixOf]
  have h7 : litPref "\\sqrt[" (['\\', 'f', 'r', 'a', 'c'] ++ t) = false := by
    simp [litPref, List.isPrefixOf]
  have h8 : reCmdTail "sqrt" (['\\', 'f', 'r', 'a', 'c'] ++ t) = false := by
    simp [reCmdTail, litPref, List.isPrefixOf]
  have hdrop : (['\\', 'f', 'r', 'a', 'c'] ++ t).drop 5 = t := rfl
  rw [expand_group, h1, h2, h3, h4, h5, h6, h7, h8]
  simp only [List.cons_append, List.nil_append, List.drop_succ_cons,
    List.drop_zero] at hg hm
  simp [hg, hm]

/-- Witness for C4: the bare token `\frac` (no arguments) is returned
unchanged. -/
theorem C4_witness : expand_group 1 [] [] "\\frac".data = .ok "\\frac".data :=
  C4_frac_malformed 0 [] [] "\\frac".data (by decide) (by decide)

/-- A string whose first and last characters are not whitespace is its own
strip. -/
theorem pyStrip_eq_self (s : Str)
    (h1 : ∀ c, s.head? = some c → pySpace c = false)
    (h2 : ∀ c, s.getLast? = some c → pySpace c = false) :
    pyStrip s = s := by
  have hd : s.dropWhile pySpace = s := by
    cases s with
    | nil => rfl
    | cons a l =>
      rw [List.dropWhile_cons, if_neg]
      simp [h1 a rfl]
  have hrev : s.reverse.dropWhile pySpace = s.reverse := by
    cases hr : s.reverse with
    | nil => rfl
    | cons a l =>
      rw [List.dropWhile_cons, if_neg]
      have : s.getLast? = some a := by
        rw [← List.head?_reverse, hr]; rfl
      simp [h2 a this]
  unfold pyStrip
  rw [hd, hrev, List.reverse_reverse]


/-- The pure substitution driver is the identity when the matcher can only
fire on a trigger character that the string does not contain. -/
theorem reSubRGo_id {α : Type} (mf : Str → Option (Nat × α)) (repl : α → Str)
    (trig : Char → Bool)
    (hmf : ∀ u, (mf u).isSome = true → headSat trig u = true) :
    ∀ fuel s, (∀ c ∈ s, trig c = false) → reSubRGo mf repl fuel s = s := by
  intro fuel
  induction fuel with
  | zero => intro s _; rfl
  | succ n ih =>
    intro s hs
    cases s with
    | nil => rfl
    | cons c rest =>
      have hnone : mf (c :: rest) = none := by
        cases hm : mf (c :: rest) with
        | none => rfl
        | some p =>
          have ht := hmf (c :: rest) (by rw [hm]; rfl)
          simp only [headSat] at ht
          rw [hs c (List.mem_cons_self c rest)] at ht
          cases ht
      have ihr := ih rest (fun d hd => hs d (List.mem_cons_of_mem c hd))
      simp [reSubRGo, hnone, ihr]

/-- Identity of a pure pass without its trigger character. -/
theorem reSubR_id {α : Type} (mf : Str → Option (Nat × α)) (repl : α → Str)
    (trig : Char → Bool)
    (hmf : ∀ u, (mf u).isSome = true → headSat trig u = true)
    (s : Str) (hs : ∀ c ∈ s, trig c = false) : reSubR mf repl s = s :=
  reSubRGo_id mf repl trig hmf s.length s hs

/-- Identity of a constant-replacement pass without its trigger. -/
theorem reSubC_id (mf : Str → Option Nat) (r : Str) (trig : Char → Bool)
    (hmf : ∀ u, (mf u).isSome = true → headSat trig u = true)
    (s : Str) (hs : ∀ c ∈ s, trig c = false) : reSubC mf r s = s := by
  unfold reSubC
  refine reSubR_id _ _ trig (fun u h => hmf u ?_) s hs
  have he : ((mf u).map (·, ())).isSome = (mf u).isSome := by
    cases mf u <;> rfl
  rw [← he]
  exact h

/-- The monadic substitution driver returns its input unchanged when the
matcher can only fire on an absent trigger. -/
theorem reSubMGo_id {α : Type} (mf : Str → Option (Nat × α))
    (repl : α → MathRes Str) (trig : Char → Bool)
    (hmf : ∀ u, (mf u).isSome = true → headSat trig u = true) :
    ∀ fuel s, (∀ c ∈ s, trig c = false) → reSubMGo mf repl fuel s = .ok s := by
  intro fuel
  induction fuel with
  | zero => intro s _; rfl
  | succ n ih =>
    intro s hs
    cases s with
    | nil => rfl
    | cons c rest =>
      have hnone : mf (c :: rest) = none := by
        cases hm : mf (c :: rest) with
        | none => rfl
        | some p =>
          have ht := hmf (c :: rest) (by rw [hm]; rfl)
          simp only [headSat] at ht
          rw [hs c (List.mem_cons_self c rest)] at ht
          cases ht
      have ihr := ih rest (fun d hd => hs d (List.mem_cons_of_mem c hd))
      simp [reSubMGo, hnone, ihr, MathRes.bind]

/-- Identity of a monadic pass without its trigger. -/
theorem reSubM_id {α : Type} (mf : Str → Option (Nat × α))
    (repl : α → MathRes Str) (trig : Char → Bool)
    (hmf : ∀ u, (mf u).isSome = true → headSat trig u = true)
    (s : Str) (hs : ∀ c ∈ s, trig c = false) : reSubM mf repl s = .ok s :=
  reSubMGo_id mf repl trig hmf s.length s hs

/-- Tag matchers fire only on `<`. -/
theorem openTag_trigger (w : String) (u : Str)
    (h : (openTag w u).isSome = true) : headSat (· = '<') u = true := by
  unfold openTag at h
  split at h
  · rfl
  · simp at h

/-- The span matcher fires only on `<`. -/
theorem mSpan_trigger (w : String) (u : Str)
    (h : (mSpan w u).isSome = true) : headSat (· = '<') u = true := by
  apply openTag_trigger w
  unfold mSpan at h
  cases ho : openTag w u with
  | none => rw [ho] at h; simp [Option.bind] at h
  | some r => rfl

/-- The empty-pair matcher fires only on `<`. -/
theorem mPairEmpty_trigger (wo wc : String) (u : Str)
    (h : (mPairEmpty wo wc u).isSome = true) : headSat (· = '<') u = true := by
  apply openTag_trigger wo
  unfold mPairEmpty at h
  cases ho : openTag wo u with
  | none => rw [ho] at h; simp [Option.bind] at h
  | some r => rfl

/-- The reference matcher fires only on `<`. -/
theorem mRef_trigger (u : Str) (h : (mRef u).isSome = true) :
    headSat (· = '<') u = true := by
  unfold mRef at h
  split at h
  · rfl
  · simp at h

/-- The line-break matcher fires only on `<`. -/
theorem mBr_trigger (u : Str) (h : (mBr u).isSome = true) :
    headSat (· = '<') u = true := by
  unfold mBr at h
  split at h
  · rfl
  · simp at h

/-- The block/cell-tag matcher fires only on `<`. -/
theorem mBlock_trigger (ws : List String) (u : Str)
    (h : (mBlock ws u).isSome = true) : headSat (· = '<') u = true := by
  unfold mBlock at h
  split at h
  · rfl
  · simp at h

/-- The leftover-open-tag matcher fires only on `<`. -/
theorem mOpenAny_trigger (u : Str) (h : (mOpenAny u).isSome = true) :
    headSat (· = '<') u = true := by
  unfold mOpenAny at h
  split at h
  · rfl
  · simp at h

/-- The leftover-close-tag matcher fires only on `<`. -/
theorem mCloseAny_trigger (u : Str) (h : (mCloseAny u).isSome = true) :
    headSat (· = '<') u = true := by
  unfold mCloseAny at h
  split at h
  · rfl
  · simp at h

/-- The template matcher fires only on a brace. -/
theorem mTemplate_trigger (u : Str) (h : (mTemplate u).isSome = true) :
    headSat (· = '\x7b') u = true := by
  unfold mTemplate at h
  split at h
  · rfl
  · simp at h

/-- The table matcher fires only on a brace. -/
theorem mTable_trigger (u : Str) (h : (mTable u).isSome = true) :
    headSat (· = '\x7b') u = true := by
  unfold mTable at h
  split at h
  · rfl
  · simp at h

/-- The category matcher fires only on `[`. -/
theorem mCategory_trigger (u : Str) (h : (mCategory u).isSome = true) :
    headSat (· = '[') u = true := by
  unfold mCategory at h
  split at h
  · rfl
  · simp at h

/-- The piped-link matcher fires only on `[`. -/
theorem mLinkBars_trigger (u : Str) (h : (mLinkBars u).isSome = true) :
    headSat (· = '[') u = true := by
  unfold mLinkBars at h
  split at h
  · rfl
  · simp at h

/-- The namespaced-link matcher fires only on `[`. -/
theorem mLink_trigger (u : Str) (h : (mLink u).isSome = true) :
    headSat (· = '[') u = true := by
  unfold mLink at h
  split at h
  · rfl
  · simp at h

/-- The simple-link matcher fires only on `[`. -/
theorem mLink2_trigger (u : Str) (h : (mLink2 u).isSome = true) :
    headSat (· = '[') u = true := by
  unfold mLink2 at h
  split at h
  · rfl
  · simp at h

/-- The external-link matcher fires only on `[`. -/
theorem mUrl_trigger (u : Str) (h : (mUrl u).isSome = true) :
    headSat (· = '[') u = true := by
  unfold mUrl at h
  split at h
  · rfl
  · simp at h

/-- The edit-link matcher fires only on `[`. -/
theorem mEdit_trigger (u : Str) (h : (mEdit u).isSome = true) :
    headSat (· = '[') u = true := by
  unfold mEdit at h
  split at h
  · rfl
  · simp at h

/-- The italics matcher fires only on an apostrophe. -/
theorem mQuotes_trigger (u : Str) (h : (mQuotes u).isSome = true) :
    headSat (· = aposChar) u = true := by
  unfold mQuotes at h
  split at h
  · rename_i c1 c2 r
    split at h
    · rename_i hcc
      simp only [headSat]
      simp only [Bool.and_eq_true, decide_eq_true_eq] at hcc
      simp [hcc.1]
    · simp at h
  · simp at h

/-- The entity matcher fires only on `&`. -/
theorem mEntity_trigger (u : Str) (h : (mEntity u).isSome = true) :
    headSat (· = '&') u = true := by
  unfold mEntity at h
  split at h
  · rfl
  · rfl
  · simp at h

/-- The horizontal-whitespace matcher fires only on space, tab or CR. -/
theorem mHWs_trigger (u : Str) (h : (mHWs u).isSome = true) :
    headSat hwsChar u = true := by
  unfold mHWs at h
  dsimp only at h
  split at h
  · rename_i c r
    split at h
    · rename_i hc
      simpa [headSat, hwsChar] using hc
    · simp at h
  · simp at h

/-- The newline-run matcher fires only on a space or newline. -/
theorem mNlRun_trigger (u : Str) (h : (mNlRun u).isSome = true) :
    headSat (fun c => c = ' ' || c = '\n') u = true := by
  cases u with
  | nil => simp [mNlRun] at h
  | cons c r =>
    by_cases hc1 : c = ' '
    · simp [headSat, hc1]
    · by_cases hc2 : c = '\n'
      · simp [headSat, hc2]
      · exfalso
        simp [mNlRun, List.takeWhile_cons, hc1, hc2] at h

/-- Composition never fires on a character that is not the second element
of any composition pair. -/
theorem composePair_eq_none (c : Char)
    (h : nfcPairs.all (fun t => t.2.1 ≠ c.toNat) = true) (a : Char) :
    composePair a c = none := by
  unfold composePair
  have hf : nfcPairs.find?
      (fun t => t.1 = a.toNat && t.2.1 = c.toNat) = none := by
    rw [List.find?_eq_none]
    intro t ht hp
    have h2 := List.all_eq_true.mp h t ht
    simp only [decide_eq_true_eq] at h2
    have := (Bool.and_eq_true _ _ |>.mp hp).2
    simp only [decide_eq_true_eq] at this
    exact h2 this
  rw [hf]
  rfl

/-- Decomposition is the identity map on characters without canonical
decomposition. -/
theorem decompFlatten_id (s : Str)
    (h : ∀ c ∈ s, (canonDecomp c).isNone = true) :
    ((s.map (fun c =>
      match canonDecomp c with
      | some p => [p.1, p.2]
      | none => [c])).flatten) = s := by
  induction s with
  | nil => rfl
  | cons c r ih =>
    have hc := h c (List.mem_cons_self c r)
    have ihh := ih (fun d hd => h d (List.mem_cons_of_mem c hd))
    cases hd : canonDecomp c with
    | none => simp [hd, ihh]
    | some p => rw [hd] at hc; simp at hc

/-- The reordering walk is the identity on class-zero strings. -/
theorem reorderGo_id (x : Char) (s : Str)
    (h : ∀ c ∈ s, cccOf c = 0) : reorderGo x s = x :: s := by
  induction s generalizing x with
  | nil => rfl
  | cons b r ih =>
    have hb : cccOf b = 0 := h b (List.mem_cons_self b r)
    have ihh := ih b (fun d hd => h d (List.mem_cons_of_mem b hd))
    simp [reorderGo, hb, ihh]

/-- One reorder pass is the identity on class-zero strings. -/
theorem reorderPass_id (s : Str) (h : ∀ c ∈ s, cccOf c = 0) :
    reorderPass s = s := by
  cases s with
  | nil => rfl
  | cons c r =>
    unfold reorderPass
    exact reorderGo_id c r (fun d hd => h d (List.mem_cons_of_mem c hd))

/-- Iterated reordering is the identity on class-zero strings. -/
theorem reorderN_id (n : Nat) (s : Str) (h : ∀ c ∈ s, cccOf c = 0) :
    reorderN n s = s := by
  cases n with
  | zero => rfl
  | succ m => simp [reorderN, reorderPass_id s h]

/-- The composition walk is the identity on inert strings. -/
theorem compGo_id (st : Char) (s : Str)
    (h : ∀ c ∈ s, cccOf c = 0 ∧
      nfcPairs.all (fun t => t.2.1 ≠ c.toNat) = true) :
    compGo st [] s = st :: s := by
  induction s generalizing st with
  | nil => rfl
  | cons c r ih =>
    have hc := h c (List.mem_cons_self c r)
    have ihh := ih c (fun d hd => h d (List.mem_cons_of_mem c hd))
    simp [compGo, hc.1, composePair_eq_none c hc.2 st, ihh]

/-- Canonical composition is the identity on inert strings. -/
theorem canonCompose_id (s : Str)
    (h : ∀ c ∈ s, cccOf c = 0 ∧
      nfcPairs.all (fun t => t.2.1 ≠ c.toNat) = true) :
    canonCompose s = s := by
  cases s with
  | nil => rfl
  | cons c r =>
    have hc := h c (List.mem_cons_self c r)
    simp [canonCompose, hc.1,
      compGo_id c r (fun d hd => h d (List.mem_cons_of_mem c hd))]

/-- The three conjuncts of inertness. -/
theorem nfcInert_split (c : Char) (h : nfcInert c = true) :
    (canonDecomp c).isNone = true ∧ cccOf c = 0 ∧
    nfcPairs.all (fun t => t.2.1 ≠ c.toNat) = true := by
  unfold nfcInert at h
  obtain ⟨⟨h1, h2⟩, h3⟩ :=
    Bool.and_eq_true _ _ |>.mp h |>.imp (Bool.and_eq_true _ _ |>.mp) id
  exact ⟨h1, by simpa using h2, h3⟩

/-- The modelled NFC is the identity on strings of inert characters. -/
theorem unicodeNFC_id (s : Str) (h : ∀ c ∈ s, nfcInert c = true) :
    unicodeNFC s = s := by
  unfold unicodeNFC
  rw [decompFlatten_id s (fun c hc => (nfcInert_split c (h c hc)).1)]
  rw [reorderN_id _ s (fun c hc => (nfcInert_split c (h c hc)).2.1)]
  exact canonCompose_id s
    (fun c hc => (nfcInert_split c (h c hc)).2)

/-- Head of a `dropWhile` fails the predicate. -/
theorem dropWhile_head_not (p : Char → Bool) :
    ∀ (l : Str) (c : Char), (l.dropWhile p).head? = some c → p c = false := by
  intro l
  induction l with
  | nil => intro c h; simp at h
  | cons a r ih =>
    intro c h
    rw [List.dropWhile_cons] at h
    by_cases hp : p a = true
    · rw [if_pos hp] at h
      exact ih c h
    · rw [if_neg hp] at h
      cases h
      simpa using hp

/-- A list is the reverse-drop of its reverse followed by the
reverse-take of its reverse. -/
theorem rev_take_drop (p : Char → Bool) (d : Str) :
    d = (d.reverse.dropWhile p).reverse ++ (d.reverse.takeWhile p).reverse := by
  calc d = d.reverse.reverse := (List.reverse_reverse d).symm
    _ = (d.reverse.takeWhile p ++ d.reverse.dropWhile p).reverse := by
        rw [List.takeWhile_append_dropWhile]
    _ = (d.reverse.dropWhile p).reverse ++ (d.reverse.takeWhile p).reverse := by
        rw [List.reverse_append]

/-- The strip of a string sits between two whitespace runs. -/
theorem pyStrip_decomp (s : Str) :
    s.dropWhile pySpace =
      pyStrip s ++ ((s.dropWhile pySpace).reverse.takeWhile pySpace).reverse := by
  unfold pyStrip
  exact rev_take_drop pySpace (s.dropWhile pySpace)

/-- The original string is whitespace, its strip, then whitespace. -/
theorem pyStrip_infix (s : Str) :
    s = s.takeWhile pySpace ++ pyStrip s ++
      ((s.dropWhile pySpace).reverse.takeWhile pySpace).reverse := by
  calc s = s.takeWhile pySpace ++ s.dropWhile pySpace :=
      (List.takeWhile_append_dropWhile pySpace s).symm
    _ = s.takeWhile pySpace ++ (pyStrip s ++
        ((s.dropWhile pySpace).reverse.takeWhile pySpace).reverse) := by
        conv_lhs => rw [pyStrip_decomp s]
    _ = s.takeWhile pySpace ++ pyStrip s ++
        ((s.dropWhile pySpace).reverse.takeWhile pySpace).reverse := by
        rw [List.append_assoc]

/-- Characters of the strip come from the string. -/
theorem pyStrip_mem (s : Str) (c : Char) (h : c ∈ pyStrip s) : c ∈ s := by
  have hs := pyStrip_infix s
  rw [hs]
  simp [h]

/-- The strip begins with a non-whitespace character. -/
theorem pyStrip_head (s : Str) (c : Char)
    (h : (pyStrip s).head? = some c) : pySpace c = false := by
  apply dropWhile_head_not pySpace s
  rw [pyStrip_decomp s, List.head?_append, h]
  rfl

/-- The strip ends with a non-whitespace character. -/
theorem pyStrip_last (s : Str) (c : Char)
    (h : (pyStrip s).getLast? = some c) : pySpace c = false := by
  apply dropWhile_head_not pySpace (s.dropWhile pySpace).reverse
  unfold pyStrip at h
  rw [← List.head?_reverse] at h
  rw [List.reverse_reverse] at h
  exact h

/-- Stripping is idempotent. -/
theorem pyStrip_idem (s : Str) : pyStrip (pyStrip s) = pyStrip s :=
  pyStrip_eq_self (pyStrip s) (pyStrip_head s) (pyStrip_last s)

/-- Pair-absence restricted to a suffix. -/
theorem noPair_suffix (p q : Char → Bool) :
    ∀ x y : Str, noPair p q (x ++ y) = true → noPair p q y = true := by
  intro x
  induction x with
  | nil => intro y h; exact h
  | cons c r ih =>
    intro y h
    rw [List.cons_append] at h
    exact ih y (Bool.and_eq_true _ _ |>.mp h).2

/-- Pair-absence restricted to a prefix. -/
theorem noPair_prefix (p q : Char → Bool) :
    ∀ x y : Str, noPair p q (x ++ y) = true → noPair p q x = true := by
  intro x
  induction x with
  | nil => intro y _; rfl
  | cons c r ih =>
    intro y h
    rw [List.cons_append] at h
    obtain ⟨h1, h2⟩ := Bool.and_eq_true _ _ |>.mp h
    unfold noPair
    rw [ih y h2, Bool.and_true]
    cases r with
    | nil => simp [headSat]
    | cons d r2 =>
      rw [List.cons_append] at h1
      exact h1

/-- Pair-absence restricted to an infix. -/
theorem noPair_infix (p q : Char → Bool) (w1 t w2 : Str)
    (h : noPair p q (w1 ++ t ++ w2) = true) : noPair p q t = true := by
  rw [List.append_assoc] at h
  exact noPair_prefix p q t w2 (noPair_suffix p q w1 (t ++ w2) h)

/-- At a space with collapsed whitespace the horizontal-run matcher
consumes exactly one character. -/
theorem mHWs_at_space (rest : Str)
    (h1 : noTabCr (' ' :: rest) = true)
    (h2 : noPair isSp isSp (' ' :: rest) = true) :
    mHWs (' ' :: rest) = some 1 := by
  have hrest : rest.takeWhile (fun c => c = ' ' || c = '\t' || c = '\r') = [] := by
    cases rest with
    | nil => rfl
    | cons d r =>
      rw [List.takeWhile_cons, if_neg]
      intro hd
      rcases (by simpa using hd : (d = ' ' ∨ d = '\t') ∨ d = '\r') with (hd | hd) | hd
      · obtain ⟨hp, _⟩ := Bool.and_eq_true _ _ |>.mp h2
        subst hd
        simp [headSat, isSp] at hp
      · have := List.all_eq_true.mp h1 d (by simp)
        subst hd
        simp at this
      · have := List.all_eq_true.mp h1 d (by simp)
        subst hd
        simp at this
  simp [mHWs, List.takeWhile_cons, hrest]

/-- Off its trigger class the horizontal-run matcher fails. -/
theorem mHWs_none (c : Char) (rest : Str) (hc : hwsChar c = false) :
    mHWs (c :: rest) = none := by
  unfold hwsChar at hc
  simp only [Bool.or_eq_false_iff, decide_eq_false_iff_not] at hc
  simp [mHWs, hc.1.1, hc.1.2, hc.2]

/-- At a newline with collapsed whitespace the newline-run matcher
consumes exactly one character. -/
theorem mNlRun_at_nl (rest : Str)
    (h3 : noPair isNl isNl ('\n' :: rest) = true) :
    mNlRun ('\n' :: rest) = some 1 := by
  have hrest : rest.takeWhile (· = '\n') = [] := by
    cases rest with
    | nil => rfl
    | cons d r =>
      rw [List.takeWhile_cons, if_neg]
      intro hd
      obtain ⟨hp, _⟩ := Bool.and_eq_true _ _ |>.mp h3
      have hd' : d = '\n' := by simpa using hd
      subst hd'
      simp [headSat, isNl] at hp
  simp [mNlRun, List.takeWhile_cons, hrest]

/-- At a space with collapsed whitespace the newline-run matcher fails. -/
theorem mNlRun_at_sp (rest : Str)
    (h2 : noPair isSp isSp (' ' :: rest) = true)
    (h4 : noPair isSp isNl (' ' :: rest) = true) :
    mNlRun (' ' :: rest) = none := by
  have hsp : rest.takeWhile (· = ' ') = [] := by
    cases rest with
    | nil => rfl
    | cons d r =>
      rw [List.takeWhile_cons, if_neg]
      intro hd
      obtain ⟨hp, _⟩ := Bool.and_eq_true _ _ |>.mp h2
      have hd' : d = ' ' := by simpa using hd
      subst hd'
      simp [headSat, isSp] at hp
  have hnl : rest.takeWhile (· = '\n') = [] := by
    cases rest with
    | nil => rfl
    | cons d r =>
      rw [List.takeWhile_cons, if_neg]
      intro hd
      obtain ⟨hp, _⟩ := Bool.and_eq_true _ _ |>.mp h4
      have hd' : d = '\n' := by simpa using hd
      subst hd'
      simp [headSat, isNl, isSp] at hp
  simp [mNlRun, List.takeWhile_cons, hsp, hnl]

/-- Off its trigger class the newline-run matcher fails. -/
theorem mNlRun_none (c : Char) (rest : Str) (hc1 : c ≠ ' ')
    (hc2 : c ≠ '\n') : mNlRun (c :: rest) = none := by
  simp [mNlRun, List.takeWhile_cons, hc1, hc2]

/-- The horizontal-whitespace collapse is the identity on strings whose
whitespace is already collapsed. -/
theorem c1_fix_go : ∀ (fuel : Nat) (s : Str), noTabCr s = true →
    noPair isSp isSp s = true →
    reSubRGo (fun t => (mHWs t).map (·, ())) (fun _ => " ".data) fuel s = s := by
  intro fuel
  induction fuel with
  | zero => intro s _ _; rfl
  | succ n ih =>
    intro s h1 h2
    cases s with
    | nil => rfl
    | cons c rest =>
      have h1r : noTabCr rest = true := by
        unfold noTabCr at h1 ⊢
        rw [List.all_cons] at h1
        exact (Bool.and_eq_true _ _ |>.mp h1).2
      have h2r : noPair isSp isSp rest = true :=
        (Bool.and_eq_true _ _ |>.mp h2).2
      by_cases hc : c = ' '
      · subst hc
        have hm := mHWs_at_space rest h1 h2
        simp [reSubRGo, hm, ih rest h1r h2r]
      · have hcc : hwsChar c = false := by
          unfold hwsChar
          have ht : ¬(c = '\t') := by
            intro he
            have := List.all_eq_true.mp h1 c (by simp)
            subst he
            simp at this
          have hr : ¬(c = '\r') := by
            intro he
            have := List.all_eq_true.mp h1 c (by simp)
            subst he
            simp at this
          simp [hc, ht, hr]
        have hm := mHWs_none c rest hcc
        simp [reSubRGo, hm, ih rest h1r h2r]

/-- `reSubC mHWs` identity wrapper. -/
theorem c1_fix (s : Str) (h1 : noTabCr s = true)
    (h2 : noPair isSp isSp s = true) : reSubC mHWs " ".data s = s :=
  c1_fix_go s.length s h1 h2

/-- The newline collapse is the identity on strings whose whitespace is
already collapsed. -/
theorem c2_fix_go : ∀ (fuel : Nat) (s : Str),
    noPair isSp isSp s = true → noPair isSp isNl s = true →
    noPair isNl isNl s = true →
    reSubRGo (fun t => (mNlRun t).map (·, ())) (fun _ => "\n".data) fuel s = s := by
  intro fuel
  induction fuel with
  | zero => intro s _ _ _; rfl
  | succ n ih =>
    intro s h2 h4 h3
    cases s with
    | nil => rfl
    | cons c rest =>
      have h2r : noPair isSp isSp rest = true :=
        (Bool.and_eq_true _ _ |>.mp h2).2
      have h4r : noPair isSp isNl rest = true :=
        (Bool.and_eq_true _ _ |>.mp h4).2
      have h3r : noPair isNl isNl rest = true :=
        (Bool.and_eq_true _ _ |>.mp h3).2
      by_cases hc1 : c = '\n'
      · subst hc1
        have hm := mNlRun_at_nl rest h3
        simp [reSubRGo, hm, ih rest h2r h4r h3r]
      · by_cases hc2 : c = ' '
        · subst hc2
          have hm := mNlRun_at_sp rest h2 h4
          simp [reSubRGo, hm, ih rest h2r h4r h3r]
        · have hm := mNlRun_none c rest hc2 hc1
          simp [reSubRGo, hm, ih rest h2r h4r h3r]

/-- `reSubC mNlRun` identity wrapper. -/
theorem c2_fix (s : Str) (h2 : noPair isSp isSp s = true)
    (h4 : noPair isSp isNl s = true) (h3 : noPair isNl isNl s = true) :
    reSubC mNlRun "\n".data s = s :=
  c2_fix_go s.length s h2 h4 h3

/-- Split a clean character into its defining constraints. -/
theorem cleanChar_split (c : Char) (h : cleanChar c = true) :
    c ≠ '<' ∧ c ≠ '\x7b' ∧ c ≠ '[' ∧ c ≠ '&' ∧ c ≠ Char.ofNat 0xA0 ∧
    c ≠ aposChar ∧ nfcInert c = true := by
  unfold cleanChar at h
  simp only [Bool.and_eq_true, decide_eq_true_eq, ne_eq] at h
  exact ⟨h.1.1.1.1.1.1, h.1.1.1.1.1.2, h.1.1.1.1.2, h.1.1.1.2, h.1.1.2,
    h.1.2, h.2⟩

/-- The NBSP substitution is the identity on NBSP-free strings. -/
theorem map_nbsp_id : ∀ (s : Str), (∀ c ∈ s, c ≠ Char.ofNat 0xA0) →
    s.map (fun c => if c = Char.ofNat 0xA0 then ' ' else c) = s := by
  intro s h
  induction s with
  | nil => rfl
  | cons a r ih =>
    simp only [List.map_cons]
    rw [if_neg (h a (by simp)), ih (fun c hc => h c (by simp [hc]))]

/-- Bind on an `ok` result applies the continuation. -/
theorem MathRes.ok_bind {α β : Type} (a : α) (f : α → MathRes β) :
    (MathRes.ok a : MathRes α) >>= f = f a := rfl

/-- Bind (in its explicit form) on an `ok` result applies the continuation. -/
theorem MathRes.bind_ok {α β : Type} (a : α) (f : α → MathRes β) :
    MathRes.bind (MathRes.ok a) f = f a := rfl

/-- On markup-free input with already-collapsed whitespace, every
substitution pass of `clean_value` is the identity: the cleaner only
strips outer whitespace (unless `no_strip` suppresses that too). -/
theorem clean_value_plain (fuel : Nat) (cfg : WiktionaryConfig) (s : Str)
    (ns : Bool) (hm : MarkupFree s = true) (hw : wsCollapsed s = true) :
    clean_value (fuel + 1) cfg s ns = .ok (if ns then s else pyStrip s) := by
  have hmem : ∀ c ∈ s, cleanChar c = true := fun c hc =>
    List.all_eq_true.mp hm c hc
  have hLT : ∀ c ∈ s, decide (c = '<') = false := fun c hc => by
    simp [(cleanChar_split c (hmem c hc)).1]
  have hBR : ∀ c ∈ s, decide (c = '\x7b') = false := fun c hc => by
    simp [(cleanChar_split c (hmem c hc)).2.1]
  have hSQ : ∀ c ∈ s, decide (c = '[') = false := fun c hc => by
    simp [(cleanChar_split c (hmem c hc)).2.2.1]
  have hAMP : ∀ c ∈ s, decide (c = '&') = false := fun c hc => by
    simp [(cleanChar_split c (hmem c hc)).2.2.2.1]
  have hNB : ∀ c ∈ s, c ≠ Char.ofNat 0xA0 := fun c hc =>
    (cleanChar_split c (hmem c hc)).2.2.2.2.1
  have hAP : ∀ c ∈ s, decide (c = aposChar) = false := fun c hc => by
    simp [(cleanChar_split c (hmem c hc)).2.2.2.2.2.1]
  have hNI : ∀ c ∈ s, nfcInert c = true := fun c hc =>
    (cleanChar_split c (hmem c hc)).2.2.2.2.2.2
  obtain ⟨h1, h2, h4, h3⟩ : noTabCr s = true ∧ noPair isSp isSp s = true ∧
      noPair isSp isNl s = true ∧ noPair isNl isNl s = true := by
    unfold wsCollapsed at hw
    simpa [Bool.and_eq_true, and_assoc] using hw
  have hHU : htmlUnescape s = s :=
    reSubR_id mEntity id _ mEntity_trigger s hAMP
  have hNFC : unicodeNFC (if ns then s else pyStrip s) =
      (if ns then s else pyStrip s) := by
    cases ns with
    | true => exact unicodeNFC_id s hNI
    | false =>
      exact unicodeNFC_id (pyStrip s)
        (fun c hc => hNI c (pyStrip_mem s c hc))
  simp only [clean_value,
    reSubC_id mTemplate [] _ mTemplate_trigger s hBR,
    reSubC_id mTable "\n".data _ mTable_trigger s hBR,
    reSubC_id mRef [] _ mRef_trigger s hLT,
    reSubC_id mBr ", ".data _ mBr_trigger s hLT,
    reSubC_id (mBlock ["div", "tr", "li", "table"]) "\n".data _
      (mBlock_trigger _) s hLT,
    reSubC_id (mBlock ["td", "th"]) " ".data _ (mBlock_trigger _) s hLT,
    reSubC_id (mPairEmpty "sup" "sup") [] _ (mPairEmpty_trigger _ _) s hLT,
    reSubC_id (mPairEmpty "sub" "sup") [] _ (mPairEmpty_trigger _ _) s hLT,
    reSubM_id (mSpan "sup") _ _ (mSpan_trigger _) s hLT,
    reSubM_id (mSpan "sub") _ _ (mSpan_trigger _) s hLT,
    reSubM_id (mSpan "chem") _ _ (mSpan_trigger _) s hLT,
    reSubM_id (mSpan "math") _ _ (mSpan_trigger _) s hLT,
    reSubC_id mOpenAny [] _ mOpenAny_trigger s hLT,
    reSubC_id mCloseAny [] _ mCloseAny_trigger s hLT,
    reSubC_id mCategory [] _ mCategory_trigger s hSQ,
    reSubM_id mLinkBars _ _ mLinkBars_trigger s hSQ,
    reSubM_id mLink _ _ mLink_trigger s hSQ,
    reSubM_id mLink2 _ _ mLink2_trigger s hSQ,
    reSubM_id mUrl _ _ mUrl_trigger s hSQ,
    reSubC_id mEdit [] _ mEdit_trigger s hSQ,
    reSubC_id mQuotes [] _ mQuotes_trigger s hAP,
    hHU, map_nbsp_id s hNB,
    c1_fix s h1 h2, c2_fix s h2 h4 h3,
    MathRes.ok_bind, hNFC]

/-- Markup-freeness survives stripping. -/
theorem MarkupFree_strip (s : Str) (hm : MarkupFree s = true) :
    MarkupFree (pyStrip s) = true := by
  unfold MarkupFree at hm ⊢
  exact List.all_eq_true.mpr
    (fun c hc => List.all_eq_true.mp hm c (pyStrip_mem s c hc))

/-- Collapsed whitespace survives stripping. -/
theorem wsCollapsed_strip (s : Str) (hw : wsCollapsed s = true) :
    wsCollapsed (pyStrip s) = true := by
  obtain ⟨h1, h2, h4, h3⟩ : noTabCr s = true ∧ noPair isSp isSp s = true ∧
      noPair isSp isNl s = true ∧ noPair isNl isNl s = true := by
    unfold wsCollapsed at hw
    simpa [Bool.and_eq_true, and_assoc] using hw
  have hinf := pyStrip_infix s
  have hn : noTabCr (pyStrip s) = true := by
    unfold noTabCr at h1 ⊢
    exact List.all_eq_true.mpr
      (fun c hc => List.all_eq_true.mp h1 c (pyStrip_mem s c hc))
  rw [hinf] at h2 h4 h3
  have hp2 := noPair_infix isSp isSp _ _ _ h2
  have hp4 := noPair_infix isSp isNl _ _ _ h4
  have hp3 := noPair_infix isNl isNl _ _ _ h3
  unfold wsCollapsed
  rw [hn, hp2, hp4, hp3]
  rfl

/-- Claim C8 (amended): on markup-free input whose whitespace is already in
the collapsed form the cleaner produces, `clean_value` is idempotent — a
second application returns the first result unchanged.  (The original
claim, for all markup-free input, is refuted by `C8_counterexample`: the
whitespace collapse itself is not idempotent.) -/
theorem C8_idempotent (cfg : WiktionaryConfig) (s : Str)
    (hm : MarkupFree s = true) (hw : wsCollapsed s = true) :
    MathRes.bind (cleanValue cfg s) (fun t => cleanValue cfg t) =
      cleanValue cfg s := by
  have e1 : cleanValue cfg s = .ok (pyStrip s) := by
    unfold cleanValue
    rw [show s.length + 64 = s.length + 63 + 1 from by omega]
    exact clean_value_plain (s.length + 63) cfg s false hm hw
  have e2 : cleanValue cfg (pyStrip s) = .ok (pyStrip s) := by
    unfold cleanValue
    rw [show (pyStrip s).length + 64 = (pyStrip s).length + 63 + 1 from by omega]
    rw [clean_value_plain ((pyStrip s).length + 63) cfg (pyStrip s) false
      (MarkupFree_strip s hm) (wsCollapsed_strip s hw)]
    simp [pyStrip_idem]
  rw [e1, MathRes.bind_ok]
  exact e2

/-- Witness for C8 at a concrete markup-free, already-collapsed input. -/
theorem C8_idempotent_witness :
    MarkupFree "a b".data = true ∧ wsCollapsed "a b".data = true ∧
    MathRes.bind (cleanValue ⟨""⟩ "a b".data)
        (fun t => cleanValue ⟨""⟩ t) = cleanValue ⟨""⟩ "a b".data :=
  ⟨by decide, by decide, C8_idempotent ⟨""⟩ "a b".data (by decide) (by decide)⟩

/-- Counterexample to the original C8: the input `"a \n \nb"` is free of
markup, yet cleaning its cleaned form differs from cleaning it once — the
newline-collapse pass creates a new `"\n\n"` pair that only the second
application collapses. -/
theorem C8_counterexample :
    MarkupFree "a \n \nb".data = true ∧
    cleanValue ⟨""⟩ "a \n \nb".data = .ok "a\n\nb".data ∧
    cleanValue ⟨""⟩ "a\n\nb".data = .ok "a\nb".data ∧
    "a\n\nb".data ≠ "a\nb".data := by
  refine ⟨by decide, by decide, by decide, by decide⟩

/-- The monadic scan on the empty string is `ok []` at any fuel. -/
theorem reSubMGo_nil {α : Type} (mf : Str → Option (Nat × α))
    (repl : α → MathRes Str) (fuel : Nat) :
    reSubMGo mf repl fuel [] = .ok [] := by
  cases fuel <;> rfl

/-- A matcher that fires only on a trigger head returns `none` elsewhere. -/
theorem matcher_none_of_no_trigger {β : Type} (M : Str → Option β)
    (trig : Char → Bool)
    (htrig : ∀ u, (M u).isSome = true → headSat trig u = true)
    (t : Str) (hh : headSat trig t = false) : M t = none := by
  cases hM : M t with
  | none => rfl
  | some b =>
    have := htrig t (by simp [hM])
    rw [this] at hh
    cases hh

/-- A suffix of an append is a nonempty suffix of the left part glued to
the right part, or a suffix of the right part. -/
theorem suffix_split (s2 : Str) : ∀ (s1 t : Str), t <:+ s1 ++ s2 →
    (∃ u, u <:+ s1 ∧ u ≠ [] ∧ t = u ++ s2) ∨ t <:+ s2 := by
  intro s1
  induction s1 with
  | nil => intro t ht; exact Or.inr ht
  | cons a s1 ih =>
    intro t ht
    rcases List.suffix_cons_iff.mp ht with rfl | ht2
    · exact Or.inl ⟨a :: s1, List.suffix_refl _, by simp, rfl⟩
    · rcases ih t ht2 with ⟨u, hu, hne, rfl⟩ | h
      · exact Or.inl ⟨u, hu.trans (List.suffix_cons a s1), hne, rfl⟩
      · exact Or.inr h

/-- The pure scan is the identity when the matcher fails on every suffix. -/
theorem reSubRGo_noneAll {α : Type} (mf : Str → Option (Nat × α))
    (repl : α → Str) : ∀ (fuel : Nat) (s : Str),
    (∀ t, t <:+ s → mf t = none) → reSubRGo mf repl fuel s = s := by
  intro fuel
  induction fuel with
  | zero => intro s _; rfl
  | succ n ih =>
    intro s h
    cases s with
    | nil => rfl
    | cons c rest =>
      have hm := h (c :: rest) (List.suffix_refl _)
      have ihr := ih rest (fun t ht => h t (ht.trans (List.suffix_cons c rest)))
      simp [reSubRGo, hm, ihr]

/-- Constant-replacement wrapper of `reSubRGo_noneAll`. -/
theorem reSubC_noneAll (mf : Str → Option Nat) (r : Str) (s : Str)
    (h : ∀ t, t <:+ s → mf t = none) : reSubC mf r s = s := by
  unfold reSubC reSubR
  exact reSubRGo_noneAll _ _ s.length s (fun t ht => by rw [h t ht]; rfl)

/-- The monadic scan is `ok` of the input when the matcher fails on every
suffix. -/
theorem reSubMGo_noneAll {α : Type} (mf : Str → Option (Nat × α))
    (repl : α → MathRes Str) : ∀ (fuel : Nat) (s : Str),
    (∀ t, t <:+ s → mf t = none) → reSubMGo mf repl fuel s = .ok s := by
  intro fuel
  induction fuel with
  | zero => intro s _; rfl
  | succ n ih =>
    intro s h
    cases s with
    | nil => rfl
    | cons c rest =>
      have hm := h (c :: rest) (List.suffix_refl _)
      have ihr := ih rest (fun t ht => h t (ht.trans (List.suffix_cons c rest)))
      simp [reSubMGo, hm, ihr, MathRes.bind]

/-- Monadic wrapper of `reSubMGo_noneAll`. -/
theorem reSubM_noneAll {α : Type} (mf : Str → Option (Nat × α))
    (repl : α → MathRes Str) (s : Str)
    (h : ∀ t, t <:+ s → mf t = none) : reSubM mf repl s = .ok s :=
  reSubMGo_noneAll mf repl s.length s h

/-- A monadic pass whose matcher consumes the whole string in one match
returns exactly the replacement of the captured data. -/
theorem reSubM_whole {α : Type} (mf : Str → Option (Nat × α))
    (repl : α → MathRes Str) (s : Str) (a : α) (hne : s ≠ [])
    (hm : mf s = some (s.length, a)) (r : Str) (hr : repl a = .ok r) :
    reSubM mf repl s = .ok r := by
  cases s with
  | nil => exact absurd rfl hne
  | cons c rest =>
    show reSubMGo mf repl (rest.length + 1) (c :: rest) = .ok r
    simp only [reSubMGo, hm]
    rw [hr, show (c :: rest).drop (c :: rest).length = [] from
      List.drop_eq_nil_of_le (Nat.le_refl _), reSubMGo_nil]
    simp [MathRes.bind]

/-- A plain character differs from any character that is not plain. -/
theorem plainChar_ne (c : Char) (h : plainChar c = true) (d : Char)
    (hd : plainChar d = false) : c ≠ d := by
  intro he
  rw [he, hd] at h
  cases h

/-- Plain characters are clean (no pass can match on them, they are
normalization-inert) and are not whitespace. -/
theorem plainChar_fact (c : Char) (h : plainChar c = true) :
    cleanChar c = true ∧ pySpace c = false := by
  have hb : 0x21 ≤ c.toNat ∧ c.toNat ≤ 0x7E := by
    unfold plainChar asciiLetter asciiDigit at h
    simp only [Bool.or_eq_true, Bool.and_eq_true, decide_eq_true_eq,
      List.mem_cons, List.not_mem_nil, or_false] at h
    rcases h with ((⟨h1, h2⟩ | ⟨h1, h2⟩) | ⟨h1, h2⟩) | h
    · have h1n : 97 ≤ c.toNat := h1
      have h2n : c.toNat ≤ 122 := h2
      omega
    · have h1n : 65 ≤ c.toNat := h1
      have h2n : c.toNat ≤ 90 := h2
      omega
    · have h1n : 48 ≤ c.toNat := h1
      have h2n : c.toNat ≤ 57 := h2
      omega
    · rcases h with rfl | rfl | rfl | rfl | rfl | rfl | rfl | rfl | rfl |
        rfl | rfl | rfl | rfl | rfl | rfl | rfl | rfl | rfl <;> decide
  have hallD : ∀ t ∈ nfcPairs, 0xC0 ≤ t.2.2 := by decide
  have hallS : ∀ t ∈ nfcPairs, 0x300 ≤ t.2.1 := by decide
  have hinert : nfcInert c = true := by
    have hd : canonDecomp c = none := by
      unfold canonDecomp
      have hf : nfcPairs.find? (fun t => t.2.2 = c.toNat) = none := by
        rw [List.find?_eq_none]
        intro t htm
        have hk := hallD t htm
        simp only [decide_eq_true_eq]
        omega
      rw [hf]
      rfl
    have hc0 : cccOf c = 0 := by
      unfold cccOf
      rw [if_neg (by simp only [Bool.and_eq_true, decide_eq_true_eq, not_and]; omega),
        if_neg (show ¬(c.toNat = 0x323) by omega),
        if_neg (by simp only [Bool.or_eq_true, decide_eq_true_eq, not_or]; omega),
        if_neg (show ¬(c.toNat = 0x338) by omega),
        if_neg (by simp only [Bool.and_eq_true, decide_eq_true_eq, not_and]; omega),
        if_neg (show ¬(c.toNat = 0x1AB2) by omega)]
    have hsnd : nfcPairs.all (fun t => t.2.1 ≠ c.toNat) = true := by
      rw [List.all_eq_true]
      intro t htm
      have hk := hallS t htm
      simp only [ne_eq, decide_eq_true_eq]
      omega
    unfold nfcInert
    rw [hd, hc0, hsnd]
    rfl
  refine ⟨?_, ?_⟩
  · unfold cleanChar
    have e1 : c ≠ '<' := plainChar_ne c h '<' (by decide)
    have e2 : c ≠ '\x7b' := plainChar_ne c h '\x7b' (by decide)
    have e3 : c ≠ '[' := plainChar_ne c h '[' (by decide)
    have e4 : c ≠ '&' := plainChar_ne c h '&' (by decide)
    have e5 : c ≠ Char.ofNat 0xA0 := by
      intro he
      have : c.toNat = 0xA0 := by rw [he]; rfl
      omega
    have e6 : c ≠ aposChar := plainChar_ne c h aposChar (by decide)
    simp only [Bool.and_eq_true, decide_eq_true_eq, ne_eq]
    exact ⟨⟨⟨⟨⟨⟨e1, e2⟩, e3⟩, e4⟩, e5⟩, e6⟩, hinert⟩
  · unfold pySpace
    simp only [List.mem_cons, List.not_mem_nil, or_false,
      decide_eq_false_iff_not]
    omega

/-- A non-whitespace character is neither tab, CR, space nor newline. -/
theorem pySpace_false_facts (c : Char) (h : pySpace c = false) :
    (c != '\t' && c != '\x0d') = true ∧ isSp c = false ∧ isNl c = false := by
  refine ⟨?_, ?_, ?_⟩
  · simp only [Bool.and_eq_true, bne_iff_ne, ne_eq]
    constructor
    · intro he
      rw [he] at h
      cases h
    · intro he
      rw [he] at h
      cases h
  · cases hs : isSp c with
    | false => rfl
    | true =>
      have : c = ' ' := by simpa [isSp] using hs
      rw [this] at h
      cases h
  · cases hs : isNl c with
    | false => rfl
    | true =>
      have : c = '\n' := by simpa [isNl] using hs
      rw [this] at h
      cases h

/-- No pair can form when the first predicate holds nowhere. -/
theorem noPair_of_notP (p q : Char → Bool) : ∀ s : Str,
    (∀ c ∈ s, p c = false) → noPair p q s = true := by
  intro s
  induction s with
  | nil => intro _; rfl
  | cons c r ih =>
    intro h
    unfold noPair
    rw [h c (by simp), ih (fun d hd => h d (by simp [hd]))]
    rfl

/-- A whitespace-free string has collapsed whitespace. -/
theorem good_wsCollapsed (s : Str) (h : ∀ c ∈ s, pySpace c = false) :
    wsCollapsed s = true := by
  have hT : noTabCr s = true := by
    unfold noTabCr
    rw [List.all_eq_true]
    exact fun c hc => (pySpace_false_facts c (h c hc)).1
  have h2 : noPair isSp isSp s = true :=
    noPair_of_notP _ _ s (fun c hc => (pySpace_false_facts c (h c hc)).2.1)
  have h4 : noPair isSp isNl s = true :=
    noPair_of_notP _ _ s (fun c hc => (pySpace_false_facts c (h c hc)).2.1)
  have h3 : noPair isNl isNl s = true :=
    noPair_of_notP _ _ s (fun c hc => (pySpace_false_facts c (h c hc)).2.2)
  unfold wsCollapsed
  rw [hT, h2, h4, h3]
  rfl

/-- A successful character-table lookup returns a value keyed by the
looked-up character. -/
theorem dictGetC_mem (d : List (Char × Str)) (k : Char) (v : Str)
    (h : dictGetC d k = some v) : ∃ p ∈ d, p.1 = k ∧ p.2 = v := by
  unfold dictGetC at h
  cases hf : d.reverse.find? (fun p => p.1 = k) with
  | none =>
    rw [hf] at h
    cases h
  | some p =>
    rw [hf] at h
    have h2 : p.2 = v := by simpa using h
    have hk := List.find?_some hf
    simp only [decide_eq_true_eq] at hk
    exact ⟨p, List.mem_reverse.mp (List.mem_of_find?_eq_some hf), hk, h2⟩

/-- Every glyph the superscript table holds under a plain key is clean and
non-space (the `∞` entry, whose glyph carries a space and a combining
character, has a non-plain key). -/
theorem sup_table_good :
    superscript_ht.all (fun p => !plainChar p.1 ||
      p.2.all (fun c => cleanChar c && !pySpace c)) = true := by
  decide

/-- Every glyph the subscript table holds under a plain key is clean and
non-space. -/
theorem sub_table_good :
    subscript_ht.all (fun p => !plainChar p.1 ||
      p.2.all (fun c => cleanChar c && !pySpace c)) = true := by
  decide

/-- Every character `to_superscript` emits on plain input is clean and
non-space. -/
theorem to_superscript_good (w : Str) (hpl : w.all plainChar = true) :
    ∀ c ∈ to_superscript w, cleanChar c = true ∧ pySpace c = false := by
  intro c hc
  unfold to_superscript at hc
  split at hc
  · simp at hc
  split at hc
  · simp only [List.mem_flatten, List.mem_map] at hc
    obtain ⟨l, ⟨x, hx, rfl⟩, hcl⟩ := hc
    cases hd : dictGetC superscript_ht x with
    | none =>
      rw [hd] at hcl
      simp at hcl
    | some v =>
      rw [hd] at hcl
      simp only [Option.getD_some] at hcl
      obtain ⟨p, hp, hpk, hpv⟩ := dictGetC_mem _ _ _ hd
      have hx' : plainChar x = true := List.all_eq_true.mp hpl x hx
      have hgd := List.all_eq_true.mp sup_table_good p hp
      rw [hpk, hx'] at hgd
      simp only [Bool.not_true, Bool.false_or] at hgd
      have := List.all_eq_true.mp hgd c (hpv ▸ hcl)
      simp only [Bool.and_eq_true, Bool.not_eq_true'] at this
      exact this
  split at hc
  · rcases List.mem_cons.mp hc with rfl | hcw
    · exact ⟨by decide, by decide⟩
    · exact plainChar_fact c (List.all_eq_true.mp hpl c hcw)
  · rcases List.mem_cons.mp hc with rfl | hc2
    · exact ⟨by decide, by decide⟩
    · rcases List.mem_cons.mp hc2 with rfl | hc3
      · exact ⟨by decide, by decide⟩
      · rcases List.mem_append.mp hc3 with hcw | hcp
        · exact plainChar_fact c (List.all_eq_true.mp hpl c hcw)
        · rw [List.mem_singleton.mp hcp]
          exact ⟨by decide, by decide⟩

/-- Every character `to_subscript` emits on plain input is clean and
non-space. -/
theorem to_subscript_good (w : Str) (hpl : w.all plainChar = true) :
    ∀ c ∈ to_subscript w, cleanChar c = true ∧ pySpace c = false := by
  intro c hc
  unfold to_subscript at hc
  split at hc
  · simp at hc
  split at hc
  · simp only [List.mem_flatten, List.mem_map] at hc
    obtain ⟨l, ⟨x, hx, rfl⟩, hcl⟩ := hc
    cases hd : dictGetC subscript_ht x with
    | none =>
      rw [hd] at hcl
      simp at hcl
    | some v =>
      rw [hd] at hcl
      simp only [Option.getD_some] at hcl
      obtain ⟨p, hp, hpk, hpv⟩ := dictGetC_mem _ _ _ hd
      have hx' : plainChar x = true := List.all_eq_true.mp hpl x hx
      have hgd := List.all_eq_true.mp sub_table_good p hp
      rw [hpk, hx'] at hgd
      simp only [Bool.not_true, Bool.false_or] at hgd
      have := List.all_eq_true.mp hgd c (hpv ▸ hcl)
      simp only [Bool.and_eq_true, Bool.not_eq_true'] at this
      exact this
  split at hc
  · rcases List.mem_cons.mp hc with rfl | hcw
    · exact ⟨by decide, by decide⟩
    · exact plainChar_fact c (List.all_eq_true.mp hpl c hcw)
  · rcases List.mem_cons.mp hc with rfl | hc2
    · exact ⟨by decide, by decide⟩
    · rcases List.mem_cons.mp hc2 with rfl | hc3
      · exact ⟨by decide, by decide⟩
      · rcases List.mem_append.mp hc3 with hcw | hcp
        · exact plainChar_fact c (List.all_eq_true.mp hpl c hcw)
        · rw [List.mem_singleton.mp hcp]
          exact ⟨by decide, by decide⟩

/-- A suffix of a `<sup>` span over `<`-free content either is the whole
span, is the closing tag, or does not start with `<`. -/
theorem supSpan_suffix (w : Str) (hw : ∀ ch ∈ w, ch ≠ '<') (t : Str)
    (ht : t <:+ "<sup>".data ++ (w ++ "</sup>".data)) :
    t = "<sup>".data ++ (w ++ "</sup>".data) ∨ t = "</sup>".data ∨
    headSat (· = '<') t = false := by
  rcases suffix_split _ _ t ht with ⟨u, hu, hne, rfl⟩ | ht2
  · have hu' := (List.mem_tails u _).mpr hu
    rw [show ("<sup>".data).tails =
      ["<sup>".data, "sup>".data, "up>".data, "p>".data, ">".data, []]
      from rfl] at hu'
    simp only [List.mem_cons, List.not_mem_nil, or_false] at hu'
    rcases hu' with rfl | rfl | rfl | rfl | rfl | rfl
    · exact Or.inl rfl
    · exact Or.inr (Or.inr rfl)
    · exact Or.inr (Or.inr rfl)
    · exact Or.inr (Or.inr rfl)
    · exact Or.inr (Or.inr rfl)
    · exact absurd rfl hne
  · rcases suffix_split _ _ t ht2 with ⟨u, hu, hne, rfl⟩ | ht3
    · cases u with
      | nil => exact absurd rfl hne
      | cons a u' =>
        have ha : a ≠ '<' := hw a (hu.subset (List.mem_cons_self a u'))
        refine Or.inr (Or.inr ?_)
        simp [headSat, ha]
    · have hu' := (List.mem_tails t _).mpr ht3
      rw [show ("</sup>".data).tails =
        ["</sup>".data, "/sup>".data, "sup>".data, "up>".data, "p>".data,
         ">".data, []] from rfl] at hu'
      simp only [List.mem_cons, List.not_mem_nil, or_false] at hu'
      rcases hu' with rfl | rfl | rfl | rfl | rfl | rfl | rfl
      · exact Or.inr (Or.inl rfl)
      all_goals exact Or.inr (Or.inr rfl)

/-- A suffix of a `<sub>` span over `<`-free content either is the whole
span, is the closing tag, or does not start with `<`. -/
theorem subSpan_suffix (w : Str) (hw : ∀ ch ∈ w, ch ≠ '<') (t : Str)
    (ht : t <:+ "<sub>".data ++ (w ++ "</sub>".data)) :
    t = "<sub>".data ++ (w ++ "</sub>".data) ∨ t = "</sub>".data ∨
    headSat (· = '<') t = false := by
  rcases suffix_split _ _ t ht with ⟨u, hu, hne, rfl⟩ | ht2
  · have hu' := (List.mem_tails u _).mpr hu
    rw [show ("<sub>".data).tails =
      ["<sub>".data, "sub>".data, "ub>".data, "b>".data, ">".data, []]
      from rfl] at hu'
    simp only [List.mem_cons, List.not_mem_nil, or_false] at hu'
    rcases hu' with rfl | rfl | rfl | rfl | rfl | rfl
    · exact Or.inl rfl
    · exact Or.inr (Or.inr rfl)
    · exact Or.inr (Or.inr rfl)
    · exact Or.inr (Or.inr rfl)
    · exact Or.inr (Or.inr rfl)
    · exact absurd rfl hne
  · rcases suffix_split _ _ t ht2 with ⟨u, hu, hne, rfl⟩ | ht3
    · cases u with
      | nil => exact absurd rfl hne
      | cons a u' =>
        have ha : a ≠ '<' := hw a (hu.subset (List.mem_cons_self a u'))
        refine Or.inr (Or.inr ?_)
        simp [headSat, ha]
    · have hu' := (List.mem_tails t _).mpr ht3
      rw [show ("</sub>".data).tails =
        ["</sub>".data, "/sub>".data, "sub>".data, "ub>".data, "b>".data,
         ">".data, []] from rfl] at hu'
      simp only [List.mem_cons, List.not_mem_nil, or_false] at hu'
      rcases hu' with rfl | rfl | rfl | rfl | rfl | rfl | rfl
      · exact Or.inr (Or.inl rfl)
      all_goals exact Or.inr (Or.inr rfl)

/-- Assemble suffix-wise matcher failure on a `<sup>` span from failure at
the span, at the closing tag, and off the `<` trigger. -/
theorem supSpan_none {β : Type} (M : Str → Option β)
    (htrig : ∀ u, (M u).isSome = true → headSat (· = '<') u = true)
    (w : Str) (hw : ∀ ch ∈ w, ch ≠ '<')
    (hfull : M ("<sup>".data ++ (w ++ "</sup>".data)) = none)
    (hclose : M "</sup>".data = none) :
    ∀ u, u <:+ "<sup>".data ++ (w ++ "</sup>".data) → M u = none := by
  intro u hu
  rcases supSpan_suffix w hw u hu with rfl | rfl | hh
  · exact hfull
  · exact hclose
  · exact matcher_none_of_no_trigger M _ htrig u hh

/-- Assemble suffix-wise matcher failure on a `<sub>` span from failure at
the span, at the closing tag, and off the `<` trigger. -/
theorem subSpan_none {β : Type} (M : Str → Option β)
    (htrig : ∀ u, (M u).isSome = true → headSat (· = '<') u = true)
    (w : Str) (hw : ∀ ch ∈ w, ch ≠ '<')
    (hfull : M ("<sub>".data ++ (w ++ "</sub>".data)) = none)
    (hclose : M "</sub>".data = none) :
    ∀ u, u <:+ "<sub>".data ++ (w ++ "</sub>".data) → M u = none := by
  intro u hu
  rcases subSpan_suffix w hw u hu with rfl | rfl | hh
  · exact hfull
  · exact hclose
  · exact matcher_none_of_no_trigger M _ htrig u hh

/-- The ref matcher fails at the head of a `<sup>` tag. -/
theorem mRef_supHead (X : Str) : mRef ('<' :: 's' :: 'u' :: 'p' :: '>' ::X) = none := rfl

/-- The br matcher fails at the head of a `<sup>` tag. -/
theorem mBr_supHead (X : Str) : mBr ('<' :: 's' :: 'u' :: 'p' :: '>' ::X) = none := rfl

/-- The block-tag matcher fails at the head of a `<sup>` tag. -/
theorem mBlockDv_supHead (X : Str) :
    mBlock ["div", "tr", "li", "table"] ('<' :: 's' :: 'u' :: 'p' :: '>' ::X) = none := rfl

/-- The cell-tag matcher fails at the head of a `<sup>` tag. -/
theorem mBlockTd_supHead (X : Str) :
    mBlock ["td", "th"] ('<' :: 's' :: 'u' :: 'p' :: '>' ::X) = none := rfl

/-- The ref matcher fails at the head of a `<sub>` tag. -/
theorem mRef_subHead (X : Str) : mRef ('<' :: 's' :: 'u' :: 'b' :: '>' ::X) = none := rfl

/-- The br matcher fails at the head of a `<sub>` tag. -/
theorem mBr_subHead (X : Str) : mBr ('<' :: 's' :: 'u' :: 'b' :: '>' ::X) = none := rfl

/-- The block-tag matcher fails at the head of a `<sub>` tag. -/
theorem mBlockDv_subHead (X : Str) :
    mBlock ["div", "tr", "li", "table"] ('<' :: 's' :: 'u' :: 'b' :: '>' ::X) = none := rfl

/-- The cell-tag matcher fails at the head of a `<sub>` tag. -/
theorem mBlockTd_subHead (X : Str) :
    mBlock ["td", "th"] ('<' :: 's' :: 'u' :: 'b' :: '>' ::X) = none := rfl

/-- The sup-span matcher fails at the head of a `<sub>` tag. -/
theorem mSpanSup_subHead (X : Str) :
    mSpan "sup" ('<' :: 's' :: 'u' :: 'b' :: '>' ::X) = none := rfl

/-- The empty-sup-pair matcher fails at the head of a `<sub>` tag. -/
theorem mPairSup_subHead (X : Str) :
    mPairEmpty "sup" "sup" ('<' :: 's' :: 'u' :: 'b' :: '>' ::X) = none := rfl

/-- A close-tag pattern fails off its `<` trigger. -/
theorem closeTag_cons_none (wrd : String) (c : Char) (r : Str)
    (hc : c ≠ '<') : closeTag wrd (c :: r) = none := by
  unfold closeTag
  split
  · rename_i heq
    cases heq
    exact absurd rfl hc
  · rfl

/-- The empty-pair matcher fails on a nonempty `<sup>` span whose content
starts with a plain character. -/
theorem mPairEmpty_sup_none (c0 : Char) (w' : Str) (hc : plainChar c0 = true) :
    mPairEmpty "sup" "sup"
      ('<' :: 's' :: 'u' :: 'p' :: '>' ::((c0 :: w') ++ "</sup>".data)) = none := by
  unfold mPairEmpty
  rw [show openTag "sup" ('<' :: 's' :: 'u' :: 'p' :: '>' ::((c0 :: w') ++ "</sup>".data)) =
    some ((c0 :: w') ++ "</sup>".data) from rfl]
  simp only [Option.some_bind]
  rw [show ((c0 :: w') ++ "</sup>".data).dropWhile pySpace =
    c0 :: (w' ++ "</sup>".data) from by
      rw [List.cons_append, List.dropWhile_cons,
        if_neg (by rw [(plainChar_fact c0 hc).2]; simp)]]
  rw [closeTag_cons_none "sup" c0 _ (plainChar_ne c0 hc '<' (by decide))]
  rfl

/-- The empty-sub-pair matcher (which closes with `</sup>`) fails on a
nonempty `<sub>` span whose content starts with a plain character. -/
theorem mPairEmpty_sub_none (c0 : Char) (w' : Str) (hc : plainChar c0 = true) :
    mPairEmpty "sub" "sup"
      ('<' :: 's' :: 'u' :: 'b' :: '>' ::((c0 :: w') ++ "</sub>".data)) = none := by
  unfold mPairEmpty
  rw [show openTag "sub" ('<' :: 's' :: 'u' :: 'b' :: '>' ::((c0 :: w') ++ "</sub>".data)) =
    some ((c0 :: w') ++ "</sub>".data) from rfl]
  simp only [Option.some_bind]
  rw [show ((c0 :: w') ++ "</sub>".data).dropWhile pySpace =
    c0 :: (w' ++ "</sub>".data) from by
      rw [List.cons_append, List.dropWhile_cons,
        if_neg (by rw [(plainChar_fact c0 hc).2]; simp)]]
  rw [closeTag_cons_none "sup" c0 _ (plainChar_ne c0 hc '<' (by decide))]
  rfl

/-- The close-tag scan over `<`-free content finds the appended close tag. -/
theorem findClose_append (wrd : String) : ∀ (w t : Str) (rest : Str),
    (∀ ch ∈ w, ch ≠ '<') → t ≠ [] → closeTag wrd t = some rest →
    findClose wrd (w ++ t) = some (w.length, rest) := by
  intro w
  induction w with
  | nil =>
    intro t rest _ htne hct
    cases t with
    | nil => exact absurd rfl htne
    | cons x r =>
      show findClose wrd (x :: r) = some (0, rest)
      unfold findClose
      rw [hct]
  | cons a w' ih =>
    intro t rest hw htne hct
    have ha : a ≠ '<' := hw a (by simp)
    show findClose wrd (a :: (w' ++ t)) = some (w'.length + 1, rest)
    unfold findClose
    rw [closeTag_cons_none wrd a _ ha,
      ih t rest (fun ch hch => hw ch (by simp [hch])) htne hct]
    rfl

/-- Stripping is the identity on whitespace-free strings. -/
theorem pyStrip_id_of_noWs (s : Str) (h : ∀ c ∈ s, pySpace c = false) :
    pyStrip s = s :=
  pyStrip_eq_self s (fun c hc => h c (List.mem_of_mem_head? hc))
    (fun c hc => h c (List.mem_of_mem_getLast? hc))

/-- The sup-span matcher consumes a whole `<sup>` span over `<`-free
content and captures exactly the content. -/
theorem mSpan_sup_match (w : Str) (hw : ∀ ch ∈ w, ch ≠ '<') :
    mSpan "sup" ("<sup>".data ++ (w ++ "</sup>".data)) =
      some (("<sup>".data ++ (w ++ "</sup>".data)).length, w) := by
  unfold mSpan
  rw [show openTag "sup" ("<sup>".data ++ (w ++ "</sup>".data)) =
    some (w ++ "</sup>".data) from rfl]
  simp only [Option.some_bind]
  rw [findClose_append "sup" w "</sup>".data [] hw (by decide) (by decide)]
  simp [List.take_left]

/-- The sub-span matcher consumes a whole `<sub>` span over `<`-free
content and captures exactly the content. -/
theorem mSpan_sub_match (w : Str) (hw : ∀ ch ∈ w, ch ≠ '<') :
    mSpan "sub" ("<sub>".data ++ (w ++ "</sub>".data)) =
      some (("<sub>".data ++ (w ++ "</sub>".data)).length, w) := by
  unfold mSpan
  rw [show openTag "sub" ("<sub>".data ++ (w ++ "</sub>".data)) =
    some (w ++ "</sub>".data) from rfl]
  simp only [Option.some_bind]
  rw [findClose_append "sub" w "</sub>".data [] hw (by decide) (by decide)]
  simp [List.take_left]


set_option maxRecDepth 4096 in
/-- `clean_value` at any sufficient fuel on a whole `<sup>` span of plain
text: every pass before the sup pass fails everywhere, the sup pass
consumes the whole span and converts the recursively cleaned (identity)
content, and every later pass is the identity on the glyph output. -/
theorem supSpan_clean_aux (cfg : WiktionaryConfig) (w : Str) (F : Nat)
    (hne : w ≠ []) (hpl : w.all plainChar = true) (hF : 1 ≤ F) :
    clean_value (F + 1) cfg ("<sup>".data ++ (w ++ "</sup>".data)) false =
      .ok (to_superscript w) := by
  have hplain : ∀ c ∈ w, plainChar c = true := fun c hc =>
    List.all_eq_true.mp hpl c hc
  have hwlt : ∀ ch ∈ w, ch ≠ '<' := fun c hc =>
    plainChar_ne c (hplain c hc) '<' (by decide)
  have hMFw : MarkupFree w = true := List.all_eq_true.mpr
    (fun c hc => (plainChar_fact c (hplain c hc)).1)
  have hWSw : wsCollapsed w = true := good_wsCollapsed _
    (fun c hc => (plainChar_fact c (hplain c hc)).2)
  have hstripw : pyStrip w = w := pyStrip_id_of_noWs w
    (fun c hc => (plainChar_fact c (hplain c hc)).2)
  have hgood := to_superscript_good w hpl
  have hmem : ∀ c ∈ to_superscript w, cleanChar c = true := fun c hc =>
    (hgood c hc).1
  have hLT : ∀ c ∈ to_superscript w, decide (c = '<') = false := fun c hc => by
    simp [(cleanChar_split c (hmem c hc)).1]
  have hSQ : ∀ c ∈ to_superscript w, decide (c = '[') = false := fun c hc => by
    simp [(cleanChar_split c (hmem c hc)).2.2.1]
  have hAMP : ∀ c ∈ to_superscript w, decide (c = '&') = false := fun c hc => by
    simp [(cleanChar_split c (hmem c hc)).2.2.2.1]
  have hNB : ∀ c ∈ to_superscript w, c ≠ Char.ofNat 0xA0 := fun c hc =>
    (cleanChar_split c (hmem c hc)).2.2.2.2.1
  have hAP : ∀ c ∈ to_superscript w, decide (c = aposChar) = false :=
    fun c hc => by
      simp [(cleanChar_split c (hmem c hc)).2.2.2.2.2.1]
  have hNI : ∀ c ∈ to_superscript w, nfcInert c = true := fun c hc =>
    (cleanChar_split c (hmem c hc)).2.2.2.2.2.2
  obtain ⟨ht1, ht2, ht4, ht3⟩ : noTabCr (to_superscript w) = true ∧
      noPair isSp isSp (to_superscript w) = true ∧
      noPair isSp isNl (to_superscript w) = true ∧
      noPair isNl isNl (to_superscript w) = true := by
    have := good_wsCollapsed (to_superscript w) (fun c hc => (hgood c hc).2)
    unfold wsCollapsed at this
    simpa [Bool.and_eq_true, and_assoc] using this
  have hHUt : htmlUnescape (to_superscript w) = to_superscript w :=
    reSubR_id mEntity id _ mEntity_trigger _ hAMP
  have hNFCt : unicodeNFC (to_superscript w) = to_superscript w :=
    unicodeNFC_id _ hNI
  have hstript : pyStrip (to_superscript w) = to_superscript w :=
    pyStrip_id_of_noWs _ (fun c hc => (hgood c hc).2)
  have htagO : ∀ c ∈ ("<sup>".data : Str), decide (c = '\x7b') = false := by
    decide
  have htagC : ∀ c ∈ ("</sup>".data : Str), decide (c = '\x7b') = false := by
    decide
  have hBRS : ∀ c ∈ "<sup>".data ++ (w ++ "</sup>".data),
      decide (c = '\x7b') = false := by
    intro c hc
    rcases List.mem_append.mp hc with h1 | h2
    · exact htagO c h1
    · rcases List.mem_append.mp h2 with h3 | h4
      · exact decide_eq_false
          (plainChar_ne c (hplain c h3) '\x7b' (by decide))
      · exact htagC c h4
  have hPEfull : mPairEmpty "sup" "sup"
      ("<sup>".data ++ (w ++ "</sup>".data)) = none := by
    cases w with
    | nil => exact absurd rfl hne
    | cons c0 w' => exact mPairEmpty_sup_none c0 w' (hplain c0 (by simp))
  have hRef := supSpan_none mRef mRef_trigger w hwlt (mRef_supHead _)
    (by decide)
  have hBrN := supSpan_none mBr mBr_trigger w hwlt (mBr_supHead _)
    (by decide)
  have hBlkDv := supSpan_none (mBlock ["div", "tr", "li", "table"])
    (mBlock_trigger _) w hwlt (mBlockDv_supHead _) (by decide)
  have hBlkTd := supSpan_none (mBlock ["td", "th"]) (mBlock_trigger _) w hwlt
    (mBlockTd_supHead _) (by decide)
  have hPE := supSpan_none (mPairEmpty "sup" "sup") (mPairEmpty_trigger _ _)
    w hwlt hPEfull (by decide)
  have hms := mSpan_sup_match w hwlt
  have hSne : "<sup>".data ++ (w ++ "</sup>".data) ≠ [] := by simp
  have hrepl : (fun g =>
      (clean_value F cfg g false).bind fun r =>
        MathRes.ok (to_superscript r)) w = MathRes.ok (to_superscript w) := by
    show (clean_value F cfg w false).bind
      (fun r => MathRes.ok (to_superscript r)) = MathRes.ok (to_superscript w)
    obtain ⟨G, rfl⟩ : ∃ G, F = G + 1 := ⟨F - 1, by omega⟩
    rw [clean_value_plain G cfg w false hMFw hWSw, MathRes.bind_ok]
    simp only [Bool.false_eq_true, if_false, hstripw]
  have hwhole := reSubM_whole (mSpan "sup")
    (fun g =>
      (clean_value F cfg g false).bind fun r => MathRes.ok (to_superscript r))
    ("<sup>".data ++ (w ++ "</sup>".data)) w hSne hms
    (to_superscript w) hrepl
  simp only [clean_value]
  simp only [reSubC_id mTemplate [] _ mTemplate_trigger _ hBRS,
    reSubC_id mTable "\n".data _ mTable_trigger _ hBRS,
    reSubC_noneAll mRef [] _ hRef,
    reSubC_noneAll mBr ", ".data _ hBrN,
    reSubC_noneAll (mBlock ["div", "tr", "li", "table"]) "\n".data _ hBlkDv,
    reSubC_noneAll (mBlock ["td", "th"]) " ".data _ hBlkTd,
    reSubC_noneAll (mPairEmpty "sup" "sup") [] _ hPE]
  simp only [hwhole, MathRes.ok_bind]
  simp only [reSubC_id (mPairEmpty "sub" "sup") [] _ (mPairEmpty_trigger _ _) _ hLT,
    reSubM_id (mSpan "sub") _ _ (mSpan_trigger _) _ hLT,
    reSubM_id (mSpan "chem") _ _ (mSpan_trigger _) _ hLT,
    reSubM_id (mSpan "math") _ _ (mSpan_trigger _) _ hLT,
    MathRes.ok_bind]
  simp only [reSubC_id mOpenAny [] _ mOpenAny_trigger _ hLT,
    reSubC_id mCloseAny [] _ mCloseAny_trigger _ hLT,
    reSubC_id mCategory [] _ mCategory_trigger _ hSQ,
    reSubM_id mLinkBars _ _ mLinkBars_trigger _ hSQ,
    reSubM_id mLink _ _ mLink_trigger _ hSQ,
    reSubM_id mLink2 _ _ mLink2_trigger _ hSQ,
    reSubM_id mUrl _ _ mUrl_trigger _ hSQ,
    MathRes.ok_bind]
  simp only [reSubC_id mEdit [] _ mEdit_trigger _ hSQ,
    reSubC_id mQuotes [] _ mQuotes_trigger _ hAP,
    hHUt, map_nbsp_id _ hNB,
    c1_fix _ ht1 ht2, c2_fix _ ht2 ht4 ht3,
    Bool.false_eq_true, if_false, hstript, hNFCt]

set_option maxRecDepth 4096 in
/-- `clean_value` at any sufficient fuel on a whole `<sub>` span of plain
text: analogous to the sup case; the empty-pair pass (which looks for a
`</sup>` close) and the sup-span pass fail everywhere, the sub-span pass
consumes the whole span. -/
theorem subSpan_clean_aux (cfg : WiktionaryConfig) (w : Str) (F : Nat)
    (hne : w ≠ []) (hpl : w.all plainChar = true) (hF : 1 ≤ F) :
    clean_value (F + 1) cfg ("<sub>".data ++ (w ++ "</sub>".data)) false =
      .ok (to_subscript w) := by
  have hplain : ∀ c ∈ w, plainChar c = true := fun c hc =>
    List.all_eq_true.mp hpl c hc
  have hwlt : ∀ ch ∈ w, ch ≠ '<' := fun c hc =>
    plainChar_ne c (hplain c hc) '<' (by decide)
  have hMFw : MarkupFree w = true := List.all_eq_true.mpr
    (fun c hc => (plainChar_fact c (hplain c hc)).1)
  have hWSw : wsCollapsed w = true := good_wsCollapsed _
    (fun c hc => (plainChar_fact c (hplain c hc)).2)
  have hstripw : pyStrip w = w := pyStrip_id_of_noWs w
    (fun c hc => (plainChar_fact c (hplain c hc)).2)
  have hgood := to_subscript_good w hpl
  have hmem : ∀ c ∈ to_subscript w, cleanChar c = true := fun c hc =>
    (hgood c hc).1
  have hLT : ∀ c ∈ to_subscript w, decide (c = '<') = false := fun c hc => by
    simp [(cleanChar_split c (hmem c hc)).1]
  have hSQ : ∀ c ∈ to_subscript w, decide (c = '[') = false := fun c hc => by
    simp [(cleanChar_split c (hmem c hc)).2.2.1]
  have hAMP : ∀ c ∈ to_subscript w, decide (c = '&') = false := fun c hc => by
    simp [(cleanChar_split c (hmem c hc)).2.2.2.1]
  have hNB : ∀ c ∈ to_subscript w, c ≠ Char.ofNat 0xA0 := fun c hc =>
    (cleanChar_split c (hmem c hc)).2.2.2.2.1
  have hAP : ∀ c ∈ to_subscript w, decide (c = aposChar) = false :=
    fun c hc => by
      simp [(cleanChar_split c (hmem c hc)).2.2.2.2.2.1]
  have hNI : ∀ c ∈ to_subscript w, nfcInert c = true := fun c hc =>
    (cleanChar_split c (hmem c hc)).2.2.2.2.2.2
  obtain ⟨ht1, ht2, ht4, ht3⟩ : noTabCr (to_subscript w) = true ∧
      noPair isSp isSp (to_subscript w) = true ∧
      noPair isSp isNl (to_subscript w) = true ∧
      noPair isNl isNl (to_subscript w) = true := by
    have := good_wsCollapsed (to_subscript w) (fun c hc => (hgood c hc).2)
    unfold wsCollapsed at this
    simpa [Bool.and_eq_true, and_assoc] using this
  have hHUt : htmlUnescape (to_subscript w) = to_subscript w :=
    reSubR_id mEntity id _ mEntity_trigger _ hAMP
  have hNFCt : unicodeNFC (to_subscript w) = to_subscript w :=
    unicodeNFC_id _ hNI
  have hstript : pyStrip (to_subscript w) = to_subscript w :=
    pyStrip_id_of_noWs _ (fun c hc => (hgood c hc).2)
  have htagO : ∀ c ∈ ("<sub>".data : Str), decide (c = '\x7b') = false := by
    decide
  have htagC : ∀ c ∈ ("</sub>".data : Str), decide (c = '\x7b') = false := by
    decide
  have hBRS : ∀ c ∈ "<sub>".data ++ (w ++ "</sub>".data),
      decide (c = '\x7b') = false := by
    intro c hc
    rcases List.mem_append.mp hc with h1 | h2
    · exact htagO c h1
    · rcases List.mem_append.mp h2 with h3 | h4
      · exact decide_eq_false
          (plainChar_ne c (hplain c h3) '\x7b' (by decide))
      · exact htagC c h4
  have hPEfull : mPairEmpty "sub" "sup"
      ("<sub>".data ++ (w ++ "</sub>".data)) = none := by
    cases w with
    | nil => exact absurd rfl hne
    | cons c0 w' => exact mPairEmpty_sub_none c0 w' (hplain c0 (by simp))
  have hRef := subSpan_none mRef mRef_trigger w hwlt (mRef_subHead _)
    (by decide)
  have hBrN := subSpan_none mBr mBr_trigger w hwlt (mBr_subHead _)
    (by decide)
  have hBlkDv := subSpan_none (mBlock ["div", "tr", "li", "table"])
    (mBlock_trigger _) w hwlt (mBlockDv_subHead _) (by decide)
  have hBlkTd := subSpan_none (mBlock ["td", "th"]) (mBlock_trigger _) w hwlt
    (mBlockTd_subHead _) (by decide)
  have hPEsup := subSpan_none (mPairEmpty "sup" "sup")
    (mPairEmpty_trigger _ _) w hwlt (mPairSup_subHead _) (by decide)
  have hSpanSup := subSpan_none (mSpan "sup") (mSpan_trigger _) w hwlt
    (mSpanSup_subHead _) (by decide)
  have hPE := subSpan_none (mPairEmpty "sub" "sup") (mPairEmpty_trigger _ _)
    w hwlt hPEfull (by decide)
  have hms := mSpan_sub_match w hwlt
  have hSne : "<sub>".data ++ (w ++ "</sub>".data) ≠ [] := by simp
  have hrepl : (fun g =>
      (clean_value F cfg g false).bind fun r =>
        MathRes.ok (to_subscript r)) w = MathRes.ok (to_subscript w) := by
    show (clean_value F cfg w false).bind
      (fun r => MathRes.ok (to_subscript r)) = MathRes.ok (to_subscript w)
    obtain ⟨G, rfl⟩ : ∃ G, F = G + 1 := ⟨F - 1, by omega⟩
    rw [clean_value_plain G cfg w false hMFw hWSw, MathRes.bind_ok]
    simp only [Bool.false_eq_true, if_false, hstripw]
  have hwhole := reSubM_whole (mSpan "sub")
    (fun g =>
      (clean_value F cfg g false).bind fun r => MathRes.ok (to_subscript r))
    ("<sub>".data ++ (w ++ "</sub>".data)) w hSne hms
    (to_subscript w) hrepl
  simp only [clean_value]
  simp only [reSubC_id mTemplate [] _ mTemplate_trigger _ hBRS,
    reSubC_id mTable "\n".data _ mTable_trigger _ hBRS,
    reSubC_noneAll mRef [] _ hRef,
    reSubC_noneAll mBr ", ".data _ hBrN,
    reSubC_noneAll (mBlock ["div", "tr", "li", "table"]) "\n".data _ hBlkDv,
    reSubC_noneAll (mBlock ["td", "th"]) " ".data _ hBlkTd,
    reSubC_noneAll (mPairEmpty "sup" "sup") [] _ hPEsup,
    reSubM_noneAll (mSpan "sup") _ _ hSpanSup,
    MathRes.ok_bind,
    reSubC_noneAll (mPairEmpty "sub" "sup") [] _ hPE]
  simp only [hwhole, MathRes.ok_bind]
  simp only [reSubM_id (mSpan "chem") _ _ (mSpan_trigger _) _ hLT,
    reSubM_id (mSpan "math") _ _ (mSpan_trigger _) _ hLT,
    MathRes.ok_bind]
  simp only [reSubC_id mOpenAny [] _ mOpenAny_trigger _ hLT,
    reSubC_id mCloseAny [] _ mCloseAny_trigger _ hLT,
    reSubC_id mCategory [] _ mCategory_trigger _ hSQ,
    reSubM_id mLinkBars _ _ mLinkBars_trigger _ hSQ,
    reSubM_id mLink _ _ mLink_trigger _ hSQ,
    reSubM_id mLink2 _ _ mLink2_trigger _ hSQ,
    reSubM_id mUrl _ _ mUrl_trigger _ hSQ,
    MathRes.ok_bind]
  simp only [reSubC_id mEdit [] _ mEdit_trigger _ hSQ,
    reSubC_id mQuotes [] _ mQuotes_trigger _ hAP,
    hHUt, map_nbsp_id _ hNB,
    c1_fix _ ht1 ht2, c2_fix _ ht2 ht4 ht3,
    Bool.false_eq_true, if_false, hstript, hNFCt]

/-- Claim C6: `clean_value` collapses an empty `<sup></sup>` pair to
nothing; it replaces a (plain-text, nonempty) `<sup>...</sup>` span with
`to_superscript` of the recursively cleaned inner content (the recursive
clean is the identity on such content), and analogously `<sub>...</sub>`
via `to_subscript`; in particular `clean_value(cfg, "<sup>2</sup>") = "²"`
and `clean_value(cfg, "<sub>x</sub>") = "ₓ"`. -/
theorem C6_spans (cfg : WiktionaryConfig) (w : Str) (hne : w ≠ [])
    (hpl : w.all plainChar = true) :
    cleanValue cfg ("<sup>".data ++ (w ++ "</sup>".data)) =
      .ok (to_superscript w) ∧
    cleanValue cfg ("<sub>".data ++ (w ++ "</sub>".data)) =
      .ok (to_subscript w) ∧
    cleanValue cfg "<sup></sup>".data = .ok [] ∧
    cleanValue cfg "<sub></sub>".data = .ok [] ∧
    cleanValue ⟨""⟩ "<sup>2</sup>".data = .ok "²".data ∧
    cleanValue ⟨""⟩ "<sub>x</sub>".data = .ok "ₓ".data := by
  refine ⟨?_, ?_, rfl, rfl, by decide, by decide⟩
  · unfold cleanValue
    rw [show ("<sup>".data ++ (w ++ "</sup>".data)).length + 64 =
      (("<sup>".data ++ (w ++ "</sup>".data)).length + 63) + 1 from by omega]
    exact supSpan_clean_aux cfg w _ hne hpl (by omega)
  · unfold cleanValue
    rw [show ("<sub>".data ++ (w ++ "</sub>".data)).length + 64 =
      (("<sub>".data ++ (w ++ "</sub>".data)).length + 63) + 1 from by omega]
    exact subSpan_clean_aux cfg w _ hne hpl (by omega)

/-- Witness for C6 at `w = "2"` (and `"x"` for the sub half is covered by
the concrete conjuncts inside the theorem). -/
theorem C6_spans_witness :
    ("2".data ≠ [] ∧ "2".data.all plainChar = true) ∧
    (cleanValue ⟨""⟩ ("<sup>".data ++ ("2".data ++ "</sup>".data)) =
      .ok (to_superscript "2".data) ∧
    cleanValue ⟨""⟩ ("<sub>".data ++ ("2".data ++ "</sub>".data)) =
      .ok (to_subscript "2".data) ∧
    cleanValue ⟨""⟩ "<sup></sup>".data = .ok [] ∧
    cleanValue ⟨""⟩ "<sub></sub>".data = .ok [] ∧
    cleanValue ⟨""⟩ "<sup>2</sup>".data = .ok "²".data ∧
    cleanValue ⟨""⟩ "<sub>x</sub>".data = .ok "ₓ".data) :=
  ⟨⟨by decide, by decide⟩,
    C6_spans ⟨""⟩ "2".data (by decide) (by decide)⟩

/-- `\s*` splits of a string that does not start with whitespace: only the
empty-prefix split. -/
theorem wsSplits_noWs (s : Str) (h : headSat pySpace s = false) :
    wsSplits s = [([], s)] := by
  cases s with
  | nil => rfl
  | cons c r =>
    have hc : pySpace c = false := h
    unfold wsSplits
    dsimp only
    rw [List.takeWhile_cons, if_neg (by simp [hc]),
      List.dropWhile_cons, if_neg (by simp [hc])]
    rfl

/-- Scanning the lazy-group candidates: when every proper prefix of the
permitted run fails, the scan returns the continuation at the full run. -/
theorem lazyCands_step {γ : Type} (keep : Char → Bool) (w rest : Str)
    (hne : w ≠ []) (hw : ∀ c ∈ w, keep c = true)
    (hrest : headSat keep rest = false)
    (f : Str × Str → Option γ)
    (hfail : ∀ k, k + 1 < w.length →
      f (w.take (k + 1), w.drop (k + 1) ++ rest) = none) :
    (lazyCands keep (w ++ rest)).findSome? f = f (w, rest) := by
  unfold lazyCands
  have htw : (w ++ rest).takeWhile keep = w := by
    rw [List.takeWhile_append_of_pos hw]
    cases rest with
    | nil => simp
    | cons c r =>
      have hc : keep c = false := hrest
      rw [List.takeWhile_cons, if_neg (by simp [hc])]
      simp
  rw [htw, List.findSome?_map]
  obtain ⟨n, hn⟩ : ∃ n, w.length = n + 1 := by
    cases w with
    | nil => exact absurd rfl hne
    | cons a l => exact ⟨l.length, by simp⟩
  rw [hn, List.range_succ, List.findSome?_append]
  have h1 : (List.range n).findSome?
      ((f ∘ fun k => ((w ++ rest).take (k + 1), (w ++ rest).drop (k + 1)))) =
      none := by
    rw [List.findSome?_eq_none_iff]
    intro k hk
    have hk' : k + 1 < w.length := by
      rw [hn]
      have := List.mem_range.mp hk
      omega
    show f ((w ++ rest).take (k + 1), (w ++ rest).drop (k + 1)) = none
    rw [List.take_append_of_le_length (by omega),
      List.drop_append_of_le_length (by omega)]
    exact hfail k hk'
  rw [h1, Option.none_or]
  have ht : (w ++ rest).take (n + 1) = w := by
    rw [← hn, List.take_left]
  have hd : (w ++ rest).drop (n + 1) = rest := by
    rw [← hn, List.drop_left]
  simp only [List.findSome?_cons, List.findSome?_nil, Function.comp_apply,
    ht, hd]
  cases f (w, rest) <;> rfl

/-- The optional extra-caption group at a position that is not a bar and
not whitespace: only the absent alternative. -/
theorem optExtra_stuck (c : Char) (r : Str) (hc1 : c ≠ '|')
    (hc2 : pySpace c = false) : optExtra (c :: r) = [(none, c :: r)] := by
  unfold optExtra
  rw [wsSplits_noWs _ (show headSat pySpace (c :: r) = false from hc2)]
  simp only [List.flatMap_cons, List.flatMap_nil, List.append_nil]
  split
  · rename_i heq
    cases heq
    exact absurd rfl hc1
  · rfl

/-- The optional extra-caption group at a bar followed by non-whitespace:
the present alternative's lazy candidates, then the absent alternative. -/
theorem optExtra_bar (r3 : Str) (h : headSat pySpace r3 = false) :
    optExtra ('|' :: r3) =
      ((lazyCands linkChar r3).map fun g => ((some g.1 : Option Str), g.2)) ++
      [(none, '|' :: r3)] := by
  unfold optExtra
  rw [wsSplits_noWs ('|' :: r3) (show headSat pySpace ('|' :: r3) = false from rfl)]
  simp only [List.flatMap_cons, List.flatMap_nil, List.append_nil]
  rw [wsSplits_noWs r3 h]
  simp only [List.flatMap_cons, List.flatMap_nil, List.append_nil]

/-- A singleton scan returns the function's value. -/
theorem findSome?_singleton {α β : Type} (f : α → Option β) (a : α) :
    ([a] : List α).findSome? f = f a := by
  simp only [List.findSome?_cons, List.findSome?_nil]
  cases f a <;> rfl

/-- The piped-link matcher in terms of its named continuations. -/
theorem mLinkBars_eq (r : Str) :
    mLinkBars ('[' :: '[' :: r) =
      (wsSplits r).findSome? (lbStep1 ('[' :: '[' :: r)) := rfl

/-- Plain characters are permitted link characters and are not whitespace. -/
theorem plain_link (c : Char) (h : plainChar c = true) :
    linkChar c = true ∧ pySpace c = false := by
  refine ⟨?_, (plainChar_fact c h).2⟩
  unfold linkChar
  simp [plainChar_ne c h ']' (by decide), plainChar_ne c h '|' (by decide)]

/-- The link-close continuation fails on a plain character. -/
theorem lbStep4_plain (L a b : Str) (o : Option Str) (c : Char) (x : Str)
    (hc : plainChar c = true) : lbStep4 L a b (o, c :: x) = none := by
  unfold lbStep4
  rw [show ((o, c :: x) : Option Str × Str).2 = c :: x from rfl,
    wsSplits_noWs (c :: x) ((plainChar_fact c hc).2), findSome?_singleton]
  split
  · rename_i heq
    cases heq
    exact absurd hc (by decide)
  · rfl

/-- The link-close continuation succeeds exactly at `]]`. -/
theorem lbStep4_close (L a b : Str) (o : Option Str) (r6 : Str) :
    lbStep4 L a b (o, ']' :: ']' :: r6) =
      some (L.length - r6.length, a, b, o) := by
  unfold lbStep4
  rw [show ((o, ']' :: ']' :: r6) : Option Str × Str).2 = ']' :: ']' :: r6
      from rfl,
    wsSplits_noWs (']' :: ']' :: r6)
      (show headSat pySpace (']' :: ']' :: r6) = false from rfl),
    findSome?_singleton]
  rfl

/-- The display-group continuation fails when the remainder starts with a
plain character. -/
theorem lbStep3_plain (L a b : Str) (c : Char) (x : Str)
    (hc : plainChar c = true) : lbStep3 L a (b, c :: x) = none := by
  unfold lbStep3
  rw [show ((b, c :: x) : Str × Str).2 = c :: x from rfl,
    optExtra_stuck c x (plainChar_ne c hc '|' (by decide))
      ((plainChar_fact c hc).2),
    findSome?_singleton]
  exact lbStep4_plain L a b none c x hc

/-- The display-group continuation at the close of a two-group link. -/
theorem lbStep3_close (L a b : Str) (r6 : Str) :
    lbStep3 L a (b, ']' :: ']' :: r6) =
      some (L.length - r6.length, a, b, none) := by
  unfold lbStep3
  rw [show ((b, ']' :: ']' :: r6) : Str × Str).2 = ']' :: ']' :: r6 from rfl,
    optExtra_stuck ']' (']' :: r6) (by decide)
      (show pySpace ']' = false from rfl),
    findSome?_singleton]
  exact lbStep4_close L a b none r6

/-- The display-group continuation at a bar followed by a plain extra
caption and the close: captures the extra group. -/
theorem lbStep3_bar (L a b : Str) (e : Str) (hene : e ≠ [])
    (hpe : ∀ c ∈ e, plainChar c = true) :
    lbStep3 L a (b, '|' :: (e ++ "]]".data)) =
      some (L.length, a, b, some e) := by
  unfold lbStep3
  rw [show ((b, '|' :: (e ++ "]]".data)) : Str × Str).2 =
      '|' :: (e ++ "]]".data) from rfl]
  have hhe : headSat pySpace (e ++ "]]".data) = false := by
    cases e with
    | nil => exact absurd rfl hene
    | cons c x => exact (plainChar_fact c (hpe c (by simp))).2
  rw [optExtra_bar _ hhe, List.findSome?_append, List.findSome?_map]
  have hfail : ∀ k, k + 1 < e.length →
      (lbStep4 L a b ∘ fun g => ((some g.1 : Option Str), g.2))
        (e.take (k + 1), e.drop (k + 1) ++ "]]".data) = none := by
    intro k hk
    cases hdrop : e.drop (k + 1) with
    | nil =>
      have := List.drop_eq_nil_iff.mp hdrop
      omega
    | cons c x =>
      have hcin : c ∈ e := (List.drop_suffix (k + 1) e).subset
        (by rw [hdrop]; exact List.mem_cons_self c x)
      rw [List.cons_append]
      exact lbStep4_plain L a b _ c _ (hpe c hcin)
  rw [lazyCands_step linkChar e "]]".data hene
    (fun c hc => (plain_link c (hpe c hc)).1) rfl
    (lbStep4 L a b ∘ fun g => ((some g.1 : Option Str), g.2)) hfail]
  rw [show (lbStep4 L a b ∘ fun g => ((some g.1 : Option Str), g.2))
      (e, "]]".data) = lbStep4 L a b (some e, ']' :: ']' :: []) from rfl,
    lbStep4_close]
  simp

/-- The target-group continuation fails when the remainder starts with a
plain character. -/
theorem lbStep2_plain (L cap : Str) (c : Char) (x : Str)
    (hc : plainChar c = true) : lbStep2 L (cap, c :: x) = none := by
  unfold lbStep2
  rw [show ((cap, c :: x) : Str × Str).2 = c :: x from rfl,
    wsSplits_noWs (c :: x) ((plainChar_fact c hc).2), findSome?_singleton]
  split
  · rename_i heq
    cases heq
    exact absurd hc (by decide)
  · rfl

/-- The target-group continuation at the bar steps to the display scan. -/
theorem lbStep2_bar (L cap : Str) (r3 : Str) :
    lbStep2 L (cap, '|' :: r3) = (wsSplits r3).findSome? (lbStep3w L cap) := by
  unfold lbStep2
  rw [show ((cap, '|' :: r3) : Str × Str).2 = '|' :: r3 from rfl,
    wsSplits_noWs ('|' :: r3) (show headSat pySpace ('|' :: r3) = false
      from rfl),
    findSome?_singleton]
  rfl

/-- The piped-link matcher on a two-group plain link `[[t|d]]`: consumes
the whole link, capturing target and display, with no extra group. -/
theorem mLinkBars_match2 (t d : Str) (htne : t ≠ []) (hdne : d ≠ [])
    (hpt : ∀ c ∈ t, plainChar c = true) (hpd : ∀ c ∈ d, plainChar c = true) :
    mLinkBars ('[' :: '[' :: (t ++ '|' :: (d ++ "]]".data))) =
      some (('[' :: '[' :: (t ++ '|' :: (d ++ "]]".data))).length,
        t, d, none) := by
  rw [mLinkBars_eq]
  have hR : headSat pySpace (t ++ '|' :: (d ++ "]]".data)) = false := by
    cases t with
    | nil => exact absurd rfl htne
    | cons c t' => exact (plainChar_fact c (hpt c (by simp))).2
  rw [wsSplits_noWs _ hR, findSome?_singleton]
  show (lazyCands linkChar (t ++ '|' :: (d ++ "]]".data))).findSome?
    (lbStep2 ('[' :: '[' :: (t ++ '|' :: (d ++ "]]".data)))) = _
  have hfail1 : ∀ k, k + 1 < t.length →
      lbStep2 ('[' :: '[' :: (t ++ '|' :: (d ++ "]]".data)))
        (t.take (k + 1), t.drop (k + 1) ++ '|' :: (d ++ "]]".data)) =
        none := by
    intro k hk
    cases hdrop : t.drop (k + 1) with
    | nil =>
      have := List.drop_eq_nil_iff.mp hdrop
      omega
    | cons c x =>
      have hcin : c ∈ t := (List.drop_suffix (k + 1) t).subset
        (by rw [hdrop]; exact List.mem_cons_self c x)
      rw [List.cons_append]
      exact lbStep2_plain _ _ c _ (hpt c hcin)
  rw [lazyCands_step linkChar t ('|' :: (d ++ "]]".data)) htne
    (fun c hc => (plain_link c (hpt c hc)).1) rfl
    (lbStep2 ('[' :: '[' :: (t ++ '|' :: (d ++ "]]".data)))) hfail1]
  rw [lbStep2_bar]
  have hD : headSat pySpace (d ++ "]]".data) = false := by
    cases d with
    | nil => exact absurd rfl hdne
    | cons c d' => exact (plainChar_fact c (hpd c (by simp))).2
  rw [wsSplits_noWs _ hD, findSome?_singleton]
  show (lazyCands linkChar (d ++ "]]".data)).findSome?
    (lbStep3 ('[' :: '[' :: (t ++ '|' :: (d ++ "]]".data))) t) = _
  have hfail2 : ∀ k, k + 1 < d.length →
      lbStep3 ('[' :: '[' :: (t ++ '|' :: (d ++ "]]".data))) t
        (d.take (k + 1), d.drop (k + 1) ++ "]]".data) = none := by
    intro k hk
    cases hdrop : d.drop (k + 1) with
    | nil =>
      have := List.drop_eq_nil_iff.mp hdrop
      omega
    | cons c x =>
      have hcin : c ∈ d := (List.drop_suffix (k + 1) d).subset
        (by rw [hdrop]; exact List.mem_cons_self c x)
      rw [List.cons_append]
      exact lbStep3_plain _ _ _ c _ (hpd c hcin)
  rw [lazyCands_step linkChar d "]]".data hdne
    (fun c hc => (plain_link c (hpd c hc)).1) rfl
    (lbStep3 ('[' :: '[' :: (t ++ '|' :: (d ++ "]]".data))) t) hfail2]
  rw [show ("]]".data : Str) = ']' :: ']' :: ([] : Str) from rfl,
    lbStep3_close]
  simp

/-- The piped-link matcher on a three-group plain link `[[t|d|e]]`:
consumes the whole link, capturing target, display and extra caption. -/
theorem mLinkBars_match3 (t d e : Str) (htne : t ≠ []) (hdne : d ≠ [])
    (hene : e ≠ [])
    (hpt : ∀ c ∈ t, plainChar c = true) (hpd : ∀ c ∈ d, plainChar c = true)
    (hpe : ∀ c ∈ e, plainChar c = true) :
    mLinkBars ('[' :: '[' :: (t ++ '|' :: (d ++ '|' :: (e ++ "]]".data)))) =
      some (('[' :: '[' ::
          (t ++ '|' :: (d ++ '|' :: (e ++ "]]".data)))).length,
        t, d, some e) := by
  rw [mLinkBars_eq]
  have hR : headSat pySpace
      (t ++ '|' :: (d ++ '|' :: (e ++ "]]".data))) = false := by
    cases t with
    | nil => exact absurd rfl htne
    | cons c t' => exact (plainChar_fact c (hpt c (by simp))).2
  rw [wsSplits_noWs _ hR, findSome?_singleton]
  show (lazyCands linkChar
      (t ++ '|' :: (d ++ '|' :: (e ++ "]]".data)))).findSome?
    (lbStep2
      ('[' :: '[' :: (t ++ '|' :: (d ++ '|' :: (e ++ "]]".data))))) = _
  have hfail1 : ∀ k, k + 1 < t.length →
      lbStep2 ('[' :: '[' :: (t ++ '|' :: (d ++ '|' :: (e ++ "]]".data))))
        (t.take (k + 1),
          t.drop (k + 1) ++ '|' :: (d ++ '|' :: (e ++ "]]".data))) =
        none := by
    intro k hk
    cases hdrop : t.drop (k + 1) with
    | nil =>
      have := List.drop_eq_nil_iff.mp hdrop
      omega
    | cons c x =>
      have hcin : c ∈ t := (List.drop_suffix (k + 1) t).subset
        (by rw [hdrop]; exact List.mem_cons_self c x)
      rw [List.cons_append]
      exact lbStep2_plain _ _ c _ (hpt c hcin)
  rw [lazyCands_step linkChar t ('|' :: (d ++ '|' :: (e ++ "]]".data))) htne
    (fun c hc => (plain_link c (hpt c hc)).1) rfl
    (lbStep2 ('[' :: '[' :: (t ++ '|' :: (d ++ '|' :: (e ++ "]]".data)))))
    hfail1]
  rw [lbStep2_bar]
  have hD : headSat pySpace (d ++ '|' :: (e ++ "]]".data)) = false := by
    cases d with
    | nil => exact absurd rfl hdne
    | cons c d' => exact (plainChar_fact c (hpd c (by simp))).2
  rw [wsSplits_noWs _ hD, findSome?_singleton]
  show (lazyCands linkChar (d ++ '|' :: (e ++ "]]".data))).findSome?
    (lbStep3 ('[' :: '[' :: (t ++ '|' :: (d ++ '|' :: (e ++ "]]".data)))) t)
    = _
  have hfail2 : ∀ k, k + 1 < d.length →
      lbStep3 ('[' :: '[' :: (t ++ '|' :: (d ++ '|' :: (e ++ "]]".data)))) t
        (d.take (k + 1), d.drop (k + 1) ++ '|' :: (e ++ "]]".data)) =
        none := by
    intro k hk
    cases hdrop : d.drop (k + 1) with
    | nil =>
      have := List.drop_eq_nil_iff.mp hdrop
      omega
    | cons c x =>
      have hcin : c ∈ d := (List.drop_suffix (k + 1) d).subset
        (by rw [hdrop]; exact List.mem_cons_self c x)
      rw [List.cons_append]
      exact lbStep3_plain _ _ _ c _ (hpd c hcin)
  rw [lazyCands_step linkChar d ('|' :: (e ++ "]]".data)) hdne
    (fun c hc => (plain_link c (hpd c hc)).1) rfl
    (lbStep3 ('[' :: '[' :: (t ++ '|' :: (d ++ '|' :: (e ++ "]]".data)))) t)
    hfail2]
  rw [lbStep3_bar _ _ _ e hene hpe]

/-- The category matcher needs two opening brackets. -/
theorem mCategory_oneBracket (c : Char) (x : Str) (hc : c ≠ '[') :
    mCategory ('[' :: c :: x) = none := by
  unfold mCategory
  split
  · rename_i heq
    injection heq with h1 h2
    injection h2 with h3 h4
    exact absurd h3 hc
  · rfl

/-- The category matcher fails on a link whose plain target carries no
colon (the `Category` word cannot be followed by its colon). -/
theorem mCategory_none_noColon (t : Str) (x' : Str) (htne : t ≠ [])
    (hpt : ∀ c ∈ t, plainChar c = true) (hcol : ∀ c ∈ t, c ≠ ':') :
    mCategory ('[' :: '[' :: (t ++ '|' :: x')) = none := by
  show ((dropCI "category" ((t ++ '|' :: x').dropWhile pySpace)).bind
      fun r2 =>
        match r2.dropWhile pySpace with
        | ':' :: r4 =>
          (firstIdx (· = ']') r4).bind fun j =>
            if j ≥ 1 && litPref "]]" (r4.drop j) then
              some (('[' :: '[' :: (t ++ '|' :: x')).length -
                (r4.drop (j + 2)).length)
            else none
        | _ => none) = none
  have hdw : (t ++ '|' :: x').dropWhile pySpace = t ++ '|' :: x' := by
    cases t with
    | nil => exact absurd rfl htne
    | cons c t' =>
      rw [List.cons_append, List.dropWhile_cons,
        if_neg (by rw [(plainChar_fact c (hpt c (by simp))).2]; simp)]
  rw [hdw]
  cases hdc : dropCI "category" (t ++ '|' :: x') with
  | none => rfl
  | some r2 =>
    rw [Option.some_bind]
    unfold dropCI at hdc
    split at hdc
    · rename_i hlit
      injection hdc with hr2
      simp only [litPrefCI, decide_eq_true_eq] at hlit
      by_cases hlen : 8 ≤ t.length
      · rw [show ("category".data).length = 8 from rfl] at hr2
        rw [List.drop_append_of_le_length hlen] at hr2
        rw [← hr2]
        cases hdrop : t.drop 8 with
        | nil =>
          rw [List.nil_append]
          split
          · rename_i heq
            cases heq
          · rfl
        | cons c y =>
          have hcin : c ∈ t := (List.drop_suffix 8 t).subset
            (by rw [hdrop]; exact List.mem_cons_self c y)
          rw [List.cons_append, List.dropWhile_cons,
            if_neg (by rw [(plainChar_fact c (hpt c hcin)).2]; simp)]
          split
          · rename_i heq
            injection heq with h1 h2
            exact absurd h1 (hcol c hcin)
          · rfl
      · exfalso
        rw [show ("category".data).length = 8 from rfl] at hlit
        rw [List.take_append_eq_append_take,
          List.take_of_length_le (by omega)] at hlit
        obtain ⟨k, hk⟩ : ∃ k, 8 - t.length = k + 1 :=
          ⟨8 - t.length - 1, by omega⟩
        rw [hk, List.take_succ_cons] at hlit
        have hmem : '|' ∈ (['c', 'a', 't', 'e', 'g', 'o', 'r', 'y'] : Str) := by
          rw [← hlit, List.map_append]
          refine List.mem_append.mpr (Or.inr ?_)
          rw [List.map_cons]
          simp [asciiLower]
        exact absurd hmem (by decide)
    · cases hdc

/-- A suffix of `[[` followed by `[`-free content either is the whole
string, starts at the second bracket, or does not start with `[`. -/
theorem linkSuffix (rest : Str) (hm : ∀ ch ∈ rest, ch ≠ '[') (u : Str)
    (hu : u <:+ '[' :: '[' :: rest) :
    u = '[' :: '[' :: rest ∨ u = '[' :: rest ∨
    headSat (· = '[') u = false := by
  rcases List.suffix_cons_iff.mp hu with rfl | hu2
  · exact Or.inl rfl
  rcases List.suffix_cons_iff.mp hu2 with rfl | hu3
  · exact Or.inr (Or.inl rfl)
  cases u with
  | nil => exact Or.inr (Or.inr rfl)
  | cons a u' =>
    have ha : a ≠ '[' := hm a (hu3.subset (List.mem_cons_self a u'))
    exact Or.inr (Or.inr (by simp [headSat, ha]))

/-- Assemble suffix-wise failure of a `[`-triggered matcher on a piped
link from failure at the whole link and at the second bracket. -/
theorem linkNone {β : Type} (M : Str → Option β)
    (htrig : ∀ u, (M u).isSome = true → headSat (· = '[') u = true)
    (rest : Str) (hm : ∀ ch ∈ rest, ch ≠ '[')
    (hfull : M ('[' :: '[' :: rest) = none)
    (hsecond : M ('[' :: rest) = none) :
    ∀ u, u <:+ '[' :: '[' :: rest → M u = none := by
  intro u hu
  rcases linkSuffix rest hm u hu with rfl | rfl | hh
  · exact hfull
  · exact hsecond
  · exact matcher_none_of_no_trigger M _ htrig u hh

set_option maxRecDepth 4096 in
/-- `clean_value` at any sufficient fuel on a plain two-group piped link
`[[t|d]]` whose target is not a file/image or category reference: every
earlier pass fails, the piped-link pass consumes the whole link and
recursively cleans the display group (an identity), and every later pass
is the identity. -/
theorem linkClean2_aux (cfg : WiktionaryConfig) (t d : Str) (F : Nat)
    (htne : t ≠ []) (hdne : d ≠ [])
    (hpt : t.all plainChar = true) (hpd : d.all plainChar = true)
    (hcol : ∀ c ∈ t, c ≠ ':') (hfi : fileImagePref t = false)
    (hF : 1 ≤ F) :
    clean_value (F + 1) cfg ('[' :: '[' :: (t ++ '|' :: (d ++ "]]".data)))
      false = .ok d := by
  have hplt : ∀ c ∈ t, plainChar c = true := fun c hc =>
    List.all_eq_true.mp hpt c hc
  have hpld : ∀ c ∈ d, plainChar c = true := fun c hc =>
    List.all_eq_true.mp hpd c hc
  have hchar : ∀ c ∈ ('[' :: '[' :: (t ++ '|' :: (d ++ "]]".data)) : Str),
      cleanChar c = true ∨ c = '[' := by
    intro c hc
    simp only [List.mem_cons, List.mem_append, List.not_mem_nil,
      or_false] at hc
    rcases hc with rfl | rfl | hct | rfl | hcd | rfl | rfl
    · exact Or.inr rfl
    · exact Or.inr rfl
    · exact Or.inl (plainChar_fact c (hplt c hct)).1
    · exact Or.inl (by decide)
    · exact Or.inl (plainChar_fact c (hpld c hcd)).1
    · exact Or.inl (by decide)
    · exact Or.inl (by decide)
  have hLT : ∀ c ∈ ('[' :: '[' :: (t ++ '|' :: (d ++ "]]".data)) : Str),
      decide (c = '<') = false := by
    intro c hc
    rcases hchar c hc with h | rfl
    · simp [(cleanChar_split c h).1]
    · decide
  have hBR : ∀ c ∈ ('[' :: '[' :: (t ++ '|' :: (d ++ "]]".data)) : Str),
      decide (c = '\x7b') = false := by
    intro c hc
    rcases hchar c hc with h | rfl
    · simp [(cleanChar_split c h).2.1]
    · decide
  have hm : ∀ ch ∈ (t ++ '|' :: (d ++ "]]".data) : Str), ch ≠ '[' := by
    intro ch hc
    simp only [List.mem_cons, List.mem_append, List.not_mem_nil,
      or_false] at hc
    rcases hc with hct | rfl | hcd | rfl | rfl
    · exact plainChar_ne ch (hplt ch hct) '[' (by decide)
    · decide
    · exact plainChar_ne ch (hpld ch hcd) '[' (by decide)
    · decide
    · decide
  have hCatSecond : mCategory ('[' :: (t ++ '|' :: (d ++ "]]".data))) =
      none := by
    cases t with
    | nil => exact absurd rfl htne
    | cons c t' =>
      exact mCategory_oneBracket c _
        (plainChar_ne c (hplt c (by simp)) '[' (by decide))
  have hCat := linkNone mCategory mCategory_trigger _ hm
    (mCategory_none_noColon t _ htne hplt hcol) hCatSecond
  have hmatch := mLinkBars_match2 t d htne hdne hplt hpld
  have hdE : d.isEmpty = false := by
    cases d with
    | nil => exact absurd rfl hdne
    | cons _ _ => rfl
  have hMFd : MarkupFree d = true := List.all_eq_true.mpr
    (fun c hc => (plainChar_fact c (hpld c hc)).1)
  have hWSd : wsCollapsed d = true := good_wsCollapsed _
    (fun c hc => (plainChar_fact c (hpld c hc)).2)
  have hrepl : (fun g : Str × Str × Option Str =>
      if fileImagePref g.1 then (MathRes.ok [] : MathRes Str)
      else clean_value F cfg
        (pyOr ((g.2.2).getD []) (pyOr g.2.1 [])) true) (t, d, none) =
      MathRes.ok d := by
    show (if fileImagePref t then (MathRes.ok [] : MathRes Str)
      else clean_value F cfg
        (pyOr (((none : Option Str)).getD []) (pyOr d [])) true) =
      MathRes.ok d
    rw [hfi]
    simp only [Bool.false_eq_true, if_false]
    have hd_or : pyOr ((none : Option Str).getD []) (pyOr d []) = d := by
      show pyOr [] (pyOr d []) = d
      simp [pyOr, hdE]
    rw [hd_or]
    obtain ⟨G, rfl⟩ : ∃ G, F = G + 1 := ⟨F - 1, by omega⟩
    rw [clean_value_plain G cfg d true hMFd hWSd]
    rfl
  have hLne : ('[' :: '[' :: (t ++ '|' :: (d ++ "]]".data)) : Str) ≠ [] := by
    simp
  have hwhole := reSubM_whole mLinkBars
    (fun g : Str × Str × Option Str =>
      if fileImagePref g.1 then (MathRes.ok [] : MathRes Str)
      else clean_value F cfg
        (pyOr ((g.2.2).getD []) (pyOr g.2.1 [])) true)
    ('[' :: '[' :: (t ++ '|' :: (d ++ "]]".data))) (t, d, none) hLne hmatch
    d hrepl
  have hmemd : ∀ c ∈ d, cleanChar c = true := fun c hc =>
    (plainChar_fact c (hpld c hc)).1
  have hSQd : ∀ c ∈ d, decide (c = '[') = false := fun c hc => by
    simp [(cleanChar_split c (hmemd c hc)).2.2.1]
  have hAMPd : ∀ c ∈ d, decide (c = '&') = false := fun c hc => by
    simp [(cleanChar_split c (hmemd c hc)).2.2.2.1]
  have hNBd : ∀ c ∈ d, c ≠ Char.ofNat 0xA0 := fun c hc =>
    (cleanChar_split c (hmemd c hc)).2.2.2.2.1
  have hAPd : ∀ c ∈ d, decide (c = aposChar) = false := fun c hc => by
    simp [(cleanChar_split c (hmemd c hc)).2.2.2.2.2.1]
  have hNId : ∀ c ∈ d, nfcInert c = true := fun c hc =>
    (cleanChar_split c (hmemd c hc)).2.2.2.2.2.2
  obtain ⟨hd1, hd2, hd4, hd3⟩ : noTabCr d = true ∧
      noPair isSp isSp d = true ∧ noPair isSp isNl d = true ∧
      noPair isNl isNl d = true := by
    have := hWSd
    unfold wsCollapsed at this
    simpa [Bool.and_eq_true, and_assoc] using this
  have hHUd : htmlUnescape d = d :=
    reSubR_id mEntity id _ mEntity_trigger _ hAMPd
  have hNFCd : unicodeNFC d = d := unicodeNFC_id _ hNId
  have hstripd : pyStrip d = d := pyStrip_id_of_noWs d
    (fun c hc => (plainChar_fact c (hpld c hc)).2)
  simp only [clean_value]
  simp only [reSubC_id mTemplate [] _ mTemplate_trigger _ hBR,
    reSubC_id mTable "\n".data _ mTable_trigger _ hBR,
    reSubC_id mRef [] _ mRef_trigger _ hLT,
    reSubC_id mBr ", ".data _ mBr_trigger _ hLT,
    reSubC_id (mBlock ["div", "tr", "li", "table"]) "\n".data _
      (mBlock_trigger _) _ hLT,
    reSubC_id (mBlock ["td", "th"]) " ".data _ (mBlock_trigger _) _ hLT,
    reSubC_id (mPairEmpty "sup" "sup") [] _ (mPairEmpty_trigger _ _) _ hLT,
    reSubM_id (mSpan "sup") _ _ (mSpan_trigger _) _ hLT,
    reSubC_id (mPairEmpty "sub" "sup") [] _ (mPairEmpty_trigger _ _) _ hLT,
    reSubM_id (mSpan "sub") _ _ (mSpan_trigger _) _ hLT,
    reSubM_id (mSpan "chem") _ _ (mSpan_trigger _) _ hLT,
    reSubM_id (mSpan "math") _ _ (mSpan_trigger _) _ hLT,
    reSubC_id mOpenAny [] _ mOpenAny_trigger _ hLT,
    reSubC_id mCloseAny [] _ mCloseAny_trigger _ hLT,
    reSubC_noneAll mCategory [] _ hCat,
    MathRes.ok_bind]
  simp only [hwhole, MathRes.ok_bind]
  simp only [reSubM_id mLink _ _ mLink_trigger _ hSQd,
    reSubM_id mLink2 _ _ mLink2_trigger _ hSQd,
    reSubM_id mUrl _ _ mUrl_trigger _ hSQd,
    MathRes.ok_bind]
  simp only [reSubC_id mEdit [] _ mEdit_trigger _ hSQd,
    reSubC_id mQuotes [] _ mQuotes_trigger _ hAPd,
    hHUd, map_nbsp_id _ hNBd,
    c1_fix _ hd1 hd2, c2_fix _ hd2 hd4 hd3,
    Bool.false_eq_true, if_false, hstripd, hNFCd]

set_option maxRecDepth 4096 in
/-- `clean_value` on a plain three-group piped link `[[t|d|e]]` (target
neither file/image nor category): the extra-caption group wins. -/
theorem linkClean3_aux (cfg : WiktionaryConfig) (t d e : Str) (F : Nat)
    (htne : t ≠ []) (hdne : d ≠ []) (hene : e ≠ [])
    (hpt : t.all plainChar = true) (hpd : d.all plainChar = true)
    (hpe : e.all plainChar = true)
    (hcol : ∀ c ∈ t, c ≠ ':') (hfi : fileImagePref t = false)
    (hF : 1 ≤ F) :
    clean_value (F + 1) cfg
      ('[' :: '[' :: (t ++ '|' :: (d ++ '|' :: (e ++ "]]".data)))) false =
      .ok e := by
  have hplt : ∀ c ∈ t, plainChar c = true := fun c hc =>
    List.all_eq_true.mp hpt c hc
  have hpld : ∀ c ∈ d, plainChar c = true := fun c hc =>
    List.all_eq_true.mp hpd c hc
  have hple : ∀ c ∈ e, plainChar c = true := fun c hc =>
    List.all_eq_true.mp hpe c hc
  have hchar : ∀ c ∈ ('[' :: '[' ::
      (t ++ '|' :: (d ++ '|' :: (e ++ "]]".data))) : Str),
      cleanChar c = true ∨ c = '[' := by
    intro c hc
    simp only [List.mem_cons, List.mem_append, List.not_mem_nil,
      or_false] at hc
    rcases hc with rfl | rfl | hct | rfl | hcd | rfl | hce | rfl | rfl
    · exact Or.inr rfl
    · exact Or.inr rfl
    · exact Or.inl (plainChar_fact c (hplt c hct)).1
    · exact Or.inl (by decide)
    · exact Or.inl (plainChar_fact c (hpld c hcd)).1
    · exact Or.inl (by decide)
    · exact Or.inl (plainChar_fact c (hple c hce)).1
    · exact Or.inl (by decide)
    · exact Or.inl (by decide)
  have hLT : ∀ c ∈ ('[' :: '[' ::
      (t ++ '|' :: (d ++ '|' :: (e ++ "]]".data))) : Str),
      decide (c = '<') = false := by
    intro c hc
    rcases hchar c hc with h | rfl
    · simp [(cleanChar_split c h).1]
    · decide
  have hBR : ∀ c ∈ ('[' :: '[' ::
      (t ++ '|' :: (d ++ '|' :: (e ++ "]]".data))) : Str),
      decide (c = '\x7b') = false := by
    intro c hc
    rcases hchar c hc with h | rfl
    · simp [(cleanChar_split c h).2.1]
    · decide
  have hm : ∀ ch ∈ (t ++ '|' :: (d ++ '|' :: (e ++ "]]".data)) : Str),
      ch ≠ '[' := by
    intro ch hc
    simp only [List.mem_cons, List.mem_append, List.not_mem_nil,
      or_false] at hc
    rcases hc with hct | rfl | hcd | rfl | hce | rfl | rfl
    · exact plainChar_ne ch (hplt ch hct) '[' (by decide)
    · decide
    · exact plainChar_ne ch (hpld ch hcd) '[' (by decide)
    · decide
    · exact plainChar_ne ch (hple ch hce) '[' (by decide)
    · decide
    · decide
  have hCatSecond : mCategory
      ('[' :: (t ++ '|' :: (d ++ '|' :: (e ++ "]]".data)))) = none := by
    cases t with
    | nil => exact absurd rfl htne
    | cons c t' =>
      exact mCategory_oneBracket c _
        (plainChar_ne c (hplt c (by simp)) '[' (by decide))
  have hCat := linkNone mCategory mCategory_trigger _ hm
    (mCategory_none_noColon t _ htne hplt hcol) hCatSecond
  have hmatch := mLinkBars_match3 t d e htne hdne hene hplt hpld hple
  have heE : e.isEmpty = false := by
    cases e with
    | nil => exact absurd rfl hene
    | cons _ _ => rfl
  have hMFe : MarkupFree e = true := List.all_eq_true.mpr
    (fun c hc => (plainChar_fact c (hple c hc)).1)
  have hWSe : wsCollapsed e = true := good_wsCollapsed _
    (fun c hc => (plainChar_fact c (hple c hc)).2)
  have hrepl : (fun g : Str × Str × Option Str =>
      if fileImagePref g.1 then (MathRes.ok [] : MathRes Str)
      else clean_value F cfg
        (pyOr ((g.2.2).getD []) (pyOr g.2.1 [])) true) (t, d, some e) =
      MathRes.ok e := by
    show (if fileImagePref t then (MathRes.ok [] : MathRes Str)
      else clean_value F cfg
        (pyOr (((some e : Option Str)).getD []) (pyOr d [])) true) =
      MathRes.ok e
    rw [hfi]
    simp only [Bool.false_eq_true, if_false]
    have he_or : pyOr ((some e : Option Str).getD []) (pyOr d []) = e := by
      show pyOr e (pyOr d []) = e
      simp [pyOr, heE]
    rw [he_or]
    obtain ⟨G, rfl⟩ : ∃ G, F = G + 1 := ⟨F - 1, by omega⟩
    rw [clean_value_plain G cfg e true hMFe hWSe]
    rfl
  have hLne : ('[' :: '[' ::
      (t ++ '|' :: (d ++ '|' :: (e ++ "]]".data))) : Str) ≠ [] := by
    simp
  have hwhole := reSubM_whole mLinkBars
    (fun g : Str × Str × Option Str =>
      if fileImagePref g.1 then (MathRes.ok [] : MathRes Str)
      else clean_value F cfg
        (pyOr ((g.2.2).getD []) (pyOr g.2.1 [])) true)
    ('[' :: '[' :: (t ++ '|' :: (d ++ '|' :: (e ++ "]]".data))))
    (t, d, some e) hLne hmatch e hrepl
  have hmeme : ∀ c ∈ e, cleanChar c = true := fun c hc =>
    (plainChar_fact c (hple c hc)).1
  have hSQe : ∀ c ∈ e, decide (c = '[') = false := fun c hc => by
    simp [(cleanChar_split c (hmeme c hc)).2.2.1]
  have hAMPe : ∀ c ∈ e, decide (c = '&') = false := fun c hc => by
    simp [(cleanChar_split c (hmeme c hc)).2.2.2.1]
  have hNBe : ∀ c ∈ e, c ≠ Char.ofNat 0xA0 := fun c hc =>
    (cleanChar_split c (hmeme c hc)).2.2.2.2.1
  have hAPe : ∀ c ∈ e, decide (c = aposChar) = false := fun c hc => by
    simp [(cleanChar_split c (hmeme c hc)).2.2.2.2.2.1]
  have hNIe : ∀ c ∈ e, nfcInert c = true := fun c hc =>
    (cleanChar_split c (hmeme c hc)).2.2.2.2.2.2
  obtain ⟨he1, he2, he4, he3⟩ : noTabCr e = true ∧
      noPair isSp isSp e = true ∧ noPair isSp isNl e = true ∧
      noPair isNl isNl e = true := by
    have := hWSe
    unfold wsCollapsed at this
    simpa [Bool.and_eq_true, and_assoc] using this
  have hHUe : htmlUnescape e = e :=
    reSubR_id mEntity id _ mEntity_trigger _ hAMPe
  have hNFCe : unicodeNFC e = e := unicodeNFC_id _ hNIe
  have hstripe : pyStrip e = e := pyStrip_id_of_noWs e
    (fun c hc => (plainChar_fact c (hple c hc)).2)
  simp only [clean_value]
  simp only [reSubC_id mTemplate [] _ mTemplate_trigger _ hBR,
    reSubC_id mTable "\n".data _ mTable_trigger _ hBR,
    reSubC_id mRef [] _ mRef_trigger _ hLT,
    reSubC_id mBr ", ".data _ mBr_trigger _ hLT,
    reSubC_id (mBlock ["div", "tr", "li", "table"]) "\n".data _
      (mBlock_trigger _) _ hLT,
    reSubC_id (mBlock ["td", "th"]) " ".data _ (mBlock_trigger _) _ hLT,
    reSubC_id (mPairEmpty "sup" "sup") [] _ (mPairEmpty_trigger _ _) _ hLT,
    reSubM_id (mSpan "sup") _ _ (mSpan_trigger _) _ hLT,
    reSubC_id (mPairEmpty "sub" "sup") [] _ (mPairEmpty_trigger _ _) _ hLT,
    reSubM_id (mSpan "sub") _ _ (mSpan_trigger _) _ hLT,
    reSubM_id (mSpan "chem") _ _ (mSpan_trigger _) _ hLT,
    reSubM_id (mSpan "math") _ _ (mSpan_trigger _) _ hLT,
    reSubC_id mOpenAny [] _ mOpenAny_trigger _ hLT,
    reSubC_id mCloseAny [] _ mCloseAny_trigger _ hLT,
    reSubC_noneAll mCategory [] _ hCat,
    MathRes.ok_bind]
  simp only [hwhole, MathRes.ok_bind]
  simp only [reSubM_id mLink _ _ mLink_trigger _ hSQe,
    reSubM_id mLink2 _ _ mLink2_trigger _ hSQe,
    reSubM_id mUrl _ _ mUrl_trigger _ hSQe,
    MathRes.ok_bind]
  simp only [reSubC_id mEdit [] _ mEdit_trigger _ hSQe,
    reSubC_id mQuotes [] _ mQuotes_trigger _ hAPe,
    hHUe, map_nbsp_id _ hNBe,
    c1_fix _ he1 he2, c2_fix _ he2 he4 he3,
    Bool.false_eq_true, if_false, hstripe, hNFCe]

set_option maxRecDepth 4096 in
/-- `clean_value` on a plain two-group piped link whose target is a
`File:` reference: the whole link is dropped. -/
theorem linkCleanFile_aux (cfg : WiktionaryConfig) (ft d : Str) (F : Nat)
    (hdne : d ≠ [])
    (hpft : ft.all plainChar = true) (hpd : d.all plainChar = true) :
    clean_value (F + 1) cfg
      ('[' :: '[' :: (("File:".data ++ ft) ++ '|' :: (d ++ "]]".data)))
      false = .ok [] := by
  have hplft : ∀ c ∈ ft, plainChar c = true := fun c hc =>
    List.all_eq_true.mp hpft c hc
  have hpld : ∀ c ∈ d, plainChar c = true := fun c hc =>
    List.all_eq_true.mp hpd c hc
  have hplt : ∀ c ∈ ("File:".data ++ ft : Str), plainChar c = true := by
    intro c hc
    rcases List.mem_append.mp hc with h1 | h2
    · have : ∀ x ∈ ("File:".data : Str), plainChar x = true := by decide
      exact this c h1
    · exact hplft c h2
  have htne : ("File:".data ++ ft : Str) ≠ [] := by simp
  have hchar : ∀ c ∈ ('[' :: '[' ::
      (("File:".data ++ ft) ++ '|' :: (d ++ "]]".data)) : Str),
      cleanChar c = true ∨ c = '[' := by
    intro c hc
    simp only [List.mem_cons, List.mem_append, List.not_mem_nil,
      or_false] at hc
    rcases hc with rfl | rfl | hct | rfl | hcd | rfl | rfl
    · exact Or.inr rfl
    · exact Or.inr rfl
    · rcases hct with hcf | hcf
      · rcases hcf with rfl | rfl | rfl | rfl | rfl
        all_goals exact Or.inl (by decide)
      · exact Or.inl (plainChar_fact c (hplft c hcf)).1
    · exact Or.inl (by decide)
    · exact Or.inl (plainChar_fact c (hpld c hcd)).1
    · exact Or.inl (by decide)
    · exact Or.inl (by decide)
  have hLT : ∀ c ∈ ('[' :: '[' ::
      (("File:".data ++ ft) ++ '|' :: (d ++ "]]".data)) : Str),
      decide (c = '<') = false := by
    intro c hc
    rcases hchar c hc with h | rfl
    · simp [(cleanChar_split c h).1]
    · decide
  have hBR : ∀ c ∈ ('[' :: '[' ::
      (("File:".data ++ ft) ++ '|' :: (d ++ "]]".data)) : Str),
      decide (c = '\x7b') = false := by
    intro c hc
    rcases hchar c hc with h | rfl
    · simp [(cleanChar_split c h).2.1]
    · decide
  have hm : ∀ ch ∈ (("File:".data ++ ft) ++ '|' :: (d ++ "]]".data) : Str),
      ch ≠ '[' := by
    intro ch hc
    simp only [List.mem_cons, List.mem_append, List.not_mem_nil,
      or_false] at hc
    rcases hc with hct | rfl | hcd | rfl | rfl
    · rcases hct with hcf | hcf
      · rcases hcf with rfl | rfl | rfl | rfl | rfl
        all_goals decide
      · exact plainChar_ne ch (hplft ch hcf) '[' (by decide)
    · decide
    · exact plainChar_ne ch (hpld ch hcd) '[' (by decide)
    · decide
    · decide
  have hCatFull : mCategory ('[' :: '[' ::
      (("File:".data ++ ft) ++ '|' :: (d ++ "]]".data))) = none := rfl
  have hCatSecond : mCategory ('[' ::
      (("File:".data ++ ft) ++ '|' :: (d ++ "]]".data))) = none :=
    mCategory_oneBracket 'F' _ (by decide)
  have hCat := linkNone mCategory mCategory_trigger _ hm hCatFull hCatSecond
  have hmatch := mLinkBars_match2 ("File:".data ++ ft) d htne hdne hplt hpld
  have hrepl : (fun g : Str × Str × Option Str =>
      if fileImagePref g.1 then (MathRes.ok [] : MathRes Str)
      else clean_value F cfg
        (pyOr ((g.2.2).getD []) (pyOr g.2.1 [])) true)
      ("File:".data ++ ft, d, none) = MathRes.ok [] := by
    show (if fileImagePref ("File:".data ++ ft) then
        (MathRes.ok [] : MathRes Str)
      else clean_value F cfg
        (pyOr (((none : Option Str)).getD []) (pyOr d [])) true) =
      MathRes.ok []
    rw [show fileImagePref ("File:".data ++ ft) = true from rfl]
    rfl
  have hLne : ('[' :: '[' ::
      (("File:".data ++ ft) ++ '|' :: (d ++ "]]".data)) : Str) ≠ [] := by
    simp
  have hwhole := reSubM_whole mLinkBars
    (fun g : Str × Str × Option Str =>
      if fileImagePref g.1 then (MathRes.ok [] : MathRes Str)
      else clean_value F cfg
        (pyOr ((g.2.2).getD []) (pyOr g.2.1 [])) true)
    ('[' :: '[' :: (("File:".data ++ ft) ++ '|' :: (d ++ "]]".data)))
    ("File:".data ++ ft, d, none) hLne hmatch [] hrepl
  have hEm : ∀ (P : Char → Prop), ∀ c ∈ ([] : Str), P c := by
    intro P c hc
    exact absurd hc (List.not_mem_nil c)
  simp only [clean_value]
  simp only [reSubC_id mTemplate [] _ mTemplate_trigger _ hBR,
    reSubC_id mTable "\n".data _ mTable_trigger _ hBR,
    reSubC_id mRef [] _ mRef_trigger _ hLT,
    reSubC_id mBr ", ".data _ mBr_trigger _ hLT,
    reSubC_id (mBlock ["div", "tr", "li", "table"]) "\n".data _
      (mBlock_trigger _) _ hLT,
    reSubC_id (mBlock ["td", "th"]) " ".data _ (mBlock_trigger _) _ hLT,
    reSubC_id (mPairEmpty "sup" "sup") [] _ (mPairEmpty_trigger _ _) _ hLT,
    reSubM_id (mSpan "sup") _ _ (mSpan_trigger _) _ hLT,
    reSubC_id (mPairEmpty "sub" "sup") [] _ (mPairEmpty_trigger _ _) _ hLT,
    reSubM_id (mSpan "sub") _ _ (mSpan_trigger _) _ hLT,
    reSubM_id (mSpan "chem") _ _ (mSpan_trigger _) _ hLT,
    reSubM_id (mSpan "math") _ _ (mSpan_trigger _) _ hLT,
    reSubC_id mOpenAny [] _ mOpenAny_trigger _ hLT,
    reSubC_id mCloseAny [] _ mCloseAny_trigger _ hLT,
    reSubC_noneAll mCategory [] _ hCat,
    MathRes.ok_bind]
  simp only [hwhole, MathRes.ok_bind]
  rfl

/-- Claim C7 (amended): piped wiki-links resolve as described — `File:`
(and `Image:`) targets drop the whole link, otherwise the extra caption
when present, else the display, recursively cleaned (an identity on plain
content) — provided the target is not also a `Category:` reference: the
category-removal pass runs before the link pass and deletes such links
entirely (see `C7_counterexample`).  The quantified halves exclude the
category shape via a colon-free plain target; the `File:` half and the
spec's two concrete examples are conjuncts. -/
theorem C7_piped_links (cfg : WiktionaryConfig) (t d e ft : Str)
    (htne : t ≠ []) (hdne : d ≠ []) (hene : e ≠ [])
    (hpt : t.all plainChar = true) (hpd : d.all plainChar = true)
    (hpe : e.all plainChar = true)
    (hcol : ∀ c ∈ t, c ≠ ':') (hfi : fileImagePref t = false)
    (hpft : ft.all plainChar = true) :
    cleanValue cfg ('[' :: '[' :: (t ++ '|' :: (d ++ "]]".data))) =
      .ok d ∧
    cleanValue cfg
      ('[' :: '[' :: (t ++ '|' :: (d ++ '|' :: (e ++ "]]".data)))) =
      .ok e ∧
    cleanValue cfg
      ('[' :: '[' :: (("File:".data ++ ft) ++ '|' :: (d ++ "]]".data))) =
      .ok [] ∧
    cleanValue ⟨""⟩ "[[foo|bar]]".data = .ok "bar".data ∧
    cleanValue ⟨""⟩ "[[File:x.png|thumb|caption]]".data = .ok [] := by
  refine ⟨?_, ?_, ?_, by decide, by decide⟩
  · unfold cleanValue
    rw [show ('[' :: '[' :: (t ++ '|' :: (d ++ "]]".data))).length + 64 =
      (('[' :: '[' :: (t ++ '|' :: (d ++ "]]".data))).length + 63) + 1
      from by omega]
    exact linkClean2_aux cfg t d _ htne hdne hpt hpd hcol hfi (by omega)
  · unfold cleanValue
    rw [show
      ('[' :: '[' :: (t ++ '|' :: (d ++ '|' :: (e ++ "]]".data)))).length
        + 64 =
      (('[' :: '[' ::
        (t ++ '|' :: (d ++ '|' :: (e ++ "]]".data)))).length + 63) + 1
      from by omega]
    exact linkClean3_aux cfg t d e _ htne hdne hene hpt hpd hpe hcol hfi
      (by omega)
  · unfold cleanValue
    rw [show ('[' :: '[' ::
        (("File:".data ++ ft) ++ '|' :: (d ++ "]]".data))).length + 64 =
      (('[' :: '[' ::
        (("File:".data ++ ft) ++ '|' :: (d ++ "]]".data))).length + 63) + 1
      from by omega]
    exact linkCleanFile_aux cfg ft d _ hdne hpft hpd

/-- Witness for C7 at `[[foo|bar]]`, `[[foo|bar|baz]]` and
`[[File:x.png|bar]]`. -/
theorem C7_piped_links_witness :
    ("foo".data ≠ [] ∧ "bar".data ≠ [] ∧ "baz".data ≠ [] ∧
     "foo".data.all plainChar = true ∧ "bar".data.all plainChar = true ∧
     "baz".data.all plainChar = true ∧
     (∀ c ∈ ("foo".data : Str), c ≠ ':') ∧
     fileImagePref "foo".data = false ∧
     "x.png".data.all plainChar = true) ∧
    (cleanValue ⟨""⟩
        ('[' :: '[' :: ("foo".data ++ '|' :: ("bar".data ++ "]]".data))) =
      .ok "bar".data ∧
    cleanValue ⟨""⟩ ('[' :: '[' :: ("foo".data ++ '|' ::
        ("bar".data ++ '|' :: ("baz".data ++ "]]".data)))) =
      .ok "baz".data ∧
    cleanValue ⟨""⟩ ('[' :: '[' :: (("File:".data ++ "x.png".data) ++
        '|' :: ("bar".data ++ "]]".data))) =
      .ok [] ∧
    cleanValue ⟨""⟩ "[[foo|bar]]".data = .ok "bar".data ∧
    cleanValue ⟨""⟩ "[[File:x.png|thumb|caption]]".data = .ok []) :=
  ⟨⟨by decide, by decide, by decide, by decide, by decide, by decide,
    by decide, by decide, by decide⟩,
    C7_piped_links ⟨""⟩ "foo".data "bar".data "baz".data "x.png".data
      (by decide) (by decide) (by decide) (by decide) (by decide)
      (by decide) (by decide) (by decide) (by decide)⟩

/-- Counterexample to the original C7: `[[Category:England|Eng]]` is a
piped link whose target is neither `File:` nor `Image:`, yet the cleaner
deletes it entirely (the category-removal pass, whose group admits the
bar, runs first) instead of keeping the cleaned display `"Eng"`. -/
theorem C7_counterexample :
    cleanValue ⟨""⟩ "[[Category:England|Eng]]".data = .ok [] ∧
    cleanValue ⟨""⟩ "Eng".data = .ok "Eng".data ∧
    ("Eng".data : Str) ≠ [] := by
  refine ⟨by decide, by decide, by decide⟩

/-- A scan succeeds when some element succeeds. -/
theorem findSome?_isSome_of_mem {α β : Type} (l : List α) (f : α → Option β)
    (x : α) (hx : x ∈ l) (hf : (f x).isSome = true) :
    (l.findSome? f).isSome = true := by
  by_contra h
  rw [Bool.not_eq_true] at h
  have h2 : l.findSome? f = none := by
    cases hh : l.findSome? f with
    | none => rfl
    | some b => rw [hh] at h; cases h
  rw [List.findSome?_eq_none_iff] at h2
  rw [h2 x hx] at hf
  cases hf

/-- One placeholder-substitution pass yields placeholder-free text when
every vector entry is placeholder-free. -/
theorem expandPass_ok_noMagic (vec : List Str) (hv : VecOK vec) :
    ∀ (s t : Str), expandPass vec s = .ok t → NoMagic t := by
  intro s
  induction s with
  | nil =>
    intro t h
    cases h
    intro c hc
    cases hc
  | cons c cs ih =>
    intro t h
    unfold expandPass at h
    by_cases hm : isMagicChar c = true
    · rw [if_pos hm] at h
      cases hg : vec.get? (c.toNat - MAGIC_FIRST) with
      | none => rw [hg] at h; cases h
      | some e =>
        rw [hg] at h
        cases hrec : expandPass vec cs with
        | ok t2 =>
          rw [hrec] at h
          cases h
          intro x hx
          rcases List.mem_append.mp hx with hxe | hxt
          · exact hv e (List.get?_mem hg) x hxe
          · exact ih t2 hrec x hxt
        | crash => rw [hrec] at h; cases h
        | fuelOut => rw [hrec] at h; cases h
    · rw [if_neg hm] at h
      cases hrec : expandPass vec cs with
      | ok t2 =>
        rw [hrec] at h
        cases h
        intro x hx
        rcases List.mem_cons.mp hx with rfl | hxt
        · exact Bool.not_eq_true _ ▸ hm
        · exact ih t2 hrec x hxt
      | crash => rw [hrec] at h; cases h
      | fuelOut => rw [hrec] at h; cases h

/-- A successful `expand` yields placeholder-free text when every vector
entry is placeholder-free. -/
theorem expand_ok_noMagic (vec : List Str) (hv : VecOK vec) :
    ∀ (fuel : Nat) (s out : Str), expand vec fuel s = .ok out →
    NoMagic out := by
  intro fuel
  induction fuel with
  | zero => intro s out h; cases h
  | succ n ih =>
    intro s out h
    unfold expand at h
    cases hp : expandPass vec s with
    | ok t =>
      rw [hp] at h
      simp only [MathRes.bind_ok] at h
      by_cases he : t = s
      · rw [if_pos he] at h
        cases h
        intro c hc
        exact expandPass_ok_noMagic vec hv s t hp c (he ▸ pyStrip_mem s c hc)
      · rw [if_neg he] at h
        exact ih t out h
    | crash => rw [hp] at h; cases h
    | fuelOut => rw [hp] at h; cases h

/-- A successful `egPost` yields placeholder-free text: every exit passes
through a final `expand`. -/
theorem egPost_ok_noMagic (fuel : Nat) (vec parts : List Str)
    (fn : Option (Str → Str)) (v out : Str) (hv : VecOK vec)
    (h : egPost fuel vec parts fn v = .ok out) : NoMagic out := by
  have key : ∀ (x : Str),
      (match fn with
       | some f =>
         (expand vec fuel x).bind fun v1 =>
           (spacingCheck parts (f v1)).bind (expand vec fuel)
       | none =>
         (spacingCheck parts x).bind (expand vec fuel)) = .ok out →
      NoMagic out := by
    intro x hx
    cases fn with
    | some f =>
      cases h1 : expand vec fuel x with
      | ok v1 =>
        rw [h1] at hx
        simp only [MathRes.bind_ok] at hx
        cases h2 : spacingCheck parts (f v1) with
        | ok w =>
          rw [h2] at hx
          simp only [MathRes.bind_ok] at hx
          exact expand_ok_noMagic vec hv fuel w out hx
        | crash => rw [h2] at hx; cases hx
        | fuelOut => rw [h2] at hx; cases hx
      | crash => rw [h1] at hx; cases hx
      | fuelOut => rw [h1] at hx; cases hx
    | none =>
      cases h2 : spacingCheck parts x with
      | ok w =>
        rw [h2] at hx
        simp only [MathRes.bind_ok] at hx
        exact expand_ok_noMagic vec hv fuel w out hx
      | crash => rw [h2] at hx; cases hx
      | fuelOut => rw [h2] at hx; cases hx
  unfold egPost at h
  exact key _ h

/-- A successful `expand_group` yields placeholder-free text, except on the
unparseable-`\frac` path, which returns the token verbatim. -/
theorem expand_group_ok_noMagic (fuel : Nat) (vec parts : List Str)
    (v out : Str) (hv : VecOK vec)
    (h : expand_group fuel vec parts v = .ok out) :
    NoMagic out ∨ (out = v ∧ reCmdTail "frac" v = true ∧
      fracSearch true (v.drop 5) = none) := by
  cases fuel with
  | zero => cases h
  | succ n =>
    unfold expand_group at h
    dsimp only at h
    by_cases h1 : reWordB "mathcal" v = true
    · rw [if_pos h1] at h
      exact Or.inl (egPost_ok_noMagic _ _ _ _ _ _ hv h)
    rw [if_neg h1] at h
    by_cases h2 : reWordB "mathfrak" v = true
    · rw [if_pos h2] at h
      exact Or.inl (egPost_ok_noMagic _ _ _ _ _ _ hv h)
    rw [if_neg h2] at h
    by_cases h3 : reWordB "mathbb" v = true
    · rw [if_pos h3] at h
      exact Or.inl (egPost_ok_noMagic _ _ _ _ _ _ hv h)
    rw [if_neg h3] at h
    by_cases h4 : (reWordB "begin" v || reWordB "end" v) = true
    · rw [if_pos h4] at h
      exact Or.inl (egPost_ok_noMagic _ _ _ _ _ _ hv h)
    rw [if_neg h4] at h
    by_cases h5 : reWordB "text" v = true
    · rw [if_pos h5] at h
      exact Or.inl (egPost_ok_noMagic _ _ _ _ _ _ hv h)
    rw [if_neg h5] at h
    by_cases h6 : litPref "\\sqrt[" v = true
    · rw [if_pos h6] at h
      by_cases ha2 : pyStrip ((v.drop 6).dropLast) = "2".data
      · rw [if_pos ha2] at h
        exact Or.inl (egPost_ok_noMagic _ _ _ _ _ _ hv h)
      rw [if_neg ha2] at h
      by_cases ha3 : pyStrip ((v.drop 6).dropLast) = "3".data
      · rw [if_pos ha3] at h
        cases h
      rw [if_neg ha3] at h
      by_cases ha4 : pyStrip ((v.drop 6).dropLast) = "4".data
      · rw [if_pos ha4] at h
        exact Or.inl (egPost_ok_noMagic _ _ _ _ _ _ hv h)
      rw [if_neg ha4] at h
      exact Or.inl (egPost_ok_noMagic _ _ _ _ _ _ hv h)
    rw [if_neg h6] at h
    by_cases h7 : reCmdTail "sqrt" v = true
    · rw [if_pos h7] at h
      exact Or.inl (egPost_ok_noMagic _ _ _ _ _ _ hv h)
    rw [if_neg h7] at h
    by_cases h8 : reCmdTail "frac" v = true
    · rw [if_pos h8] at h
      cases hfs : fracSearch true (v.drop 5) with
      | none =>
        rw [hfs] at h
        cases h
        exact Or.inr ⟨rfl, h8, rfl⟩
      | some q =>
        rcases q with ⟨c4, a4, b4, r4⟩
        rw [hfs] at h
        dsimp only at h
        cases hra : expand_group n vec parts (pyStrip a4) with
        | ok ra =>
          rw [hra] at h
          simp only [MathRes.bind_ok] at h
          cases hrb : expand_group n vec parts (pyStrip b4) with
          | ok rb =>
            rw [hrb] at h
            simp only [MathRes.bind_ok] at h
            exact Or.inl (egPost_ok_noMagic _ _ _ _ _ _ hv h)
          | crash =>
            rw [hrb] at h
            cases h
          | fuelOut =>
            rw [hrb] at h
            cases h
        | crash =>
          rw [hra] at h
          cases h
        | fuelOut =>
          rw [hra] at h
          cases h
    rw [if_neg h8] at h
    by_cases h9 : v.head? = some '_'
    · rw [if_pos h9] at h
      exact Or.inl (egPost_ok_noMagic _ _ _ _ _ _ hv h)
    rw [if_neg h9] at h
    by_cases h10 : v.head? = some '^'
    · rw [if_pos h10] at h
      exact Or.inl (egPost_ok_noMagic _ _ _ _ _ _ hv h)
    rw [if_neg h10] at h
    exact Or.inl (egPost_ok_noMagic _ _ _ _ _ _ hv h)

/-- Whitespace characters are outside the reserved placeholder range. -/
theorem pySpace_not_magic (c : Char) (h : pySpace c = true) :
    isMagicChar c = false := by
  unfold pySpace at h
  unfold isMagicChar MAGIC_FIRST MAGIC_LAST
  simp only [List.mem_cons, List.not_mem_nil, or_false,
    decide_eq_true_eq] at h
  simp only [Bool.and_eq_false_iff, decide_eq_false_iff_not]
  left
  omega

/-- ASCII letters are word characters. -/
theorem asciiLetter_pyWord (c : Char) (h : asciiLetter c = true) :
    pyWord c = true := by
  unfold pyWord pyIsAlphaChar
  rw [h]
  rfl

/-- ASCII letters are not digits. -/
theorem asciiLetter_not_digit (c : Char) (h : asciiLetter c = true) :
    asciiDigit c = false := by
  unfold asciiLetter at h
  unfold asciiDigit
  simp only [Bool.or_eq_true, Bool.and_eq_true, decide_eq_true_eq] at h
  simp only [Bool.and_eq_false_iff, decide_eq_false_iff_not]
  rcases h with ⟨h1, h2⟩ | ⟨h1, h2⟩
  · have h1n : 97 ≤ c.toNat := h1
    right
    intro hcon
    have : c.toNat ≤ 57 := hcon
    omega
  · have h1n : 65 ≤ c.toNat := h1
    right
    intro hcon
    have : c.toNat ≤ 57 := hcon
    omega

/-- A literal-prefix match decomposes the string. -/
theorem litPref_decomp (p : String) (s : Str) (h : litPref p s = true) :
    p.data ++ s.drop p.data.length = s := by
  unfold litPref at h
  obtain ⟨rest, hrest⟩ := List.isPrefixOf_iff_prefix.mp h
  rw [← hrest, List.drop_left]

/-- Whitespace-split candidates decompose the string into an all-space
prefix and the rest. -/
theorem wsSplits_split (s : Str) (p : Str × Str) (hp : p ∈ wsSplits s) :
    p.1 ++ p.2 = s ∧ ∀ c ∈ p.1, pySpace c = true := by
  unfold wsSplits at hp
  simp only [List.mem_map, List.mem_reverse, List.mem_range] at hp
  obtain ⟨k, hk, rfl⟩ := hp
  constructor
  · show (s.takeWhile pySpace).take k ++
      ((s.takeWhile pySpace).drop k ++ s.dropWhile pySpace) = s
    rw [← List.append_assoc, List.take_append_drop,
      List.takeWhile_append_dropWhile]
  · intro c hc
    exact List.mem_takeWhile_imp (List.mem_of_mem_take hc)

/-- Argument candidates decompose the string and have one of the four
argument shapes. -/
theorem argCands_split (s : Str) (p : Str × Str) (hp : p ∈ argCands s) :
    p.1 ++ p.2 = s ∧ ArgShape p.1 := by
  cases s with
  | nil => cases hp
  | cons c r =>
    simp only [argCands] at hp
    by_cases hc : c = '\\'
    · rw [if_pos hc] at hp
      subst hc
      rcases List.mem_append.mp hp with hp1 | hp2
      · rcases List.mem_append.mp hp1 with hpa | hpb
        · simp only [List.mem_map, List.mem_reverse, List.mem_range] at hpa
          obtain ⟨i, hi, rfl⟩ := hpa
          constructor
          · show '\\' :: (r.takeWhile asciiLetter).take (i + 1) ++
              ((r.takeWhile asciiLetter).drop (i + 1) ++
                r.dropWhile asciiLetter) = '\\' :: r
            rw [← List.append_assoc, List.cons_append,
              List.take_append_drop, List.cons_append,
              List.takeWhile_append_dropWhile]
          · refine Or.inr (Or.inr (Or.inr
              ⟨(r.takeWhile asciiLetter).take (i + 1), rfl, ?_, ?_⟩))
            · intro he
              have : (i + 1) = 0 ∨ (r.takeWhile asciiLetter) = [] := by
                rcases List.take_eq_nil_iff.mp he with h | h
                · exact Or.inl h
                · exact Or.inr h
              rcases this with h | h
              · omega
              · rw [h] at hi
                simp at hi
            · intro x hx
              exact List.mem_takeWhile_imp (List.mem_of_mem_take hx)
        · cases hr : r with
          | nil =>
            rw [hr] at hpb
            cases hpb
          | cons d r2 =>
            rw [hr] at hpb
            have hpb2 : p ∈ (if d ≠ '\n' then [(['\\', d], r2)] else []) :=
              hpb
            by_cases hd : d ≠ '\n'
            · rw [if_pos hd] at hpb2
              rcases List.mem_singleton.mp hpb2 with rfl
              exact ⟨rfl, Or.inr (Or.inr (Or.inl ⟨d, rfl, hd⟩))⟩
            · rw [if_neg hd] at hpb2
              cases hpb2
      · rcases List.mem_singleton.mp hp2 with rfl
        exact ⟨rfl, Or.inr (Or.inl rfl)⟩
    · rw [if_neg hc] at hp
      by_cases hn : c = '\n'
      · rw [if_pos hn] at hp
        cases hp
      · rw [if_neg hn] at hp
        rcases List.mem_singleton.mp hp with rfl
        exact ⟨rfl, Or.inl ⟨c, rfl, hc, hn⟩⟩

/-- Any all-whitespace prefix split appears among the candidates offered by
the greedy whitespace search. -/
theorem wsSplits_mem (u v : Str) (hu : ∀ c ∈ u, pySpace c = true) :
    (u, v) ∈ wsSplits (u ++ v) := by
  unfold wsSplits
  simp only [List.mem_map, List.mem_reverse, List.mem_range]
  refine ⟨u.length, ?_, ?_⟩
  · rw [List.takeWhile_append_of_pos hu, List.length_append]
    omega
  · rw [List.takeWhile_append_of_pos hu,
      List.dropWhile_append_of_pos hu, List.take_left, List.drop_left,
      List.takeWhile_append_dropWhile]

/-- Any split whose head has one of the argument shapes appears among the
argument candidates. -/
theorem argCands_mem (a rest : Str) (ha : ArgShape a) :
    (a, rest) ∈ argCands (a ++ rest) := by
  rcases ha with ⟨c, rfl, hc1, hc2⟩ | rfl | ⟨d, rfl, hd⟩ | ⟨l, rfl, hl1, hl2⟩
  · show (([c], rest) ∈ argCands (c :: rest))
    simp only [argCands, if_neg hc1, if_neg hc2, List.mem_singleton]
  · show ((['\\'], rest) ∈ argCands ('\\' :: rest))
    simp only [argCands, if_pos rfl]
    exact List.mem_append.mpr (Or.inr (List.mem_singleton.mpr rfl))
  · show ((['\\', d], rest) ∈ argCands ('\\' :: d :: rest))
    simp only [argCands, if_pos rfl]
    refine List.mem_append.mpr (Or.inl (List.mem_append.mpr (Or.inr ?_)))
    have : (['\\', d], rest) ∈
        (if d ≠ '\n' then [(['\\', d], rest)] else []) := by
      rw [if_pos hd]
      exact List.mem_singleton.mpr rfl
    exact this
  · show (('\\' :: l, rest) ∈ argCands ('\\' :: (l ++ rest)))
    simp only [argCands, if_pos rfl]
    refine List.mem_append.mpr (Or.inl (List.mem_append.mpr (Or.inl ?_)))
    simp only [List.mem_map, List.mem_reverse, List.mem_range]
    have htw : (l ++ rest).takeWhile asciiLetter =
        l ++ rest.takeWhile asciiLetter :=
      List.takeWhile_append_of_pos hl2
    have hdw : (l ++ rest).dropWhile asciiLetter =
        rest.dropWhile asciiLetter :=
      List.dropWhile_append_of_pos hl2
    have hlen : 1 ≤ l.length := by
      cases l with
      | nil => exact absurd rfl hl1
      | cons x xs => simp
    refine ⟨l.length - 1, ?_, ?_⟩
    · rw [htw, List.length_append]
      omega
    · rw [htw, hdw]
      have h1 : l.length - 1 + 1 = l.length := by omega
      rw [h1, List.take_left, List.drop_left,
        List.takeWhile_append_dropWhile]

/-- A successful unanchored `\frac` argument search decomposes the string,
and re-running the anchored search on exactly the consumed text succeeds. -/
theorem fracSearch_refind (s con a b rest : Str)
    (h : fracSearch false s = some (con, a, b, rest)) :
    con ++ rest = s ∧ (fracSearch true con).isSome = true := by
  unfold fracSearch at h
  obtain ⟨p1, hp1, h1⟩ := List.exists_of_findSome?_eq_some h
  obtain ⟨pa, hpa, h2⟩ := List.exists_of_findSome?_eq_some h1
  obtain ⟨p2, hp2, h3⟩ := List.exists_of_findSome?_eq_some h2
  obtain ⟨pb, hpb, h4⟩ := List.exists_of_findSome?_eq_some h3
  rw [if_neg (by simp)] at h4
  simp only [Option.some.injEq, Prod.mk.injEq] at h4
  obtain ⟨hcon, ha, hb, hrest⟩ := h4
  obtain ⟨e1, hsp1⟩ := wsSplits_split s p1 hp1
  obtain ⟨e2, hshA⟩ := argCands_split p1.2 pa hpa
  obtain ⟨e3, hsp2⟩ := wsSplits_split pa.2 p2 hp2
  obtain ⟨e4, hshB⟩ := argCands_split p2.2 pb hpb
  subst hcon hrest
  constructor
  · simp only [List.append_assoc]
    rw [e4, e3, e2, e1]
  · unfold fracSearch
    simp only [List.append_assoc]
    apply findSome?_isSome_of_mem _ _ (p1.1, pa.1 ++ (p2.1 ++ pb.1))
      (wsSplits_mem p1.1 (pa.1 ++ (p2.1 ++ pb.1)) hsp1)
    apply findSome?_isSome_of_mem _ _ (pa.1, p2.1 ++ pb.1)
      (argCands_mem pa.1 (p2.1 ++ pb.1) hshA)
    apply findSome?_isSome_of_mem _ _ (p2.1, pb.1)
      (wsSplits_mem p2.1 pb.1 hsp2)
    apply findSome?_isSome_of_mem _ _ (pb.1, ([] : Str))
      (by
        have := argCands_mem pb.1 [] hshB
        rw [List.append_nil] at this
        exact this)
    rfl

/-- ASCII letters are outside the reserved placeholder range. -/
theorem asciiLetter_not_magic (c : Char) (h : asciiLetter c = true) :
    isMagicChar c = false := by
  unfold asciiLetter at h
  unfold isMagicChar MAGIC_FIRST MAGIC_LAST
  simp only [Bool.or_eq_true, Bool.and_eq_true, decide_eq_true_eq] at h
  simp only [Bool.and_eq_false_iff, decide_eq_false_iff_not]
  left
  rcases h with ⟨_, h2⟩ | ⟨_, h2⟩
  · have h2n : c.toNat ≤ 122 := h2
    omega
  · have h2n : c.toNat ≤ 90 := h2
    omega

/-- The `[_^]?` candidates decompose the string, and a consumed marker is
`_` or `^`. -/
theorem hatCands_facts (s : Str) (ph : Str × Str) (h : ph ∈ hatCands s) :
    ph.1 ++ ph.2 = s ∧ (ph.1 = [] ∨ ph.1 = ['_'] ∨ ph.1 = ['^']) := by
  cases s with
  | nil =>
    simp only [hatCands, List.mem_singleton] at h
    subst h
    exact ⟨rfl, Or.inl rfl⟩
  | cons c r =>
    simp only [hatCands] at h
    by_cases hc : (c = '_' || c = '^') = true
    · rw [if_pos hc] at h
      rcases List.mem_cons.mp h with rfl | h2
      · refine ⟨rfl, ?_⟩
        rcases Bool.or_eq_true _ _ |>.mp hc with h3 | h3
        · exact Or.inr (Or.inl (by rw [decide_eq_true_eq] at h3; rw [h3]))
        · exact Or.inr (Or.inr (by rw [decide_eq_true_eq] at h3; rw [h3]))
      · rcases List.mem_singleton.mp h2 with rfl
        exact ⟨rfl, Or.inl rfl⟩
    · rw [if_neg hc] at h
      rcases List.mem_singleton.mp h with rfl
      exact ⟨rfl, Or.inl rfl⟩

/-- A generic-token match decomposes the string, is nonempty, and a token
beginning with a backslash is either a whole command (free of placeholder
characters) or at most two characters long. -/
theorem tokMatch_facts (x u v : Str) (h : tokMatch x = some (u, v)) :
    u ++ v = x ∧ u ≠ [] ∧ (u.head? = some '\\' → NoMagic u ∨ u.length ≤ 2) := by
  cases x with
  | nil => cases h
  | cons c r =>
    simp only [tokMatch] at h
    by_cases hc : c = '\\'
    · rw [if_pos hc] at h
      subst hc
      by_cases hl : (!(r.takeWhile asciiLetter).isEmpty) = true
      · rw [if_pos hl] at h
        rw [Option.some.injEq, Prod.mk.injEq] at h
        obtain ⟨hu, hv⟩ := h
        subst hu hv
        refine ⟨?_, by simp, ?_⟩
        · show '\\' :: ((r.takeWhile asciiLetter ++
            (r.dropWhile asciiLetter).takeWhile pySpace) ++
            (r.dropWhile asciiLetter).dropWhile pySpace) = '\\' :: r
          rw [List.append_assoc, List.takeWhile_append_dropWhile,
            List.takeWhile_append_dropWhile]
        · intro _
          left
          intro d hd
          rcases List.mem_cons.mp hd with rfl | hd2
          · decide
          · rcases List.mem_append.mp hd2 with hd3 | hd3
            · exact asciiLetter_not_magic d (List.mem_takeWhile_imp hd3)
            · exact pySpace_not_magic d (List.mem_takeWhile_imp hd3)
      · rw [if_neg hl] at h
        cases r with
        | nil =>
          rw [Option.some.injEq, Prod.mk.injEq] at h
          obtain ⟨hu, hv⟩ := h
          subst hu hv
          exact ⟨rfl, by simp, fun _ => Or.inr (by simp)⟩
        | cons d r2 =>
          have h2 : (if d ≠ '\n' then some (['\\', d], r2)
              else some (['\\'], d :: r2)) = some (u, v) := h
          by_cases hd : d ≠ '\n'
          · rw [if_pos hd, Option.some.injEq, Prod.mk.injEq] at h2
            obtain ⟨hu, hv⟩ := h2
            subst hu hv
            exact ⟨rfl, by simp, fun _ => Or.inr (by simp)⟩
          · rw [if_neg hd, Option.some.injEq, Prod.mk.injEq] at h2
            obtain ⟨hu, hv⟩ := h2
            subst hu hv
            exact ⟨rfl, by simp, fun _ => Or.inr (by simp)⟩
    · rw [if_neg hc] at h
      by_cases hw : pyWord c = true
      · rw [if_pos hw] at h
        rw [Option.some.injEq, Prod.mk.injEq] at h
        obtain ⟨hu, hv⟩ := h
        subst hu hv
        refine ⟨List.takeWhile_append_dropWhile _ _, ?_, ?_⟩
        · rw [List.takeWhile_cons_of_pos hw]
          simp
        · rw [List.takeWhile_cons_of_pos hw]
          intro hh
          rw [List.head?_cons, Option.some.injEq] at hh
          exact absurd hh hc
      · rw [if_neg hw] at h
        by_cases hn : c ≠ '\n'
        · rw [if_pos hn, Option.some.injEq, Prod.mk.injEq] at h
          obtain ⟨hu, hv⟩ := h
          subst hu hv
          exact ⟨rfl, by simp, fun _ => Or.inr (by simp)⟩
        · rw [if_neg hn] at h
          cases h

/-- The optional-command-prefix candidates decompose the string, and a
nonempty consumed prefix starts with a backslash followed by a letter other
than `f`. -/
theorem prefCands_facts (s : Str) (pp : Str × Str) (hp : pp ∈ prefCands s) :
    pp.1 ++ pp.2 = s ∧
      (pp.1 = [] ∨ ∃ c tl, pp.1 = '\\' :: c :: tl ∧ c ≠ 'f') := by
  unfold prefCands at hp
  rcases List.mem_append.mp hp with hp12 | hp3
  · rcases List.mem_append.mp hp12 with hpA | hpB
    · cases hfw : (["mathcal", "mathfrak", "mathbb", "text", "begin",
          "end"].findSome?
          (fun w =>
            if litPref ("\\" ++ w) s && bdry (s.drop (w.length + 1)) then
              some ((wsSplits (s.drop (w.length + 1))).map
                (fun p => (("\\" ++ w).data ++ p.1, p.2)))
            else none)) with
      | none =>
        rw [hfw] at hpA
        have hpA2 : pp ∈ ([] : List (Str × Str)) := hpA
        cases hpA2
      | some L =>
        rw [hfw] at hpA
        have hpA2 : pp ∈ L := hpA
        obtain ⟨w, hwmem, hfww⟩ := List.exists_of_findSome?_eq_some hfw
        by_cases hcond :
            (litPref ("\\" ++ w) s && bdry (s.drop (w.length + 1))) = true
        · rw [if_pos hcond, Option.some.injEq] at hfww
          subst hfww
          obtain ⟨p, hpm, hpe⟩ := List.mem_map.mp hpA2
          subst hpe
          obtain ⟨hsplit, _⟩ := wsSplits_split _ p hpm
          have hlit : litPref ("\\" ++ w) s = true :=
            ((Bool.and_eq_true _ _).mp hcond).1
          simp only [List.mem_cons, List.not_mem_nil, or_false] at hwmem
          rcases hwmem with rfl | rfl | rfl | rfl | rfl | rfl <;>
            (constructor
             · dsimp only
               rw [List.append_assoc, hsplit]
               exact litPref_decomp _ s hlit
             · dsimp only
               first
               | exact Or.inr ⟨'m', _, rfl, by decide⟩
               | exact Or.inr ⟨'t', _, rfl, by decide⟩
               | exact Or.inr ⟨'b', _, rfl, by decide⟩
               | exact Or.inr ⟨'e', _, rfl, by decide⟩)
        · rw [if_neg hcond] at hfww
          cases hfww
    · by_cases hsq : (litPref "\\sqrt" s && bdry (s.drop 5)) = true
      · rw [if_pos hsq] at hpB
        have hlit : litPref "\\sqrt" s = true :=
          ((Bool.and_eq_true _ _).mp hsq).1
        have hdec : "\\sqrt".data ++ s.drop 5 = s :=
          litPref_decomp "\\sqrt" s hlit
        rcases List.mem_append.mp hpB with hpI | hpL
        · split at hpI
          case _ r6 heq =>
            dsimp only at hpI
            by_cases hde : (!(r6.takeWhile pyDigitRe).isEmpty) = true
            · rw [if_pos hde] at hpI
              split at hpI
              case _ r8 heq2 =>
                rcases List.mem_singleton.mp hpI with rfl
                constructor
                · dsimp only
                  have hr6 : r6 = r6.takeWhile pyDigitRe ++
                      (']' :: r8) := by
                    conv_lhs => rw [← List.takeWhile_append_dropWhile
                      (p := pyDigitRe) (l := r6)]
                    rw [heq2]
                  rw [← hdec, heq]
                  conv_rhs => rw [hr6]
                  simp only [List.append_assoc, List.cons_append,
                    List.nil_append]
                · exact Or.inr ⟨'s', _, rfl, by decide⟩
              case _ hne =>
                cases hpI
            · rw [if_neg hde] at hpI
              cases hpI
          case _ hne =>
            cases hpI
        · rcases List.mem_singleton.mp hpL with rfl
          exact ⟨hdec, Or.inr ⟨'s', _, rfl, by decide⟩⟩
      · rw [if_neg hsq] at hpB
        cases hpB
  · rcases List.mem_singleton.mp hp3 with rfl
    exact ⟨List.nil_append s, Or.inl rfl⟩

/-- A literal prefix is no longer than the string it prefixes. -/
theorem litPref_le (p : String) (s : Str) (h : litPref p s = true) :
    p.data.length ≤ s.length :=
  (List.isPrefixOf_iff_prefix.mp h).length_le

/-- The generic alternative of the tokenizer pattern: the match decomposes
the string, is nonempty, and cannot both start with `\frac` and contain a
placeholder character. -/
theorem nextToken_generic (s t r : Str)
    (h : ((prefCands s).findSome? fun pp =>
      (hatCands pp.2).findSome? fun ph =>
        (tokMatch ph.2).map fun pt => (pp.1 ++ ph.1 ++ pt.1, pt.2)) =
      some (t, r)) :
    t ++ r = s ∧ t ≠ [] ∧ (litPref "\\frac" t = true → NoMagic t) := by
  obtain ⟨pp, hppm, h1⟩ := List.exists_of_findSome?_eq_some h
  obtain ⟨ph, hphm, h2⟩ := List.exists_of_findSome?_eq_some h1
  cases htm : tokMatch ph.2 with
  | none =>
    rw [htm] at h2
    cases h2
  | some pt =>
    rw [htm] at h2
    have h3 : some (pp.1 ++ ph.1 ++ pt.1, pt.2) = some (t, r) := h2
    rw [Option.some.injEq, Prod.mk.injEq] at h3
    obtain ⟨ht, hr⟩ := h3
    subst ht hr
    obtain ⟨hsp, hhead⟩ := prefCands_facts s pp hppm
    obtain ⟨hsh, hshape⟩ := hatCands_facts pp.2 ph hphm
    obtain ⟨htsp, htne, htsh⟩ := tokMatch_facts ph.2 pt.1 pt.2 htm
    refine ⟨?_, ?_, ?_⟩
    · simp only [List.append_assoc]
      rw [htsp, hsh, hsp]
    · intro he
      rcases List.append_eq_nil.mp he with ⟨_, he2⟩
      exact htne he2
    · intro hfr
      rcases hhead with hpe | ⟨c0, tl, hpc, hcf⟩
      · rcases hshape with hph1 | hph1 | hph1
        · rw [hpe, hph1, List.nil_append, List.nil_append] at hfr ⊢
          have hh : pt.1.head? = some '\\' := by
            obtain ⟨tail, htail⟩ := List.isPrefixOf_iff_prefix.mp hfr
            rw [← htail]
            rfl
          rcases htsh hh with hnm | hlen
          · exact hnm
          · exfalso
            have h5 : (5 : Nat) ≤ pt.1.length := litPref_le "\\frac" _ hfr
            omega
        · exfalso
          rw [hpe, hph1, List.nil_append] at hfr
          exact Bool.noConfusion (show (false : Bool) = true from hfr)
        · exfalso
          rw [hpe, hph1, List.nil_append] at hfr
          exact Bool.noConfusion (show (false : Bool) = true from hfr)
      · exfalso
        rw [hpc] at hfr
        have hfr2 : ('\\' == '\\' && ('f' == c0 &&
            List.isPrefixOf ['r', 'a', 'c'] ((tl ++ ph.1) ++ pt.1))) =
            true := hfr
        simp only [Bool.and_eq_true, beq_iff_eq] at hfr2
        exact hcf hfr2.2.1.symm

/-- One tokenizer match decomposes the string, is nonempty, and if it is an
unfixable `\frac` token (the anchored argument search fails on its tail) it
is free of placeholder characters. -/
theorem nextToken_facts (s t r : Str) (h : nextToken s = some (t, r)) :
    t ++ r = s ∧ t ≠ [] ∧
      (reCmdTail "frac" t = true → fracSearch true (t.drop 5) = none →
        NoMagic t) := by
  cases s with
  | nil => cases h
  | cons c s' =>
    simp only [nextToken] at h
    by_cases hsp : pySpace c = true
    · rw [if_pos hsp] at h
      rw [Option.some.injEq, Prod.mk.injEq] at h
      obtain ⟨ht, hr⟩ := h
      subst ht hr
      refine ⟨List.takeWhile_append_dropWhile _ _, ?_, ?_⟩
      · rw [List.takeWhile_cons_of_pos hsp]
        simp
      · intro _ _ d hd
        exact pySpace_not_magic d (List.mem_takeWhile_imp hd)
    · rw [if_neg hsp] at h
      by_cases hlp : litPref "\\frac" (c :: s') = true
      · rw [if_pos hlp] at h
        cases hfs : fracSearch false ((c :: s').drop 5) with
        | some fs =>
          obtain ⟨con, a2, b2, rest⟩ := fs
          rw [hfs] at h
          have h2 : some ("\\frac".data ++ con, rest) = some (t, r) := h
          rw [Option.some.injEq, Prod.mk.injEq] at h2
          obtain ⟨ht, hr⟩ := h2
          subst ht hr
          obtain ⟨hcr, hiss⟩ := fracSearch_refind _ con a2 b2 rest hfs
          refine ⟨?_, by simp, ?_⟩
          · rw [List.append_assoc, hcr]
            exact litPref_decomp "\\frac" (c :: s') hlp
          · intro _ hnone
            exfalso
            have hdrop : ("\\frac".data ++ con).drop 5 = con :=
              List.drop_left "\\frac".data con
            rw [hdrop] at hnone
            rw [hnone] at hiss
            cases hiss
        | none =>
          rw [hfs] at h
          have h2 : ((prefCands (c :: s')).findSome? fun pp =>
              (hatCands pp.2).findSome? fun ph =>
                (tokMatch ph.2).map fun pt =>
                  (pp.1 ++ ph.1 ++ pt.1, pt.2)) = some (t, r) := h
          obtain ⟨hsp2, hne2, hfr2⟩ := nextToken_generic (c :: s') t r h2
          refine ⟨hsp2, hne2, fun hrc _ => hfr2 ?_⟩
          exact ((Bool.and_eq_true _ _).mp hrc).1
      · rw [if_neg hlp] at h
        have h2 : ((prefCands (c :: s')).findSome? fun pp =>
            (hatCands pp.2).findSome? fun ph =>
              (tokMatch ph.2).map fun pt =>
                (pp.1 ++ ph.1 ++ pt.1, pt.2)) = some (t, r) := h
        obtain ⟨hsp2, hne2, hfr2⟩ := nextToken_generic (c :: s') t r h2
        refine ⟨hsp2, hne2, fun hrc _ => hfr2 ?_⟩
        exact ((Bool.and_eq_true _ _).mp hrc).1

/-- Every token produced by the tokenization loop is placeholder-free
whenever it is an unfixable `\frac` token. -/
theorem tokenizeGo_facts (fuel : Nat) :
    ∀ s t, t ∈ tokenizeGo fuel s →
      reCmdTail "frac" t = true → fracSearch true (t.drop 5) = none →
        NoMagic t := by
  induction fuel with
  | zero =>
    intro s t ht
    cases ht
  | succ fuel ih =>
    intro s t ht
    rw [tokenizeGo] at ht
    cases hnt : nextToken s with
    | none =>
      rw [hnt] at ht
      cases ht
    | some p =>
      rw [hnt] at ht
      rcases List.mem_cons.mp ht with rfl | ht2
      · exact (nextToken_facts s p.1 p.2 hnt).2.2
      · exact ih p.2 t ht2

/-- The token-resolution fold keeps every accumulated part free of
placeholder characters. -/
theorem tokensFold_ok (fuel : Nat) (vec : List Str) (hv : VecOK vec) :
    ∀ ts parts out,
      (∀ p ∈ parts, NoMagic p) →
      (∀ t ∈ ts, reCmdTail "frac" t = true →
        fracSearch true (t.drop 5) = none → NoMagic t) →
      tokensFold fuel vec parts ts = .ok out → ∀ p ∈ out, NoMagic p := by
  intro ts
  induction ts with
  | nil =>
    intro parts out hparts _ h
    rw [tokensFold] at h
    cases h
    exact hparts
  | cons t ts ih =>
    intro parts out hparts htok h
    rw [tokensFold] at h
    cases heg : expand_group fuel vec parts t with
    | ok v =>
      rw [heg] at h
      rw [MathRes.bind_ok] at h
      have hvNM : NoMagic v := by
        rcases expand_group_ok_noMagic fuel vec parts t v hv heg with
          hnm | ⟨heq, hrc, hfs⟩
        · exact hnm
        · rw [heq]
          exact htok t (List.mem_cons_self t ts) hrc hfs
      refine ih _ out ?_ (fun t2 ht2 => htok t2 (List.mem_cons_of_mem t ht2))
        h
      by_cases hve : v.isEmpty = true
      · rw [if_pos hve]
        exact hparts
      · rw [if_neg hve]
        intro p hp
        rcases List.mem_append.mp hp with hp1 | hp2
        · exact hparts p hp1
        · rcases List.mem_singleton.mp hp2 with rfl
          exact hvNM
    | crash =>
      rw [heg] at h
      have h2 : (MathRes.crash : MathRes (List Str)) = .ok out := h
      cases h2
    | fuelOut =>
      rw [heg] at h
      have h2 : (MathRes.fuelOut : MathRes (List Str)) = .ok out := h
      cases h2

/-- Along every successful run of the mutual recursion of `to_math`, the
placeholder vector only ever stores placeholder-free entries, and `recurse`
returns placeholder-free text. -/
theorem toMath_stack_noMagic : ∀ fuel : Nat,
    (∀ vec text res, VecOK vec → recurse fuel vec text = .ok res →
      NoMagic res.1 ∧ VecOK res.2) ∧
    (∀ vec text res, VecOK vec → recLoop fuel vec text = .ok res →
      VecOK res.2) ∧
    (∀ vec text res, VecOK vec → mmLoop fuel vec text = .ok res →
      VecOK res.2) ∧
    (∀ vec text res, VecOK vec → bracesPass fuel vec text = .ok res →
      VecOK res.2) := by
  intro fuel
  induction fuel with
  | zero =>
    refine ⟨?_, ?_, ?_, ?_⟩
    · intro vec text res _ h
      rw [recurse] at h
      cases h
    · intro vec text res _ h
      rw [recLoop] at h
      cases h
    · intro vec text res _ h
      rw [mmLoop] at h
      cases h
    · intro vec text res _ h
      rw [bracesPass] at h
      cases h
  | succ fuel ih =>
    obtain ⟨ihR, ihL, ihM, ihB⟩ := ih
    refine ⟨?_, ?_, ?_, ?_⟩
    · intro vec text res hv h
      rw [recurse] at h
      cases hrl : recLoop fuel vec text with
      | ok r1 =>
        rw [hrl, MathRes.bind_ok] at h
        have hv1 : VecOK r1.2 := ihL vec text r1 hv hrl
        cases htf : tokensFold fuel r1.2 [] (tokenize r1.1) with
        | ok parts =>
          rw [htf, MathRes.bind_ok] at h
          have hparts : ∀ p ∈ parts, NoMagic p :=
            tokensFold_ok fuel r1.2 hv1 (tokenize r1.1) [] parts
              (by intro p hp; cases hp)
              (fun t ht => tokenizeGo_facts r1.1.length r1.1 t ht) htf
          cases h
          refine ⟨?_, hv1⟩
          intro c hc
          obtain ⟨l, hl, hcl⟩ := List.mem_flatten.mp hc
          exact hparts l hl c hcl
        | crash =>
          rw [htf] at h
          have h2 : (MathRes.crash : MathRes (Str × List Str)) = .ok res := h
          cases h2
        | fuelOut =>
          rw [htf] at h
          have h2 : (MathRes.fuelOut : MathRes (Str × List Str)) = .ok res :=
            h
          cases h2
      | crash =>
        rw [hrl] at h
        have h2 : (MathRes.crash : MathRes (Str × List Str)) = .ok res := h
        cases h2
      | fuelOut =>
        rw [hrl] at h
        have h2 : (MathRes.fuelOut : MathRes (Str × List Str)) = .ok res := h
        cases h2
    · intro vec text res hv h
      rw [recLoop] at h
      cases hmm : mmLoop fuel vec text with
      | ok r1 =>
        rw [hmm, MathRes.bind_ok] at h
        have hv1 : VecOK r1.2 := ihM vec text r1 hv hmm
        by_cases heq : r1.1 = text
        · rw [if_pos heq] at h
          cases h
          exact hv1
        · rw [if_neg heq] at h
          exact ihL r1.2 r1.1 res hv1 h
      | crash =>
        rw [hmm] at h
        have h2 : (MathRes.crash : MathRes (Str × List Str)) = .ok res := h
        cases h2
      | fuelOut =>
        rw [hmm] at h
        have h2 : (MathRes.fuelOut : MathRes (Str × List Str)) = .ok res := h
        cases h2
    · intro vec text res hv h
      rw [mmLoop] at h
      cases hbr : bracesPass fuel vec text with
      | ok r1 =>
        rw [hbr, MathRes.bind_ok] at h
        have hv1 : VecOK r1.2 := ihB vec text r1 hv hbr
        by_cases heq : r1.1 = text
        · rw [if_pos heq] at h
          cases h
          exact hv1
        · rw [if_neg heq] at h
          exact ihM r1.2 r1.1 res hv1 h
      | crash =>
        rw [hbr] at h
        have h2 : (MathRes.crash : MathRes (Str × List Str)) = .ok res := h
        cases h2
      | fuelOut =>
        rw [hbr] at h
        have h2 : (MathRes.fuelOut : MathRes (Str × List Str)) = .ok res := h
        cases h2
    · intro vec text res hv h
      cases text with
      | nil =>
        rw [bracesPass] at h
        cases h
        exact hv
      | cons c rest =>
        rw [bracesPass] at h
        by_cases hc : c = '\x7b'
        · rw [if_pos hc] at h
          dsimp only at h
          by_cases hcond :
              (!(rest.takeWhile fun x => x ≠ '\x7b' && x ≠ '\x7d').isEmpty &&
                decide ((rest.drop (rest.takeWhile fun x =>
                  x ≠ '\x7b' && x ≠ '\x7d').length).head? =
                    some '\x7d')) = true
          · rw [if_pos hcond] at h
            by_cases hn : MAGIC_FIRST + vec.length ≤ 0x10FFFF
            · rw [if_pos hn] at h
              cases hrec : recurse fuel vec
                  (rest.takeWhile fun x => x ≠ '\x7b' && x ≠ '\x7d') with
              | ok r =>
                rw [hrec, MathRes.bind_ok] at h
                obtain ⟨hr1, hr2⟩ := ihR vec _ r hv hrec
                have hv2 : VecOK (r.2 ++ [r.1]) := by
                  intro e he
                  rcases List.mem_append.mp he with he1 | he2
                  · exact hr2 e he1
                  · rcases List.mem_singleton.mp he2 with rfl
                    exact hr1
                cases hbp : bracesPass fuel (r.2 ++ [r.1])
                    ((rest.drop (rest.takeWhile fun x =>
                      x ≠ '\x7b' && x ≠ '\x7d').length).drop 1) with
                | ok r2 =>
                  rw [hbp, MathRes.bind_ok] at h
                  cases h
                  exact ihB _ _ r2 hv2 hbp
                | crash =>
                  rw [hbp] at h
                  have h2 : (MathRes.crash : MathRes (Str × List Str)) =
                      .ok res := h
                  cases h2
                | fuelOut =>
                  rw [hbp] at h
                  have h2 : (MathRes.fuelOut : MathRes (Str × List Str)) =
                      .ok res := h
                  cases h2
              | crash =>
                rw [hrec] at h
                have h2 : (MathRes.crash : MathRes (Str × List Str)) =
                    .ok res := h
                cases h2
              | fuelOut =>
                rw [hrec] at h
                have h2 : (MathRes.fuelOut : MathRes (Str × List Str)) =
                    .ok res := h
                cases h2
            · rw [if_neg hn] at h
              cases h
          · rw [if_neg hcond] at h
            cases hbp : bracesPass fuel vec rest with
            | ok r =>
              rw [hbp, MathRes.bind_ok] at h
              cases h
              exact ihB vec rest r hv hbp
            | crash =>
              rw [hbp] at h
              have h2 : (MathRes.crash : MathRes (Str × List Str)) =
                  .ok res := h
              cases h2
            | fuelOut =>
              rw [hbp] at h
              have h2 : (MathRes.fuelOut : MathRes (Str × List Str)) =
                  .ok res := h
              cases h2
        · rw [if_neg hc] at h
          cases hbp : bracesPass fuel vec rest with
          | ok r =>
            rw [hbp, MathRes.bind_ok] at h
            cases h
            exact ihB vec rest r hv hbp
          | crash =>
            rw [hbp] at h
            have h2 : (MathRes.crash : MathRes (Str × List Str)) =
                .ok res := h
            cases h2
          | fuelOut =>
            rw [hbp] at h
            have h2 : (MathRes.fuelOut : MathRes (Str × List Str)) =
                .ok res := h
            cases h2

/-- C10: for every input string containing no code points in the reserved
private-use placeholder range, the string returned by `to_math` (when it
returns one) also contains none: every placeholder allocated into the
per-call placeholder vector is expanded back to its resolved text before
the result is returned. -/
theorem C10_placeholders_expanded (text out : Str) (_hin : NoMagic text)
    (h : to_math text = .ok out) : NoMagic out := by
  unfold to_math at h
  cases hrec : recurse ((text.length + 8) * (text.length + 8)) [] text with
  | ok r =>
    rw [hrec, MathRes.bind_ok] at h
    cases h
    exact ((toMath_stack_noMagic _).1 [] text r
      (by intro e he; cases he) hrec).1
  | crash =>
    rw [hrec] at h
    have h2 : (MathRes.crash : MathRes Str) = .ok out := h
    cases h2
  | fuelOut =>
    rw [hrec] at h
    have h2 : (MathRes.fuelOut : MathRes Str) = .ok out := h
    cases h2

/-- Witness for C10 at the concrete input `x^2`, whose rendering is `x²`. -/
theorem C10_placeholders_expanded_witness :
    NoMagic "x^2".data ∧ to_math "x^2".data = .ok "x²".data ∧
      NoMagic "x²".data :=
  ⟨by decide, by decide,
    C10_placeholders_expanded "x^2".data "x²".data (by decide) (by decide)⟩

/-- C5: the totality claim fails on raw private-use input.  A character in
the reserved placeholder range arrives at `expand` with an empty
placeholder vector, and indexing the vector raises IndexError (modelled by
`crash`); the same input wrapped in a `<math>` element crashes
`clean_value` through its math pass. -/
theorem C5_totality_crash :
    to_math [Char.ofNat MAGIC_FIRST] = .crash ∧
      cleanValue ⟨""⟩ ("<math>".data ++ [Char.ofNat MAGIC_FIRST] ++
        "</math>".data) = .crash :=
  ⟨by decide, by decide⟩
